import Mathlib

/-!
SEdit: a shallow embedding of `sedit.c`

The editor keeps one global `struct config St`.  Here it is an explicit value
that every operation takes and returns.

Conventions of the embedding.

* A C `char` is modelled by its integer value as the C comparisons see it
  (an `Int`); results stated for every `Int` hold whether `char` is signed
  or unsigned.
* A C string with an explicit length (`characters`/`size`, `render`/`rsize`)
  is the list of its bytes before the terminating NUL; reading the cell at
  the length yields the NUL, `0`.
* A pointer `erow *row` into `St.rows` is the position of that row.
* The `long` fields of the cursor and of the viewport are `Int`; counters and
  array indices, which the program never drives below zero, are `Nat`.
* A function returns `none` when the C call would not return (a loop that
  never ends) or would leave the modelled state space (an access outside an
  array).
-/

namespace SEdit

/-! ## defines -/

/-- The constant `SEDIT_TAB_STOP`. -/
def SEDIT_TAB_STOP : Nat := 4

/-- The enumeration `enum editor_hightlight`. -/
inductive editor_hightlight where
  | HL_NORMAL
  | HL_COMMENT
  | HL_STRING
  | HL_NUMBER
  | HL_MATCH
  | HL_KEYWORD_1
  | HL_KEYWORD_2
  deriving DecidableEq, Repr

open editor_hightlight

/-- Key code `BACKSPACE` of `enum editor_key`. -/
def BACKSPACE : Int := 127
/-- Key code `ESC`. -/
def ESC : Int := 27
/-- Key code `ARROW_UP`. -/
def ARROW_UP : Int := 1000
/-- Key code `ARROW_DOWN`. -/
def ARROW_DOWN : Int := 1001
/-- Key code `ARROW_LEFT`. -/
def ARROW_LEFT : Int := 1002
/-- Key code `ARROW_RIGHT`. -/
def ARROW_RIGHT : Int := 1003
/-- Key code `PAGE_UP`. -/
def PAGE_UP : Int := 1004
/-- Key code `PAGE_DOWN`. -/
def PAGE_DOWN : Int := 1005
/-- Key code `HOME`. -/
def HOME : Int := 1006
/-- Key code `END`. -/
def END : Int := 1007
/-- Key code `DEL_KEY`. -/
def DEL_KEY : Int := 1008

/-- The bytes of a string literal of the source, as `char` values. -/
def cstr (s : String) : List Int := s.toList.map (fun c => Int.ofNat c.toNat)

/-- The record `struct erow`; `size` and `rsize` are the lengths of
`characters` and `render`. -/
structure erow where
  idx : Nat
  characters : List Int
  render : List Int
  hl : List editor_hightlight
  hl_open_comment : Bool
  deriving DecidableEq, Repr

/-- The record `struct editor_syntax`. -/
structure editor_syntax where
  file_type : List Int
  file_match : List (List Int)
  keywords : List (List Int)
  singleline_comment_start : List Int
  multiline_comment_start : List Int
  multiline_comment_end : List Int
  flags : Nat
  deriving DecidableEq, Repr

/-- Flag bit `HL_HIGHLIGHT_NUMBERS`. -/
def HL_HIGHLIGHT_NUMBERS : Nat := 1
/-- Flag bit `HL_HIGHLIGHT_STRINGS`. -/
def HL_HIGHLIGHT_STRINGS : Nat := 2

/-- The record `struct config` (the global `St`), without the terminal
settings and the status message.  The field `syn` is the pointer
`St.syntax`, `none` for `NULL`. -/
structure config where
  screen_rows : Int
  screen_cols : Int
  cx : Int
  cy : Int
  ry : Int
  num_rows : Nat
  row_offset : Int
  col_offset : Int
  rows : List erow
  file_name : Option (List Int)
  syn : Option editor_syntax
  modified : Nat
  quit_pressed_last : Bool
  deriving DecidableEq, Repr

/-! ## data -/

/-- The table `C_HL_extensions`. -/
def C_HL_extensions : List (List Int) :=
  [cstr ".c", cstr ".h", cstr ".cpp", cstr ".hpp"]

/-- The table `C_HL_keywords`. -/
def C_HL_keywords : List (List Int) :=
  [cstr "switch", cstr "if", cstr "while", cstr "for", cstr "break",
   cstr "continue", cstr "return", cstr "else", cstr "#include",
   cstr "#define", cstr "struct", cstr "union", cstr "typedef",
   cstr "static", cstr "enum", cstr "class", cstr "case", cstr "const",
   cstr "int|", cstr "long|", cstr "double|", cstr "float|", cstr "char|",
   cstr "unsigned|", cstr "signed|", cstr "void|"]

/-- The only entry of `HLDB`, the C/C++ profile. -/
def HLDB_C : editor_syntax where
  file_type := cstr "C/C++"
  file_match := C_HL_extensions
  keywords := C_HL_keywords
  singleline_comment_start := cstr "//"
  multiline_comment_start := cstr "/*"
  multiline_comment_end := cstr "*/"
  flags := HL_HIGHLIGHT_NUMBERS ||| HL_HIGHLIGHT_STRINGS

/-- The state `init_editor` sets up, for a window of the given size (the
two status lines are already taken off `rows`). -/
def init_editor (rows cols : Int) : config where
  screen_rows := rows
  screen_cols := cols
  cx := 0
  cy := 0
  ry := 0
  num_rows := 0
  row_offset := 0
  col_offset := 0
  rows := []
  file_name := none
  syn := none
  modified := 0
  quit_pressed_last := false

/-! ## row operations: rendering -/

/-- The `do { render[idx++] = SPACE; } while (idx % SEDIT_TAB_STOP);` loop of
`editor_update_row`; `out` is the display string written so far, so `idx`
is its length.  The loop body runs at most `SEDIT_TAB_STOP` times. -/
def tab_fill : Nat → List Int → List Int
  | 0, out => out
  | fuel + 1, out =>
    let out1 := out ++ [32]
    if out1.length % SEDIT_TAB_STOP != 0 then tab_fill fuel out1 else out1

/-- One iteration of the second `for` loop of `editor_update_row`. -/
def render_step (out : List Int) (c : Int) : List Int :=
  if c = 9 then tab_fill SEDIT_TAB_STOP out
  else if 0 ≤ c ∧ c ≤ 26 then out ++ [94, 64 + c]
  else if 28 ≤ c ∧ c ≤ 31 then out ++ [94, 63]
  else out ++ [c]

/-- The second `for` loop of `editor_update_row` over the raw bytes. -/
def render_loop : List Int → List Int → List Int
  | [], out => out
  | c :: cs, out => render_loop cs (render_step out c)

/-- The display string `editor_update_row` stores in `row->render`. -/
def render_row (characters : List Int) : List Int := render_loop characters []

/-- The cells the specification prescribes for byte `b` at display column
`col`. -/
def spec_cells (col : Nat) (b : Int) : List Int :=
  if b = 9 then List.replicate (4 - col % 4) 32
  else if 0 ≤ b ∧ b ≤ 26 then [94, 64 + b]
  else if 28 ≤ b ∧ b ≤ 31 then [94, 63]
  else [b]

/-- The display string as the specification words it: the concatenation of
the cells of every byte, in order, starting at display column `col`. -/
def spec_render : Nat → List Int → List Int
  | _, [] => []
  | col, b :: bs =>
    spec_cells col b ++ spec_render (col + (spec_cells col b).length) bs
/-! ## syntax highlight -/

/-- The library call `isspace` in the C locale. -/
def isspace (c : Int) : Bool := c == 32 || (9 ≤ c && c ≤ 13)

/-- The library call `isdigit`. -/
def isdigit (c : Int) : Bool := 48 ≤ c && c ≤ 57

/-- The function `is_separator`; `strchr` also finds the terminating NUL of
its first argument, which the middle disjunct covers already. -/
def is_separator (c : Int) : Bool :=
  isspace c || c == 0 || (cstr ",.()+-/*=~%<>[]\x7b\x7d;").contains c

/-- The test `strncmp(a, b, n) == 0` on NUL-terminated strings given by
their bytes before the NUL. -/
def strncmp_eq : Nat → List Int → List Int → Bool
  | 0, _, _ => true
  | n + 1, a, b =>
    if a.headD 0 != b.headD 0 then false
    else if a.headD 0 == 0 then true
    else strncmp_eq n a.tail b.tail

/-- The call `memset(hl + y, v, n)`, clipped to the array. -/
def memset (hl : List editor_hightlight) (y : Nat) (v : editor_hightlight)
    (n : Nat) : List editor_hightlight :=
  hl.take y ++ List.replicate (min n (hl.length - y)) v ++ hl.drop (y + n)

/-- The local variables of the scan loop of `editor_update_syntax`, with
the tag array `row->hl`. -/
structure scan_state where
  y : Nat
  hl : List editor_hightlight
  is_prev_sep : Bool
  inside_string : Int
  inside_comment : Bool
  deriving DecidableEq, Repr

/-- The `while(*kws)` loop of `editor_update_syntax`: the first entry whose
text (without a trailing bar) matches at `y` and is followed by a
separator, as `(kw_len, is_keyword_2)`; `none` when `*kws` ends up `NULL`. -/
def find_keyword (render : List Int) (y : Nat) :
    List (List Int) → Option (Nat × Bool)
  | [] => none
  | kw :: kws =>
    let is_keyword_2 := kw.getLast? == some 124
    let kw_len := if is_keyword_2 then kw.length - 1 else kw.length
    if strncmp_eq kw_len kw (render.drop y)
        && is_separator (render.getD (y + kw_len) 0) then
      some (kw_len, is_keyword_2)
    else find_keyword render y kws

/-- The block `if(is_prev_sep){...}` of `editor_update_syntax`: `some` of the
state at its `continue`, `none` when control falls out of the block. -/
def keyword_block (syn : editor_syntax) (render : List Int)
    (st : scan_state) : Option scan_state :=
  if st.is_prev_sep then
    match find_keyword render st.y syn.keywords with
    | some (kw_len, is_keyword_2) =>
      some { st with
        hl := memset st.hl st.y
          (if is_keyword_2 then HL_KEYWORD_2 else HL_KEYWORD_1) kw_len
        y := st.y + kw_len
        is_prev_sep := false }
    | none => none
  else none

/-- The part of the loop body after the block-comment section: numbers,
keywords, and the default case.  `ch` and `prev_hl` are the values read at
the top of the iteration.  The boolean says whether the loop goes on. -/
def scan_tail (syn : editor_syntax) (render : List Int) (ch : Int)
    (prev_hl : editor_hightlight) (st : scan_state) : scan_state × Bool :=
  if syn.flags &&& HL_HIGHLIGHT_NUMBERS != 0
      && ((isdigit ch && (st.is_prev_sep || prev_hl == HL_NUMBER))
          || (ch == 46 && prev_hl == HL_NUMBER)) then
    ({ st with hl := st.hl.set st.y HL_NUMBER, y := st.y + 1,
               is_prev_sep := false }, true)
  else
    match keyword_block syn render st with
    | some st1 => (st1, true)
    | none => ({ st with is_prev_sep := is_separator ch, y := st.y + 1 }, true)

/-- The block-comment section of the loop body, followed by the rest of
the body where the source falls through (after a closing marker too). -/
def scan_comment (syn : editor_syntax) (render : List Int) (ch : Int)
    (prev_hl : editor_hightlight) (st : scan_state) : scan_state × Bool :=
  if st.inside_string == 0 then
    if st.inside_comment then
      let hl1 := st.hl.set st.y HL_COMMENT
      if strncmp_eq syn.multiline_comment_end.length
          syn.multiline_comment_end (render.drop st.y) then
        scan_tail syn render ch prev_hl
          { st with
            hl := memset hl1 st.y HL_COMMENT syn.multiline_comment_end.length
            y := st.y + syn.multiline_comment_end.length
            inside_comment := false }
      else ({ st with hl := hl1, y := st.y + 1 }, true)
    else if strncmp_eq syn.multiline_comment_start.length
        (render.drop st.y) syn.multiline_comment_start then
      ({ st with
         hl := memset st.hl st.y HL_COMMENT syn.multiline_comment_start.length
         y := st.y + syn.multiline_comment_start.length
         inside_comment := true }, true)
    else scan_tail syn render ch prev_hl st
  else scan_tail syn render ch prev_hl st

/-- One iteration of the `while(y < row->rsize)` loop of
`editor_update_syntax`; the boolean is `false` at the `break`. -/
def scan_body (syn : editor_syntax) (render : List Int) (st : scan_state) :
    scan_state × Bool :=
  let ch := render.getD st.y 0
  let prev_hl := if st.y > 0 then st.hl.getD (st.y - 1) HL_NORMAL else HL_NORMAL
  if st.inside_string == 0 && !st.inside_comment
      && strncmp_eq syn.singleline_comment_start.length
          syn.singleline_comment_start (render.drop st.y) then
    ({ st with hl := memset st.hl st.y HL_COMMENT (render.length - st.y) },
      false)
  else if syn.flags &&& HL_HIGHLIGHT_STRINGS != 0 then
    if st.inside_string != 0 then
      ({ st with
         hl := st.hl.set st.y HL_STRING
         inside_string :=
           if st.inside_string == ch && render.getD (st.y - 1) 0 != 92 then 0
           else st.inside_string
         is_prev_sep := true
         y := st.y + 1 }, true)
    else if ch == 34 || ch == 39 then
      ({ st with inside_string := ch, hl := st.hl.set st.y HL_STRING,
                 y := st.y + 1 }, true)
    else scan_comment syn render ch prev_hl st
  else scan_comment syn render ch prev_hl st

/-- The `while(y < row->rsize)` loop; `none` when the fuel runs out. -/
def scan_loop (syn : editor_syntax) (render : List Int) :
    Nat → scan_state → Option scan_state
  | 0, _ => none
  | fuel + 1, st =>
    if st.y < render.length then
      match scan_body syn render st with
      | (st1, true) => scan_loop syn render fuel st1
      | (st1, false) => some st1
    else some st

/-- The locals of `editor_update_syntax` before the loop, the tag array
just cleared by its first `memset`. -/
def scan_init (render : List Int) (inside_comment : Bool) : scan_state :=
  { y := 0
    hl := List.replicate render.length HL_NORMAL
    is_prev_sep := true
    inside_string := 0
    inside_comment := inside_comment }

/-- The tags and the final `inside_comment` that `editor_update_syntax`
computes for one row with a profile, from the display string and the
initial value of `inside_comment`. -/
def highlight_row (syn : editor_syntax) (render : List Int)
    (inside_comment : Bool) : Option (List editor_hightlight × Bool) :=
  (scan_loop syn render (render.length + 1)
    (scan_init render inside_comment)).map
    (fun st => (st.hl, st.inside_comment))

/-- The store `St.rows[p] = row`. -/
def store_row (St : config) (p : Nat) (row : erow) : config :=
  { St with rows := St.rows.set p row }

/-- The value `row->idx > 0 && St.rows[row->idx - 1].hl_open_comment`. -/
def prev_open_comment (rows : List erow) (idx : Nat) : Option Bool :=
  if idx > 0 then (rows.get? (idx - 1)).map (fun r => r.hl_open_comment)
  else some false

/-- The function `editor_update_syntax` on the row at position `p`; the
recursive call is on `St.rows[row->idx + 1]`, and the first argument bounds
the depth of the recursion. -/
def editor_update_syntax_fuel : Nat → config → Nat → Option config
  | 0, _, _ => none
  | fuel + 1, St, p =>
    match St.rows.get? p with
    | none => none
    | some row =>
      match St.syn with
      | none =>
        some (store_row St p
          { row with hl := List.replicate row.render.length HL_NORMAL })
      | some syn =>
        match prev_open_comment St.rows row.idx with
        | none => none
        | some inside_comment =>
          match highlight_row syn row.render inside_comment with
          | none => none
          | some (hl, ic) =>
            let changed := row.hl_open_comment != ic
            let St1 := store_row St p
              { row with hl := hl, hl_open_comment := ic }
            if changed && row.idx + 1 < St.num_rows then
              editor_update_syntax_fuel fuel St1 (row.idx + 1)
            else some St1

/-- The function `editor_update_syntax`, with one level of recursion for
every row of the array and one to spare. -/
def editor_update_syntax (St : config) (p : Nat) : Option config :=
  editor_update_syntax_fuel (St.rows.length + 1) St p

/-! ## row operations -/

/-- The function `editor_update_row` on the row at position `p`.  The tag
array it allocates is uninitialised and `editor_update_syntax` overwrites
all of it at once; it is modelled as all `HL_NORMAL`. -/
def editor_update_row (St : config) (p : Nat) : Option config :=
  match St.rows.get? p with
  | none => none
  | some row =>
    let render := render_row row.characters
    editor_update_syntax
      (store_row St p
        { row with render := render
                   hl := List.replicate render.length HL_NORMAL }) p

/-- The function `editor_insert_row`; `s` is the text of the C string passed
(its bytes before the NUL, so that `strlen(s)` is its length);
`St.num_rows` is incremented only after the new row has been rendered and
highlighted. -/
def editor_insert_row (St : config) (i : Nat) (s : List Int) :
    Option config :=
  if i ≤ St.num_rows then
    let fresh : erow :=
      { idx := i, characters := s, render := [], hl := [],
        hl_open_comment := false }
    let rows1 := St.rows.take i ++ fresh ::
      (St.rows.drop i).map (fun r => { r with idx := r.idx + 1 })
    (editor_update_row { St with rows := rows1 } i).map
      (fun St1 => { St1 with num_rows := St1.num_rows + 1,
                             modified := St1.modified + 1 })
  else none

/-- The function `editor_row_insert_character`; the shifting loop stops at
`min at size`, where the byte is stored. -/
def editor_row_insert_character (St : config) (p : Nat) (i : Nat)
    (ch : Int) : Option config :=
  match St.rows.get? p with
  | none => none
  | some row =>
    (editor_update_row (store_row St p
      { row with characters :=
          row.characters.take i ++ ch :: row.characters.drop i }) p).map
      (fun St1 => { St1 with modified := St1.modified + 1 })

/-- The function `editor_row_append_string`, `len` being the length of
`str`. -/
def editor_row_append_string (St : config) (p : Nat) (str : List Int) :
    Option config :=
  match St.rows.get? p with
  | none => none
  | some row =>
    (editor_update_row (store_row St p
      { row with characters := row.characters ++ str }) p).map
      (fun St1 => { St1 with modified := St1.modified + 1 })

/-- The function `editor_row_delete_character`.  The loop shifts the bytes
after `at` (and the NUL) one cell down, and `size` is decremented whether or
not the loop ran; an empty row would get the size `-1` and is outside the
model. -/
def editor_row_delete_character (St : config) (p : Nat) (i : Nat) :
    Option config :=
  match St.rows.get? p with
  | none => none
  | some row =>
    if row.characters.length = 0 then none
    else
      let characters :=
        if i < row.characters.length then
          row.characters.take i ++ row.characters.drop (i + 1)
        else row.characters.take (row.characters.length - 1)
      (editor_update_row (store_row St p
        { row with characters := characters }) p).map
        (fun St1 => { St1 with modified := St1.modified + 1 })

/-- The function `editor_delete_row`; it does not call the highlighter. -/
def editor_delete_row (St : config) (i : Nat) : Option config :=
  if i < St.num_rows then
    some { St with
      rows := St.rows.take i ++
        (St.rows.drop (i + 1)).map (fun r => { r with idx := r.idx - 1 })
      num_rows := St.num_rows - 1
      modified := St.modified + 1 }
  else none

/-! ## output: cursor column and scrolling -/

/-- The function `cursor_below_last_line`. -/
def cursor_below_last_line (St : config) : Bool := St.cx == (St.num_rows : Int)

/-- The `do { ry++; } while (ry % SEDIT_TAB_STOP);` loop of
`editor_evaluate_ry`. -/
def ry_tab : Nat → Nat → Nat
  | 0, ry => ry
  | fuel + 1, ry =>
    if (ry + 1) % SEDIT_TAB_STOP != 0 then ry_tab fuel (ry + 1) else ry + 1

/-- One iteration of the `for` loop of `editor_evaluate_ry`. -/
def ry_step (ry : Nat) (c : Int) : Nat :=
  if c = 9 then ry_tab SEDIT_TAB_STOP ry
  else if c ≤ 31 then ry + 2
  else ry + 1

/-- The function `editor_evaluate_ry`. -/
def editor_evaluate_ry (St : config) : Option config :=
  if cursor_below_last_line St then some { St with ry := 0 }
  else if St.cx < 0 then none
  else
    match St.rows.get? St.cx.toNat with
    | none => none
    | some row =>
      if St.cy ≤ row.characters.length then
        some { St with
          ry := ((row.characters.take St.cy.toNat).foldl ry_step 0 : Nat) }
      else none

/-- The function `editor_scroll`. -/
def editor_scroll (St : config) : Option config :=
  (editor_evaluate_ry St).map fun St1 =>
    let St2 :=
      if St1.cx < St1.row_offset then { St1 with row_offset := St1.cx }
      else if St1.cx ≥ St1.row_offset + St1.screen_rows then
        { St1 with row_offset := St1.cx - St1.screen_rows + 1 }
      else St1
    if St2.ry < St2.col_offset then { St2 with col_offset := St2.ry }
    else if St2.ry ≥ St2.col_offset + St2.screen_cols then
      { St2 with col_offset := St2.ry - St2.screen_cols + 1 }
    else St2

/-! ## input -/

/-- One call `read(STDIN_FILENO, &c, 1)` of the raw terminal: the input is
the list of the outcomes of the calls to come, `some c` for a byte and
`none` for a call that times out and returns `0`; when the list is used up
every further call times out.  A call that fails with `-1` is not
modelled. -/
def read_byte : List (Option Int) → Option Int × List (Option Int)
  | [] => (none, [])
  | r :: rest => (r, rest)

/-- The body of `editor_read_key` once the first byte `ch` is there. -/
def editor_read_key_seq (ch : Int) (inp : List (Option Int)) :
    Int × List (Option Int) :=
  if ch = ESC then
    match read_byte inp with
    | (none, inp1) => (ESC, inp1)
    | (some b0, inp1) =>
      match read_byte inp1 with
      | (none, inp2) => (ESC, inp2)
      | (some b1, inp2) =>
        if b0 = 91 then
          if 48 ≤ b1 ∧ b1 ≤ 57 then
            match read_byte inp2 with
            | (none, inp3) => (ESC, inp3)
            | (some b2, inp3) =>
              if b2 = 126 then
                if b1 = 49 then (HOME, inp3)
                else if b1 = 51 then (DEL_KEY, inp3)
                else if b1 = 52 then (END, inp3)
                else if b1 = 53 then (PAGE_UP, inp3)
                else if b1 = 54 then (PAGE_DOWN, inp3)
                else if b1 = 55 then (HOME, inp3)
                else if b1 = 56 then (END, inp3)
                else (ESC, inp3)
              else (ESC, inp3)
          else if b1 = 65 then (ARROW_UP, inp2)
          else if b1 = 66 then (ARROW_DOWN, inp2)
          else if b1 = 68 then (ARROW_LEFT, inp2)
          else if b1 = 67 then (ARROW_RIGHT, inp2)
          else if b1 = 72 then (HOME, inp2)
          else if b1 = 70 then (END, inp2)
          else (ESC, inp2)
        else if b0 = 79 then
          if b1 = 72 then (HOME, inp2)
          else if b1 = 70 then (END, inp2)
          else (ch, inp2)
        else (ESC, inp2)
  else (ch, inp)

/-- The function `editor_read_key`: the key and the input left.  The first
loop retries until a read yields a byte; `none` when it never does. -/
def editor_read_key : List (Option Int) → Option (Int × List (Option Int))
  | [] => none
  | none :: rest => editor_read_key rest
  | some ch :: rest => some (editor_read_key_seq ch rest)

/-- The escape sequences of the specification with their keys. -/
def key_table : List (List Int × Int) :=
  [([27, 91, 65], ARROW_UP), ([27, 91, 66], ARROW_DOWN),
   ([27, 91, 67], ARROW_RIGHT), ([27, 91, 68], ARROW_LEFT),
   ([27, 91, 72], HOME), ([27, 91, 70], END),
   ([27, 79, 72], HOME), ([27, 79, 70], END),
   ([27, 91, 49, 126], HOME), ([27, 91, 51, 126], DEL_KEY),
   ([27, 91, 52, 126], END), ([27, 91, 53, 126], PAGE_UP),
   ([27, 91, 54, 126], PAGE_DOWN), ([27, 91, 55, 126], HOME),
   ([27, 91, 56, 126], END)]

/-! ## documents used in the statements -/

/-- An empty document in a window of the given size with the C/C++ profile
selected. -/
def empty_c_document (rows cols : Int) : config :=
  { init_editor rows cols with syn := some HLDB_C }

/-- The call `editor_insert_row(St.num_rows, s)` for every text of the
list, in order. -/
def append_rows : config → List (List Int) → Option config
  | St, [] => some St
  | St, s :: ss => (editor_insert_row St St.num_rows s).bind (append_rows · ss)

/-- The display string, the tags and the open-comment flag of every row. -/
def row_caches (St : config) :
    List (List Int × List editor_hightlight × Bool) :=
  St.rows.map (fun r => (r.render, r.hl, r.hl_open_comment))

/-! ## predicates used in the statements -/

/-- The row's stored tags (and, with a profile, its open-comment flag) are
what `editor_update_syntax` computes from the row's display string when the
row before it ends with the open-comment flag `prev_open`. -/
def row_consistent (syn : Option editor_syntax) (prev_open : Bool)
    (r : erow) : Prop :=
  match syn with
  | none => r.hl = List.replicate r.render.length HL_NORMAL
  | some s => highlight_row s r.render prev_open = some (r.hl, r.hl_open_comment)

instance row_consistent.dec (syn : Option editor_syntax) (prev_open : Bool)
    (r : erow) : Decidable (row_consistent syn prev_open r) :=
  match syn with
  | none => inferInstanceAs (Decidable (r.hl = _))
  | some s => inferInstanceAs (Decidable (highlight_row s r.render prev_open = _))

/-- Every row of the list is consistent, the first one with `prev_open` and
each later one with the stored flag of the row before it. -/
def rows_consistent (syn : Option editor_syntax) : Bool → List erow → Prop
  | _, [] => True
  | prev_open, r :: rs =>
    row_consistent syn prev_open r ∧ rows_consistent syn r.hl_open_comment rs

instance rows_consistent.dec (syn : Option editor_syntax) :
    (prev_open : Bool) → (rs : List erow) →
    Decidable (rows_consistent syn prev_open rs)
  | _, [] => isTrue trivial
  | prev_open, r :: rs =>
    match row_consistent.dec syn prev_open r,
        rows_consistent.dec syn r.hl_open_comment rs with
    | isTrue h1, isTrue h2 => isTrue ⟨h1, h2⟩
    | isFalse h1, _ => isFalse (fun h => h1 h.1)
    | _, isFalse h2 => isFalse (fun h => h2 h.2)

/-- Highlight consistency of a document: every line's tags and open-comment
flag are the highlighter's result on its display string given the flag of
the line before it, line 0 starting outside a comment. -/
def hl_consistent (St : config) : Prop := rows_consistent St.syn false St.rows

instance hl_consistent.dec (St : config) : Decidable (hl_consistent St) :=
  rows_consistent.dec St.syn false St.rows

/-- The array holds `num_rows` rows and every row's `idx` is its position,
as `editor_insert_row` and `editor_delete_row` keep it. -/
def rows_indexed (St : config) : Prop :=
  St.num_rows = St.rows.length
    ∧ St.rows.map (fun r => r.idx) = List.range' 0 St.rows.length

instance rows_indexed.dec (St : config) : Decidable (rows_indexed St) :=
  inferInstanceAs (Decidable (_ ∧ _))

/-- The scan loop advances with this profile: the block-comment start
marker and every keyword (without its trailing bar) are not empty. -/
def profile_advances (syn : editor_syntax) : Prop :=
  0 < syn.multiline_comment_start.length
    ∧ ∀ kw ∈ syn.keywords,
        0 < (if kw.getLast? == some 124 then kw.length - 1 else kw.length)

instance profile_advances.dec (syn : editor_syntax) :
    Decidable (profile_advances syn) :=
  inferInstanceAs (Decidable (_ ∧ _))

/-- The profile of the state, if any, is one of `profile_advances`. -/
def syntax_advances (St : config) : Prop :=
  match St.syn with
  | none => True
  | some syn => profile_advances syn

instance syntax_advances.dec (St : config) : Decidable (syntax_advances St) :=
  match h : St.syn with
  | none => isTrue (by simp [syntax_advances, h])
  | some syn =>
    if hp : profile_advances syn then isTrue (by simp [syntax_advances, h, hp])
    else isFalse (by simp [syntax_advances, h, hp])

/-- The open-comment flag the next row starts with, after the rows of the
list, when the row before the list ends with flag `b`. -/
def open_after (b : Bool) : List erow → Bool
  | [] => b
  | r :: rs => open_after r.hl_open_comment rs

/-- The fields of a row the highlighter leaves alone. -/
def row_text (r : erow) : Nat × List Int × List Int :=
  (r.idx, r.characters, r.render)

/-- The three-line document of the block-comment example, with the C/C++
profile, as `editor_insert_row` builds it. -/
def comment_document : config :=
  (append_rows (empty_c_document 24 80)
    [cstr "/* start", cstr "middle", cstr "end */ code"]).getD
    (empty_c_document 24 80)

/-- The two-line document `/* a`, `b` with the C/C++ profile, as
`editor_insert_row` builds it. -/
def open_comment_document : config :=
  (append_rows (empty_c_document 24 80) [cstr "/* a", cstr "b"]).getD
    (empty_c_document 24 80)

/-- The one-line document `b` with the C/C++ profile. -/
def one_line_document : config :=
  (append_rows (empty_c_document 24 80) [cstr "b"]).getD
    (empty_c_document 24 80)

/-- The named special keys of `enum editor_key`. -/
def special_keys : List Int :=
  [ARROW_UP, ARROW_DOWN, ARROW_LEFT, ARROW_RIGHT, PAGE_UP, PAGE_DOWN, HOME,
   END, DEL_KEY]

/-- The input starts with the bytes of a sequence of `key_table`, all of
them available. -/
def starts_recognised (inp : List (Option Int)) : Prop :=
  ∃ e ∈ key_table, e.1.map some <+: inp

instance starts_recognised.dec (inp : List (Option Int)) :
    Decidable (starts_recognised inp) :=
  inferInstanceAs (Decidable (∃ e ∈ key_table, e.1.map some <+: inp))

/-- The cursor is valid: the line index is in `[0, num_rows]`, the array
holds `num_rows` rows, and on an existing line the byte offset is in
`[0, length]`. -/
def cursor_valid (St : config) : Prop :=
  0 ≤ St.cx ∧ St.cx ≤ St.num_rows ∧ St.num_rows = St.rows.length
    ∧ match St.rows.get? St.cx.toNat with
      | some row => 0 ≤ St.cy ∧ St.cy ≤ row.characters.length
      | none => True

instance cursor_valid.dec (St : config) : Decidable (cursor_valid St) := by
  unfold cursor_valid
  cases St.rows.get? St.cx.toNat <;> exact inferInstance

/-! ## the cascade, instrumented -/

/-- The function `editor_update_syntax` as `editor_update_syntax_fuel`,
returning also the positions of the rows it recomputes, in order. -/
def editor_update_syntax_trace : Nat → config → Nat → Option (config × List Nat)
  | 0, _, _ => none
  | fuel + 1, St, p =>
    match St.rows.get? p with
    | none => none
    | some row =>
      match St.syn with
      | none =>
        some (store_row St p
          { row with hl := List.replicate row.render.length HL_NORMAL }, [p])
      | some syn =>
        match prev_open_comment St.rows row.idx with
        | none => none
        | some inside_comment =>
          match highlight_row syn row.render inside_comment with
          | none => none
          | some (hl, ic) =>
            let changed := row.hl_open_comment != ic
            let St1 := store_row St p
              { row with hl := hl, hl_open_comment := ic }
            if changed && row.idx + 1 < St.num_rows then
              (editor_update_syntax_trace fuel St1 (row.idx + 1)).map
                (fun res => (res.1, p :: res.2))
            else some (St1, [p])

/-- The cascade of `editor_update_syntax` seen on the list of the rows from
the recomputed one on: `prev` is the open-comment flag of the row before,
`m` the number of following rows below `St.num_rows`.  The result is the
new rows and the number of rows recomputed. -/
def cascade_rows (syn : Option editor_syntax) :
    Bool → Nat → List erow → Option (List erow × Nat)
  | _, _, [] => none
  | prev, m, r :: rest =>
    match syn with
    | none =>
      some ({ r with hl := List.replicate r.render.length HL_NORMAL } :: rest, 1)
    | some s =>
      match highlight_row s r.render prev with
      | none => none
      | some (hl, ic) =>
        if (r.hl_open_comment != ic) && decide (0 < m) then
          (cascade_rows syn ic (m - 1) rest).map
            (fun res =>
              ({ r with hl := hl, hl_open_comment := ic } :: res.1, res.2 + 1))
        else some ({ r with hl := hl, hl_open_comment := ic } :: rest, 1)

/-- Every row's tag array has as many entries as its display string has
cells. -/
def tags_match (St : config) : Prop :=
  ∀ r ∈ St.rows, r.hl.length = r.render.length

instance tags_match.dec (St : config) : Decidable (tags_match St) :=
  inferInstanceAs (Decidable (∀ r ∈ St.rows, r.hl.length = r.render.length))

/-! ## output: the frame buffer -/

/-- One string handed to `append`: a control sequence of the terminal, or
one cell of a display string (the calls `append(astr, rseq + y, 1)`).  The
buffer `struct appendable_str` is the list of the strings appended so far;
its bytes are their concatenation. -/
inductive out_piece where
  | control (bytes : List Int)
  | cell (c : Int)
  deriving DecidableEq, Repr

/-- The bytes of a piece. -/
def out_piece.bytes : out_piece → List Int
  | .control bs => bs
  | .cell c => [c]

/-- The bytes of the buffer. -/
def buffer_bytes (astr : List out_piece) : List Int :=
  (astr.map out_piece.bytes).flatten

/-- The display cells of the buffer, the control sequences left out. -/
def buffer_cells : List out_piece → List Int
  | [] => []
  | .control _ :: ps => buffer_cells ps
  | .cell c :: ps => c :: buffer_cells ps

/-- The function `append`, which returns at once when `len <= 0`; a failing
`realloc` is not modelled. -/
def append (dst : List out_piece) (str : out_piece) : List out_piece :=
  if str.bytes.length = 0 then dst else dst ++ [str]

/-- The string `CLEAR_LINE`. -/
def CLEAR_LINE : List Int := cstr "\x1b[K"

/-- The string `DEFAULT_CHARACTER_ESQ`. -/
def DEFAULT_CHARACTER_ESQ : List Int := cstr "\x1b[39m"

/-- The output of `snprintf(buf, sizeof(buf), CHANGE_COLOR_FORMAT_ESQ, color)`
for a colour code that is not negative. -/
def change_color_sequence (color : Int) : List Int :=
  cstr "\x1b[" ++ (Nat.toDigits 10 color.toNat).map (fun c => Int.ofNat c.toNat)
    ++ cstr "m"

/-- The function `editor_syntax_to_color`. -/
def editor_syntax_to_color : editor_hightlight → Int
  | HL_COMMENT => 35
  | HL_STRING => 36
  | HL_NUMBER => 33
  | HL_MATCH => 34
  | HL_KEYWORD_1 => 31
  | HL_KEYWORD_2 => 32
  | HL_NORMAL => 37

/-- The loop `for(long y = St.col_offset; y < len; y++)` of
`editor_draw_file_contents`, with `n` iterations to go; `current_color` is
`-1` when the default colour is on. -/
def draw_cells (row : erow) :
    Nat → Nat → Int → List out_piece → List out_piece
  | 0, _, _, astr => astr
  | n + 1, y, current_color, astr =>
    if row.hl.getD y HL_NORMAL = HL_NORMAL then
      if current_color ≠ -1 then
        draw_cells row n (y + 1) (-1)
          (append (append astr (.control DEFAULT_CHARACTER_ESQ))
            (.cell (row.render.getD y 0)))
      else
        draw_cells row n (y + 1) current_color
          (append astr (.cell (row.render.getD y 0)))
    else
      let color := editor_syntax_to_color (row.hl.getD y HL_NORMAL)
      if current_color ≠ color then
        draw_cells row n (y + 1) color
          (append (append astr (.control (change_color_sequence color)))
            (.cell (row.render.getD y 0)))
      else
        draw_cells row n (y + 1) current_color
          (append astr (.cell (row.render.getD y 0)))

/-- The body of the outer loop of `editor_draw_file_contents` for one row;
`none` when `St.col_offset` is negative, which indexes before the arrays. -/
def editor_draw_row (St : config) (row : erow) (astr : List out_piece) :
    Option (List out_piece) :=
  if St.col_offset < 0 then none
  else
    let astr1 := append astr (.control CLEAR_LINE)
    let len : Int :=
      if (row.render.length : Int) > St.screen_cols then St.screen_cols
      else row.render.length
    let astr2 := draw_cells row (len - St.col_offset).toNat St.col_offset.toNat
      (-1) astr1
    some (append (append astr2 (.control DEFAULT_CHARACTER_ESQ))
      (.control (cstr "\n\r")))

/-- The function `editor_file_content_fills_whole_screen`. -/
def editor_file_content_fills_whole_screen (St : config) : Bool :=
  decide ((St.num_rows : Int) - St.row_offset ≥ St.screen_rows)

/-- The outer loop of `editor_draw_file_contents` from row `x` on, with `n`
iterations to go. -/
def draw_rows (St : config) : Nat → Int → List out_piece →
    Option (List out_piece)
  | 0, _, astr => some astr
  | n + 1, x, astr =>
    if x < 0 then none
    else
      match St.rows.get? x.toNat with
      | none => none
      | some row =>
        (editor_draw_row St row astr).bind (draw_rows St n (x + 1))

/-- The function `editor_draw_file_contents`: the buffer and the returned
`X + 1`. -/
def editor_draw_file_contents (St : config) (astr : List out_piece) :
    Option (List out_piece × Int) :=
  let X : Int :=
    if editor_file_content_fills_whole_screen St then
      St.row_offset + St.screen_rows - 1
    else (St.num_rows : Int) - 1
  (draw_rows St (X + 1 - St.row_offset).toNat St.row_offset astr).map
    (fun out => (out, X + 1))

/-- The cells the specification prescribes for a row: the slice of its
display string within `[col_offset, col_offset + screen_cols)`, clipped to
its length. -/
def spec_row_slice (St : config) (row : erow) : List Int :=
  (row.render.drop St.col_offset.toNat).take St.screen_cols.toNat

/-! ## editor operations -/

/-- The library call `strdup` on the string that starts with the given
bytes: the copy ends before the first NUL. -/
def strdup (s : List Int) : List Int := s.takeWhile (fun c => c != 0)

/-- The value `St.rows[i].size`; `none` when there is no such row. -/
def row_size (St : config) (i : Int) : Option Nat :=
  if i < 0 then none
  else (St.rows.get? i.toNat).map (fun r => r.characters.length)

/-- The function `editor_insert_newline_at_cursor`. -/
def editor_insert_newline_at_cursor (St : config) : Option config :=
  (if cursor_below_last_line St then editor_insert_row St St.num_rows []
   else if St.cx < 0 then none
   else
     match St.rows.get? St.cx.toNat with
     | none => none
     | some row =>
       if St.cy < 0 ∨ St.cy > row.characters.length then none
       else
         let new_line := strdup (row.characters.drop St.cy.toNat)
         let St1 := store_row St St.cx.toNat
           { row with characters := row.characters.take St.cy.toNat }
         (editor_insert_row St1 (St.cx.toNat + 1) new_line).bind
           (fun St2 => editor_update_row St2 St.cx.toNat)).map
    (fun St3 => { St3 with cy := 0, cx := St3.cx + 1 })

/-- The function `editor_delete_character_at_cursor`. -/
def editor_delete_character_at_cursor (St : config) : Option config :=
  if cursor_below_last_line St then some St
  else if St.cx < 0 then none
  else
    match St.rows.get? St.cx.toNat with
    | none => none
    | some row =>
      if St.cx = (St.num_rows : Int) - 1 ∧ St.cy = row.characters.length then
        some St
      else if St.cy = row.characters.length then
        match St.rows.get? (St.cx.toNat + 1) with
        | none => none
        | some next =>
          (editor_row_append_string St St.cx.toNat next.characters).bind
            (fun St1 => editor_delete_row St1 (St.cx.toNat + 1))
      else if St.cy < 0 then none
      else editor_row_delete_character St St.cx.toNat St.cy.toNat

/-! ## input: cursor movement -/

/-- The `switch` of `editor_move_cursor`. -/
def move_cursor_switch (St : config) (key : Int) : Option config :=
  if key = ARROW_LEFT then
    if St.cy > 0 then some { St with cy := St.cy - 1 }
    else if St.cx > 0 then
      (row_size St (St.cx - 1)).map
        (fun n => { St with cx := St.cx - 1, cy := n })
    else some St
  else if key = ARROW_UP then
    if St.cx > 0 then some { St with cx := St.cx - 1 } else some St
  else if key = ARROW_DOWN then
    if St.cx < St.num_rows then some { St with cx := St.cx + 1 } else some St
  else if key = ARROW_RIGHT then
    if St.cx ≥ St.num_rows then some St
    else
      (row_size St St.cx).map
        (fun n =>
          if St.cy < n then { St with cy := St.cy + 1 }
          else { St with cx := St.cx + 1, cy := 0 })
  else some St

/-- The end of `editor_move_cursor`: `cy` is clamped to the length of the
row the cursor is on now, `0` below the last row. -/
def move_cursor_clamp (St : config) : Option config :=
  if St.cx ≥ St.num_rows then
    some (if St.cy > 0 then { St with cy := 0 } else St)
  else
    (row_size St St.cx).map
      (fun n => if St.cy > n then { St with cy := n } else St)

/-- The function `editor_move_cursor`. -/
def editor_move_cursor (St : config) (key : Int) : Option config :=
  (move_cursor_switch St key).bind move_cursor_clamp

/-- The `PAGE_UP` case of the `switch` of `editor_process_keypress`. -/
def keypress_page_up (St : config) : Option config :=
  let row_offset1 := St.row_offset - (St.screen_rows - 1)
  let cx1 := St.cx - (St.screen_rows - 1)
  let row_offset2 := if row_offset1 < 0 then 0 else row_offset1
  let cx2 := if cx1 < 0 then 0 else cx1
  (row_size St cx2).map
    (fun n => { St with row_offset := row_offset2, cx := cx2,
                        cy := if St.cy > n then n else St.cy })

/-- The `PAGE_DOWN` case of the `switch` of `editor_process_keypress`. -/
def keypress_page_down (St : config) : Option config :=
  let row_offset1 := St.row_offset + (St.screen_rows - 1)
  let cx1 := St.cx + (St.screen_rows - 1)
  let row_offset2 :=
    if row_offset1 > (St.num_rows : Int) - St.screen_rows - 1 then
      (St.num_rows : Int) - St.screen_rows
    else row_offset1
  let cx2 :=
    if cx1 > (St.num_rows : Int) - St.screen_rows - 1 then
      row_offset2 + St.screen_rows - 1
    else cx1
  (row_size St cx2).map
    (fun n => { St with row_offset := row_offset2, cx := cx2,
                        cy := if St.cy > n then n else St.cy })

/-- The cursor is valid and sits at offset 0 when it is below the last
row. -/
def cursor_strict (St : config) : Prop :=
  cursor_valid St ∧ (St.cx = St.num_rows → St.cy = 0)

instance cursor_strict.dec (St : config) : Decidable (cursor_strict St) :=
  inferInstanceAs (Decidable (_ ∧ _))

/-- The raw texts of the rows, in order. -/
def raw_texts (St : config) : List (List Int) :=
  St.rows.map (fun r => r.characters)

/-- A row with the display string `abcd`, all cells normal. -/
def abcd_row : erow :=
  { idx := 0, characters := cstr "abcd", render := cstr "abcd",
    hl := List.replicate 4 HL_NORMAL, hl_open_comment := false }

/-- The cache of the row `r` at position `p` is up to date: its display
string is the rendering of its raw text, and its tags and flag are the
highlighter's result given the flag of the row before. -/
def row_cache_current (St : config) (p : Nat) (r : erow) : Prop :=
  r.render = render_row r.characters
    ∧ row_consistent St.syn (open_after false (St.rows.take p)) r

instance row_cache_current.dec (St : config) (p : Nat) (r : erow) :
    Decidable (row_cache_current St p r) :=
  inferInstanceAs (Decidable (_ ∧ _))

/-- The one-line document whose line holds `a`, a NUL byte and `b`: the
line `ab` is inserted and the byte 0 is then inserted at offset 1, as
`editor_insert_char_at_cursor` does for the key code 0. -/
def nul_document : config :=
  ((editor_insert_row (init_editor 24 80) 0 (cstr "ab")).bind
    (fun St => editor_row_insert_character St 0 1 0)).getD (init_editor 24 80)

/-- The scan state with further memory `guard` right after the tag array. -/
def with_guard (st : scan_state) (guard : List editor_hightlight) : scan_state :=
  { st with hl := st.hl ++ guard }

/-- Conditions on a profile under which the scan stores no tag past the
end of the tag array: the loop advances, the markers and keywords hold no
NUL byte (they are C strings), and the closing marker does not start with a
digit or a dot. -/
def profile_in_bounds (syn : editor_syntax) : Prop :=
  profile_advances syn
    ∧ (∀ c ∈ syn.multiline_comment_start, c ≠ 0)
    ∧ (∀ c ∈ syn.multiline_comment_end, c ≠ 0)
    ∧ (∀ kw ∈ syn.keywords, ∀ c ∈ kw, c ≠ 0)
    ∧ isdigit (syn.multiline_comment_end.headD 0) = false
    ∧ syn.multiline_comment_end.headD 0 ≠ 46

instance profile_in_bounds.dec (syn : editor_syntax) :
    Decidable (profile_in_bounds syn) :=
  inferInstanceAs (Decidable (_ ∧ _))

/-- The one-line document `ab` without a profile. -/
def ab_document : config :=
  (editor_insert_row (init_editor 24 80) 0 (cstr "ab")).getD (init_editor 24 80)

/-- The stored open-comment flag of the row at position `j`, if there is
one. -/
def open_flag (St : config) (j : Nat) : Option Bool :=
  (St.rows.get? j).map (fun r => r.hl_open_comment)

/-- The length of the row at position `c`, `0` when there is no such row
(the line past the end). -/
def row_len (St : config) (c : Int) : Nat := (row_size St c).getD 0


/-! ## selecting the profile -/

/-- The library call `strchr(s, c)` for a byte `c` other than NUL, on the
string given by its bytes before the NUL: the part of the string from the
first `c` on, `none` for `NULL`. -/
def strchr (s : List Int) (c : Int) : Option (List Int) :=
  match s.dropWhile (fun b => b != c) with
  | [] => none
  | b :: rest => some (b :: rest)

/-- The test `strcmp(a, b) == 0` on NUL-terminated strings given by their
bytes before the NUL. -/
def strcmp_eq (a b : List Int) : Bool := a == b

/-- The table `HLDB`; `HLDB_ENTRIES` is its length. -/
def HLDB : List editor_syntax := [HLDB_C]

/-- The loop `for(x = 0; x < St.num_rows; x++) editor_update_syntax(St.rows + x)`
of `editor_select_syntax_highlight`, from `x` on with `n` rows to go. -/
def update_syntax_rows : Nat → Nat → config → Option config
  | 0, _, St => some St
  | n + 1, x, St =>
    ( editor_update_syntax St x).bind (update_syntax_rows n (x + 1))

/-- The `for` loop of `editor_select_syntax_highlight` over the entries of
`HLDB`, with the `while` loop over the matchers of an entry: the first
entry with a matcher equal to `ext` is selected and every row is
highlighted again. -/
def select_syntax_loop (St : config) (ext : List Int) :
    List editor_syntax → Option config
  | [] => some St
  | entry :: rest =>
    if entry.file_match.any (fun m => strcmp_eq m ext) then
      update_syntax_rows St.num_rows 0 { St with syn := some entry }
    else select_syntax_loop St ext rest

/-- The function `editor_select_syntax_highlight`. -/
def editor_select_syntax_highlight (St : config) : Option config :=
  match St.file_name with
  | none => some { St with syn := none }
  | some file_name =>
    match strchr file_name 46 with
    | none => some { St with syn := none }
    | some ext => select_syntax_loop { St with syn := none } ext HLDB

/-- The state of `init_editor` with the file name set, as `editor_open`
has it when it calls `editor_select_syntax_highlight`. -/
def named_document (file_name : String) : config :=
  { init_editor 24 80 with file_name := some (cstr file_name) }

/-! ## input: one key -/

/-- The value `CTRL_KEY(k)` for the character `k`. -/
def CTRL_KEY (k : Char) : Int := ((k.toNat &&& 0x1f : Nat) : Int)

/-- The function `editor_insert_char_at_cursor`; `ch` is a key code that
fits a `char`.  Below the last line the new row is the string that
`sprintf(new_row, "%c", ch)` writes, which is empty for the code 0. -/
def editor_insert_char_at_cursor (St : config) (ch : Int) : Option config :=
  (if cursor_below_last_line St then
     editor_insert_row St St.num_rows (strdup [ch])
   else if St.cx < 0 ∨ St.cy < 0 then none
   else editor_row_insert_character St St.cx.toNat St.cy.toNat ch).map
    (fun St1 => { St1 with cy := St1.cy + 1 })

/-- How a call of `editor_process_keypress` ends: with `exit(0)`, or by
returning to the main loop in the given state. -/
inductive keypress_outcome where
  | exited : keypress_outcome
  | returned : config → keypress_outcome
  deriving DecidableEq, Repr

/-- The two calls of `editor_process_keypress` whose effect depends on
further input and on the file system, `editor_find()` and
`editor_save_file()`: the state each leaves, `none` when it does not
return.  Nothing is assumed about them. -/
structure keypress_calls where
  editor_find : config → Option config
  editor_save_file : config → Option config

/-- The statement `St.quit_pressed_last = false` that ends
`editor_process_keypress`, reached from every `break` of the `switch`. -/
def keypress_end (St : config) : keypress_outcome :=
  keypress_outcome.returned { St with quit_pressed_last := false }

/-- The function `editor_process_keypress` for the decoded key `ch` (the
value of `editor_read_key()`). -/
def editor_process_keypress (calls : keypress_calls) (St : config)
    (ch : Int) : Option keypress_outcome :=
  if ch = 13 then (editor_insert_newline_at_cursor St).map keypress_end
  else if ch = CTRL_KEY 'q' then
    if St.modified ≠ 0 ∧ St.quit_pressed_last = false then
      some (keypress_outcome.returned { St with quit_pressed_last := true })
    else some keypress_outcome.exited
  else if ch = CTRL_KEY 'f' then (calls.editor_find St).map keypress_end
  else if ch = CTRL_KEY 's' then (calls.editor_save_file St).map keypress_end
  else if ch = PAGE_UP then (keypress_page_up St).map keypress_end
  else if ch = PAGE_DOWN then (keypress_page_down St).map keypress_end
  else if ch = HOME then some (keypress_end { St with cy := 0 })
  else if ch = END then
    if St.cx < St.num_rows then
      (row_size St St.cx).map
        (fun (n : Nat) => keypress_end { St with cy := (n : Int) })
    else some (keypress_end St)
  else if ch = DEL_KEY then
    (editor_delete_character_at_cursor St).map keypress_end
  else if ch = BACKSPACE ∨ ch = CTRL_KEY 'h' then
    ((editor_move_cursor St ARROW_LEFT).bind
      editor_delete_character_at_cursor).map keypress_end
  else if ch = ARROW_UP ∨ ch = ARROW_DOWN ∨ ch = ARROW_LEFT
      ∨ ch = ARROW_RIGHT then
    (editor_move_cursor St ch).map keypress_end
  else if ch = ESC ∨ ch = CTRL_KEY 'l' then some (keypress_end St)
  else (editor_insert_char_at_cursor St ch).map keypress_end

/-- The loop of `main` for the decoded keys of the list, as far as the
state goes: `editor_refresh_screen` (its `editor_scroll`), then
`editor_process_keypress`.  After `exit(0)` no further key is processed. -/
def main_loop (calls : keypress_calls) : config → List Int →
    Option keypress_outcome
  | St, [] => some (keypress_outcome.returned St)
  | St, ch :: keys =>
    match (editor_scroll St).bind (fun St1 => editor_process_keypress calls St1 ch) with
    | none => none
    | some keypress_outcome.exited => some keypress_outcome.exited
    | some (keypress_outcome.returned St1) => main_loop calls St1 keys

/-- Calls of `editor_find` and `editor_save_file` that leave the state as
it is (a search cancelled at once, a save that fails). -/
def idle_calls : keypress_calls where
  editor_find := fun St => some St
  editor_save_file := fun St => some St

/-- The state of the main loop after the keys `a` and Ctrl-Q in the editor
started without a file. -/
def pending_quit_document : config :=
  match main_loop idle_calls (init_editor 24 80) [97, CTRL_KEY 'q'] with
  | some (keypress_outcome.returned St) => St
  | _ => init_editor 24 80

theorem tab_fill_eq (fuel : Nat) (out : List Int)
    (h : 4 - out.length % 4 ≤ fuel) :
    tab_fill fuel out = out ++ List.replicate (4 - out.length % 4) 32 := by
  induction fuel generalizing out with
  | zero => omega
  | succ n ih =>
    unfold tab_fill
    simp only [SEDIT_TAB_STOP, List.length_append, List.length_singleton, bne_iff_ne, ne_eq,
      ite_not]
    split
    · next h0 =>
      have h1 : 4 - out.length % 4 = 1 := by omega
      rw [h1]; rfl
    · next h0 =>
      rw [ih (out ++ [32]) (by simp only [List.length_append, List.length_singleton]; omega)]
      have h1 : 4 - out.length % 4 = (4 - (out ++ [32]).length % 4) + 1 := by
        simp only [List.length_append, List.length_singleton]; omega
      rw [h1, List.replicate_succ, List.append_assoc]; rfl

theorem render_step_eq (out : List Int) (c : Int) :
    render_step out c = out ++ spec_cells out.length c := by
  unfold render_step spec_cells
  split
  · exact tab_fill_eq _ _ (by simp only [SEDIT_TAB_STOP]; omega)
  · split
    · rfl
    · split <;> rfl

theorem render_loop_eq (cs out : List Int) :
    render_loop cs out = out ++ spec_render out.length cs := by
  induction cs generalizing out with
  | nil => simp [render_loop, spec_render]
  | cons c cs ih =>
    simp only [render_loop, spec_render, ih, render_step_eq, List.length_append,
      List.append_assoc]

theorem spec_render_plain (col : Nat) (cs : List Int)
    (h : ∀ c ∈ cs, c ≠ 9 ∧ ¬(0 ≤ c ∧ c ≤ 26) ∧ ¬(28 ≤ c ∧ c ≤ 31)) :
    spec_render col cs = cs := by
  induction cs generalizing col with
  | nil => rfl
  | cons c cs ih =>
    have hc := h c (List.mem_cons_self _ _)
    have hcell : spec_cells col c = [c] := by
      simp only [spec_cells, hc.1, hc.2.1, hc.2.2, if_false]
    simp only [spec_render, hcell, List.singleton_append, List.length_singleton]
    rw [ih _ (fun d hd => h d (List.mem_cons_of_mem _ hd))]

/-- C1: for every raw line text the display string of `editor_update_row`
is the concatenation, in order, of the cells of its bytes: a tab gives
between 1 and 4 spaces that end at the next display column that is a
multiple of 4, a byte `b` in [0,26] other than the tab gives `^` and the byte
`64 + b`, a byte in [28,31] gives `^?`, every other byte gives itself; a line
with none of the expanding bytes renders to itself. -/
theorem C1_render_is_concatenation (characters : List Int) :
    render_row characters = spec_render 0 characters
    ∧ (∀ col : Nat, ∃ n : Nat, spec_cells col 9 = List.replicate n 32
        ∧ 1 ≤ n ∧ n ≤ 4 ∧ (col + n) % 4 = 0)
    ∧ (∀ (col : Nat) (b : Int), b ≠ 9 → 0 ≤ b → b ≤ 26 →
        spec_cells col b = [94, 64 + b])
    ∧ (∀ (col : Nat) (b : Int), 28 ≤ b → b ≤ 31 → spec_cells col b = [94, 63])
    ∧ (∀ (col : Nat) (b : Int), b = 27 ∨ 32 ≤ b ∨ b < 0 → spec_cells col b = [b])
    ∧ ((∀ c ∈ characters, c ≠ 9 ∧ ¬(0 ≤ c ∧ c ≤ 26) ∧ ¬(28 ≤ c ∧ c ≤ 31)) →
        render_row characters = characters) := by
  have hr : render_row characters = spec_render 0 characters := by
    simp [render_row, render_loop_eq]
  refine ⟨hr, ?_, ?_, ?_, ?_, ?_⟩
  · intro col
    refine ⟨4 - col % 4, by simp [spec_cells], by omega, by omega, by omega⟩
  · intro col b h9 h0 h26
    simp [spec_cells, h9, h0, h26]
  · intro col b h28 h31
    have h9 : b ≠ 9 := by omega
    have h26 : ¬(0 ≤ b ∧ b ≤ 26) := by omega
    simp [spec_cells, h9, h26, h28, h31]
  · intro col b hb
    have h9 : b ≠ 9 := by omega
    have h26 : ¬(0 ≤ b ∧ b ≤ 26) := by omega
    have h31 : ¬(28 ≤ b ∧ b ≤ 31) := by omega
    simp only [spec_cells, h9, h26, h31, if_false]
  · intro h
    rw [hr]; exact spec_render_plain 0 characters h

/-- Witness of C1 at a raw line without expanding bytes. -/
theorem C1_render_is_concatenation_witness :
    render_row (cstr "hello, world") = cstr "hello, world" :=
  (C1_render_is_concatenation (cstr "hello, world")).2.2.2.2.2 (by decide)

/-- C2: with the C/C++ profile, after the lines `/* start`, `middle` and
`end */ code` have been appended to an empty document, every cell of lines
0 and 1 is tagged comment and both lines end with the open-comment flag
set; on line 2 the six cells of `end */` are tagged comment, the five cells
of ` code` are tagged normal, and the open-comment flag is clear. -/
theorem C2_block_comment_continuation (rows cols : Int) :
    (append_rows (empty_c_document rows cols)
      [cstr "/* start", cstr "middle", cstr "end */ code"]).map row_caches
    = some
      [(cstr "/* start", List.replicate 8 HL_COMMENT, true),
       (cstr "middle", List.replicate 6 HL_COMMENT, true),
       (cstr "end */ code",
        List.replicate 6 HL_COMMENT ++ List.replicate 5 HL_NORMAL, false)] := by
  rfl

/-! ## the scan loop ends -/

theorem find_keyword_pos (render : List Int) (y : Nat) (kws : List (List Int))
    (h : ∀ kw ∈ kws,
      0 < (if kw.getLast? == some 124 then kw.length - 1 else kw.length))
    (n : Nat) (k2 : Bool) (hf : find_keyword render y kws = some (n, k2)) :
    0 < n := by
  induction kws with
  | nil => simp [find_keyword] at hf
  | cons kw kws ih =>
    simp only [find_keyword] at hf
    have hk := h kw (List.mem_cons_self _ _)
    generalize (if kw.getLast? == some 124 then kw.length - 1 else kw.length)
      = len at hf hk
    split at hf
    · simp only [Option.some.injEq, Prod.mk.injEq] at hf
      rw [← hf.1]; exact hk
    · exact ih (fun k hk => h k (List.mem_cons_of_mem _ hk)) hf

theorem keyword_block_y (syn : editor_syntax) (hs : profile_advances syn)
    (render : List Int) (st st1 : scan_state)
    (h : keyword_block syn render st = some st1) : st.y < st1.y := by
  unfold keyword_block at h
  split at h
  · split at h
    · next n k2 hf =>
      have := find_keyword_pos render st.y syn.keywords hs.2 n k2 hf
      simp only [Option.some.injEq] at h
      rw [← h]; simp only; omega
    · simp at h
  · simp at h

theorem scan_tail_y (syn : editor_syntax) (hs : profile_advances syn)
    (render : List Int) (ch : Int) (prev_hl : editor_hightlight)
    (st : scan_state) :
    st.y < (scan_tail syn render ch prev_hl st).1.y
      ∧ (scan_tail syn render ch prev_hl st).2 = true := by
  unfold scan_tail
  split
  · simp
  · split
    · next st1 h => exact ⟨keyword_block_y syn hs render st st1 h, rfl⟩
    · simp

theorem scan_comment_y (syn : editor_syntax) (hs : profile_advances syn)
    (render : List Int) (ch : Int) (prev_hl : editor_hightlight)
    (st : scan_state) :
    st.y < (scan_comment syn render ch prev_hl st).1.y
      ∧ (scan_comment syn render ch prev_hl st).2 = true := by
  unfold scan_comment
  split
  · split
    · split
      · refine ⟨?_, (scan_tail_y syn hs render ch prev_hl _).2⟩
        have := (scan_tail_y syn hs render ch prev_hl
          { st with
            hl := memset (st.hl.set st.y HL_COMMENT) st.y HL_COMMENT
              syn.multiline_comment_end.length
            y := st.y + syn.multiline_comment_end.length
            inside_comment := false }).1
        simp only at this ⊢
        omega
      · simp
    · split
      · have := hs.1
        simp only [and_true]; omega
      · exact scan_tail_y syn hs render ch prev_hl st
  · exact scan_tail_y syn hs render ch prev_hl st

theorem scan_body_y (syn : editor_syntax) (hs : profile_advances syn)
    (render : List Int) (st : scan_state)
    (h : (scan_body syn render st).2 = true) :
    st.y < (scan_body syn render st).1.y := by
  revert h
  unfold scan_body
  simp only
  split
  · simp
  · intro _
    split
    · split
      · simp
      · split
        · simp
        · exact (scan_comment_y syn hs render _ _ st).1
    · exact (scan_comment_y syn hs render _ _ st).1

theorem scan_loop_some (syn : editor_syntax) (hs : profile_advances syn)
    (render : List Int) (fuel : Nat) (st : scan_state)
    (h0 : 0 < fuel) (h : render.length + 1 ≤ fuel + st.y) :
    ∃ st1, scan_loop syn render fuel st = some st1 := by
  induction fuel generalizing st with
  | zero => omega
  | succ n ih =>
    unfold scan_loop
    split
    · next hy =>
      split
      · next st1 hb =>
        have := scan_body_y syn hs render st (by rw [hb])
        rw [hb] at this
        exact ih st1 (by simp only at this; omega) (by simp only at this; omega)
      · exact ⟨_, rfl⟩
    · exact ⟨_, rfl⟩

theorem highlight_row_some (syn : editor_syntax) (hs : profile_advances syn)
    (render : List Int) (ic : Bool) :
    ∃ res, highlight_row syn render ic = some res := by
  unfold highlight_row
  obtain ⟨st1, h1⟩ := scan_loop_some syn hs render (render.length + 1)
    (scan_init render ic) (by omega) (by simp [scan_init])
  rw [h1]; exact ⟨_, rfl⟩

/-! ## the cascade of `editor_update_syntax` -/

theorem rows_consistent_append (syn : Option editor_syntax) (b : Bool)
    (pre post : List erow) :
    rows_consistent syn b (pre ++ post)
      ↔ rows_consistent syn b pre ∧ rows_consistent syn (open_after b pre) post := by
  induction pre generalizing b with
  | nil => simp [rows_consistent, open_after]
  | cons a t ih =>
    show rows_consistent syn b (a :: (t ++ post)) ↔ _
    simp only [rows_consistent, open_after, ih, and_assoc]

theorem open_after_snoc (b : Bool) (pre : List erow) (r : erow) :
    open_after b (pre ++ [r]) = r.hl_open_comment := by
  induction pre generalizing b with
  | nil => rfl
  | cons a t ih =>
    show open_after b (a :: (t ++ [r])) = _
    simp only [open_after, ih]

theorem get_last_open (b : Bool) (a : erow) (t rest : List erow) :
    (((a :: t) ++ rest).get? t.length).map (fun r => r.hl_open_comment)
      = some (open_after b (a :: t)) := by
  induction t generalizing a b with
  | nil => simp [open_after]
  | cons a2 t ih =>
    have := ih b a2
    simp only [List.cons_append, List.length_cons, List.get?_cons_succ, open_after] at this ⊢
    exact this

theorem prev_open_comment_eq (pre post : List erow) (r : erow) :
    prev_open_comment (pre ++ r :: post) pre.length
      = some (open_after false pre) := by
  unfold prev_open_comment
  cases pre with
  | nil => simp [open_after]
  | cons a t =>
    simp only [List.length_cons, gt_iff_lt, Nat.zero_lt_succ, if_true,
      Nat.add_sub_cancel]
    exact get_last_open false a t (r :: post)

theorem set_mid {α : Type} (pre post : List α) (r r1 : α) :
    (pre ++ r :: post).set pre.length r1 = pre ++ r1 :: post := by
  induction pre with
  | nil => rfl
  | cons a t ih => simp only [List.cons_append, List.length_cons, List.set_cons_succ, ih]

theorem get_mid {α : Type} (pre post : List α) (r : α) :
    (pre ++ r :: post).get? pre.length = some r := by
  induction pre with
  | nil => rfl
  | cons a t ih => simpa using ih

theorem update_syntax_cascade (fuel : Nat) :
    ∀ (pre : List erow) (r : erow) (post : List erow) (St : config),
      syntax_advances St →
      St.rows = pre ++ r :: post →
      St.num_rows = pre.length + 1 + post.length →
      (r :: post).map (fun x => x.idx) = List.range' pre.length (post.length + 1) →
      rows_consistent St.syn r.hl_open_comment post →
      post.length + 1 ≤ fuel →
      ∃ r1 post1,
        editor_update_syntax_fuel fuel St pre.length
            = some { St with rows := pre ++ r1 :: post1 }
          ∧ rows_consistent St.syn (open_after false pre) (r1 :: post1)
          ∧ (r1 :: post1).map row_text = (r :: post).map row_text := by
  induction fuel with
  | zero => intro pre r post St _ _ _ _ _ hf; omega
  | succ f ih =>
    intro pre r post St hadv hrows hnum hidx hcons hfuel
    have hget : St.rows.get? pre.length = some r := by rw [hrows]; exact get_mid _ _ _
    have hri : r.idx = pre.length := by
      simp only [List.map_cons, List.range'_succ, List.cons.injEq] at hidx
      exact hidx.1
    unfold editor_update_syntax_fuel
    rw [hget]
    simp only
    cases hsyn : St.syn with
    | none =>
      refine ⟨{ r with hl := List.replicate r.render.length HL_NORMAL }, post, ?_, ?_, ?_⟩
      · simp only [store_row, hrows, set_mid, hsyn]
      · rw [hsyn] at hcons
        exact ⟨rfl, hcons⟩
      · simp [row_text]
    | some syn =>
      have hprev : prev_open_comment St.rows r.idx = some (open_after false pre) := by
        rw [hrows, hri]; exact prev_open_comment_eq _ _ _
      obtain ⟨⟨hl, ic⟩, hh⟩ :=
        highlight_row_some syn (by simpa [syntax_advances, hsyn] using hadv) r.render
          (open_after false pre)
      rw [hprev]
      simp only [hh]
      rw [hsyn] at hcons
      have hr1 : row_consistent (some syn) (open_after false pre)
          { r with hl := hl, hl_open_comment := ic } := hh
      split
      · next hc =>
        simp only [Bool.and_eq_true, bne_iff_ne, ne_eq, decide_eq_true_eq] at hc
        cases post with
        | nil =>
          exfalso
          simp only [List.length_nil] at hnum
          omega
        | cons r2 post2 =>
          have hrows1 : (store_row St pre.length
              { r with hl := hl, hl_open_comment := ic }).rows
              = (pre ++ [{ r with hl := hl, hl_open_comment := ic }]) ++ r2 :: post2 := by
            simp only [store_row, hrows, set_mid, List.append_assoc, List.singleton_append]
          have hidx2 : (r2 :: post2).map (fun x => x.idx)
              = List.range' (pre ++ [{ r with hl := hl, hl_open_comment := ic }]).length
                  (post2.length + 1) := by
            simp only [List.map_cons, List.length_cons, List.range'_succ, List.cons.injEq,
              List.length_append, List.length_singleton, List.length_nil] at hidx ⊢
            exact ⟨hidx.2.1, hidx.2.2⟩
          obtain ⟨r3, post3, h1, h2, h3⟩ := ih
            (pre ++ [{ r with hl := hl, hl_open_comment := ic }]) r2 post2
            (store_row St pre.length { r with hl := hl, hl_open_comment := ic })
            hadv
            hrows1
            (by simp only [store_row, hnum, List.length_append, List.length_cons,
                  List.length_nil]; omega)
            hidx2
            (by simp only [store_row, hsyn]; exact hcons.2)
            (by simp only [List.length_cons] at hfuel; omega)
          refine ⟨{ r with hl := hl, hl_open_comment := ic }, r3 :: post3, ?_, ?_, ?_⟩
          · have hpos : r.idx + 1
                = (pre ++ [{ r with hl := hl, hl_open_comment := ic }]).length := by
              simp only [List.length_append, List.length_singleton, hri]
            rw [hpos, h1]
            simp only [store_row, List.append_assoc, List.singleton_append, hsyn]
          · simp only [store_row, hsyn, open_after_snoc] at h2
            exact ⟨hr1, h2⟩
          · simp only [List.map_cons, List.cons.injEq] at h3 ⊢
            exact ⟨by simp [row_text], h3.1, h3.2⟩
      · next hc =>
        refine ⟨{ r with hl := hl, hl_open_comment := ic }, post, ?_, ?_, ?_⟩
        · simp only [store_row, hrows, set_mid, hsyn]
        · refine ⟨hr1, ?_⟩
          simp only [Bool.and_eq_true, bne_iff_ne, ne_eq, decide_eq_true_eq, not_and,
            not_lt] at hc
          by_cases hch : r.hl_open_comment = ic
          · simp only; rw [← hch]; exact hcons
          · have := hc hch
            cases post with
            | nil => trivial
            | cons r2 post2 =>
              simp only [List.length_cons] at hnum
              omega
        · simp [row_text]

theorem idx_split (f : erow → Nat) (pre rest : List erow) (s : Nat)
    (h : (pre ++ rest).map f = List.range' s (pre ++ rest).length) :
    rest.map f = List.range' (s + pre.length) rest.length := by
  induction pre generalizing s with
  | nil => simpa using h
  | cons a t ih =>
    have h1 : (t ++ rest).map f = List.range' (s + 1) (t ++ rest).length := by
      simp only [List.cons_append, List.map_cons, List.length_cons, List.range'_succ,
        List.cons.injEq] at h
      exact h.2
    have := ih (s + 1) h1
    simp only [List.length_cons]
    rw [this]
    congr 1
    omega

theorem split_at {α : Type} (l : List α) (p : Nat) (r : α)
    (h : l.get? p = some r) :
    ∃ pre post, l = pre ++ r :: post ∧ pre.length = p := by
  induction l generalizing p with
  | nil => simp at h
  | cons a t ih =>
    cases p with
    | zero =>
      simp only [List.get?_cons_zero, Option.some.injEq] at h
      exact ⟨[], t, by simp [h], rfl⟩
    | succ n =>
      simp only [List.get?_cons_succ] at h
      obtain ⟨pre, post, h1, h2⟩ := ih n h
      exact ⟨a :: pre, post, by simp [h1], by simp [h2]⟩

/-- After the raw text of one row has been changed while every other row
is consistent, `editor_update_row` on that row returns and makes the whole
document consistent again. -/
theorem update_row_restores (St : config) (pre post : List erow) (r : erow)
    (hadv : syntax_advances St) (hrows : St.rows = pre ++ r :: post)
    (hidx : rows_indexed St)
    (hpre : rows_consistent St.syn false pre)
    (hpost : rows_consistent St.syn r.hl_open_comment post) :
    ∃ rows1, editor_update_row St pre.length = some { St with rows := rows1 }
      ∧ rows_consistent St.syn false rows1
      ∧ rows1.map (fun x => x.idx) = St.rows.map (fun x => x.idx)
      ∧ rows1.map (fun x => x.characters) = St.rows.map (fun x => x.characters)
      ∧ rows1.length = St.rows.length := by
  have hget : St.rows.get? pre.length = some r := by rw [hrows]; exact get_mid _ _ _
  have hlen : St.rows.length = pre.length + 1 + post.length := by
    rw [hrows]; simp only [List.length_append, List.length_cons]; omega
  have hi2 : (r :: post).map (fun x => x.idx)
      = List.range' pre.length (post.length + 1) := by
    have := idx_split (fun x => x.idx) pre (r :: post) 0 (by rw [← hrows]; exact hidx.2)
    simpa using this
  unfold editor_update_row
  rw [hget]
  simp only
  obtain ⟨r1, post1, h1, h2, h3⟩ := update_syntax_cascade
    ((store_row St pre.length
      { r with render := render_row r.characters
               hl := List.replicate (render_row r.characters).length HL_NORMAL }).rows.length + 1)
    pre
    { r with render := render_row r.characters
             hl := List.replicate (render_row r.characters).length HL_NORMAL }
    post
    (store_row St pre.length
      { r with render := render_row r.characters
               hl := List.replicate (render_row r.characters).length HL_NORMAL })
    hadv
    (by simp only [store_row, hrows, set_mid])
    (by simp only [store_row]; rw [hidx.1, hlen])
    hi2
    hpost
    (by simp only [store_row, List.length_set]; omega)
  refine ⟨pre ++ r1 :: post1, ?_, ?_, ?_, ?_, ?_⟩
  · unfold editor_update_syntax
    rw [h1]
    simp only [store_row]
  · exact (rows_consistent_append _ _ _ _).2 ⟨hpre, h2⟩
  · have h4 := congrArg (List.map (fun t : Nat × List Int × List Int => t.1)) h3
    simp only [List.map_map] at h4
    rw [hrows, List.map_append, List.map_append]
    congr 1
  · have h4 := congrArg (List.map (fun t : Nat × List Int × List Int => t.2.1)) h3
    simp only [List.map_map] at h4
    rw [hrows, List.map_append, List.map_append]
    congr 1
  · have h4 := congrArg List.length h3
    simp only [List.length_map, List.length_cons] at h4
    rw [hrows]
    simp only [List.length_append, List.length_cons, h4]

/-- An edit of the raw text of the row at position `p`, followed by
`editor_update_row` and the increment of the dirty counter, keeps the
document consistent and indexed. -/
theorem edit_row_consistent (St : config) (p : Nat) (r : erow)
    (chars : List Int)
    (hadv : syntax_advances St) (hidx : rows_indexed St)
    (hcons : hl_consistent St) (hrow : St.rows.get? p = some r) :
    ∃ St1, (editor_update_row (store_row St p { r with characters := chars }) p).map
        (fun St1 => { St1 with modified := St1.modified + 1 }) = some St1
      ∧ hl_consistent St1 ∧ rows_indexed St1 ∧ syntax_advances St1 := by
  obtain ⟨pre, post, hrows, hp⟩ := split_at St.rows p r hrow
  subst hp
  have hc := (rows_consistent_append St.syn false pre (r :: post)).1
    (by rw [← hrows]; exact hcons)
  have hrows0 : (store_row St pre.length { r with characters := chars }).rows
      = pre ++ { r with characters := chars } :: post := by
    simp only [store_row, hrows, set_mid]
  obtain ⟨rows1, h1, h2, h3, _, h5⟩ := update_row_restores
    (store_row St pre.length { r with characters := chars }) pre post
    { r with characters := chars } hadv hrows0
    ⟨by simp only [store_row, List.length_set]; exact hidx.1,
     by rw [hrows0]
        have := hidx.2
        rw [hrows] at this
        simpa using this⟩
    hc.1 hc.2.2
  refine ⟨_, by rw [h1]; rfl, ?_, ?_, ?_⟩
  · exact h2
  · refine ⟨?_, ?_⟩
    · show St.num_rows = rows1.length
      rw [h5, hrows0, hidx.1, hrows]
      simp
    · show rows1.map (fun x => x.idx) = List.range' 0 rows1.length
      rw [h3, h5, hrows0]
      have := hidx.2
      rw [hrows] at this
      simpa using this
  · exact hadv

/-- C3: highlight consistency is preserved by in-line edits.  In a document
whose rows are indexed and consistent, `editor_row_insert_character` (at an
offset up to the length), `editor_row_delete_character` (at an offset below
the length) and `editor_row_append_string` on an existing row return and
leave every row consistent; and in the document `/* start`, `middle`,
`end */ code`, deleting the slash of line 0 leaves no comment-tagged cell on
any line. -/
theorem C3_inline_edits_keep_consistency (St : config) (p i : Nat) (ch : Int)
    (str : List Int) (r : erow)
    (hadv : syntax_advances St) (hidx : rows_indexed St)
    (hcons : hl_consistent St) (hrow : St.rows.get? p = some r) :
    (i ≤ r.characters.length →
      ∃ St1, editor_row_insert_character St p i ch = some St1
        ∧ hl_consistent St1 ∧ rows_indexed St1 ∧ syntax_advances St1)
    ∧ (i < r.characters.length →
      ∃ St1, editor_row_delete_character St p i = some St1
        ∧ hl_consistent St1 ∧ rows_indexed St1 ∧ syntax_advances St1)
    ∧ (∃ St1, editor_row_append_string St p str = some St1
        ∧ hl_consistent St1 ∧ rows_indexed St1 ∧ syntax_advances St1)
    ∧ (editor_row_delete_character comment_document 0 0).map row_caches
        = some
          [(cstr "* start", List.replicate 7 HL_NORMAL, false),
           (cstr "middle", List.replicate 6 HL_NORMAL, false),
           (cstr "end */ code", List.replicate 11 HL_NORMAL, false)] := by
  refine ⟨?_, ?_, ?_, by rfl⟩
  · intro _
    unfold editor_row_insert_character
    rw [hrow]
    exact edit_row_consistent St p r _ hadv hidx hcons hrow
  · intro hi
    unfold editor_row_delete_character
    rw [hrow]
    have hne : ¬ r.characters.length = 0 := by omega
    simp only [hne, if_false]
    exact edit_row_consistent St p r _ hadv hidx hcons hrow
  · unfold editor_row_append_string
    rw [hrow]
    exact edit_row_consistent St p r _ hadv hidx hcons hrow

/-- Witness of C3: the block-comment document is indexed and consistent,
and deleting the slash of its line 0 returns a consistent document. -/
theorem C3_inline_edits_keep_consistency_witness :
    syntax_advances comment_document ∧ rows_indexed comment_document
    ∧ hl_consistent comment_document
    ∧ ∃ St1, editor_row_delete_character comment_document 0 0 = some St1
        ∧ hl_consistent St1 ∧ rows_indexed St1 ∧ syntax_advances St1 :=
  ⟨by decide, by decide, by decide,
    (C3_inline_edits_keep_consistency comment_document 0 0 0 []
      { idx := 0, characters := cstr "/* start", render := cstr "/* start",
        hl := List.replicate 8 HL_COMMENT, hl_open_comment := true }
      (by decide) (by decide) (by decide) (by rfl)).2.1 (by decide)⟩

/-! ## whole-line insertion and deletion -/

/-- C4 fails on the code: in the consistent document `/* a`, `b`,
`editor_insert_row(1, "*/")` leaves `b` tagged comment with its flag set
(the fresh row's flag starts at 0 and ends at 0, so nothing cascades),
`editor_insert_row(0, "/*")` in the document `b` leaves `b` tagged normal
(`num_rows` is still the old count when the cascade is decided), and
`editor_delete_row(0)` leaves `b` tagged comment (the highlighter is not
called); all three results are inconsistent. -/
theorem C4_row_insert_delete_leave_stale_tags :
    hl_consistent open_comment_document ∧ rows_indexed open_comment_document
    ∧ row_caches open_comment_document
        = [(cstr "/* a", List.replicate 4 HL_COMMENT, true),
           (cstr "b", [HL_COMMENT], true)]
    ∧ (editor_insert_row open_comment_document 1 (cstr "*/")).map row_caches
        = some [(cstr "/* a", List.replicate 4 HL_COMMENT, true),
                (cstr "*/", List.replicate 2 HL_COMMENT, false),
                (cstr "b", [HL_COMMENT], true)]
    ∧ (editor_insert_row open_comment_document 1 (cstr "*/")).map
        (fun St => decide (hl_consistent St)) = some false
    ∧ hl_consistent one_line_document ∧ rows_indexed one_line_document
    ∧ (editor_insert_row one_line_document 0 (cstr "/*")).map row_caches
        = some [(cstr "/*", List.replicate 2 HL_COMMENT, true),
                (cstr "b", [HL_NORMAL], false)]
    ∧ (editor_insert_row one_line_document 0 (cstr "/*")).map
        (fun St => decide (hl_consistent St)) = some false
    ∧ (editor_delete_row open_comment_document 0).map row_caches
        = some [(cstr "b", [HL_COMMENT], true)]
    ∧ (editor_delete_row open_comment_document 0).map
        (fun St => decide (hl_consistent St)) = some false := by
  refine ⟨by decide, by decide, by rfl, by rfl, by rfl, by decide, by decide,
    by rfl, by rfl, by rfl, by rfl⟩

/-! ## keywords -/

theorem find_keyword_sound (render : List Int) (y : Nat)
    (kws : List (List Int)) (n : Nat) (k2 : Bool)
    (hf : find_keyword render y kws = some (n, k2)) :
    ∃ kw ∈ kws, k2 = (kw.getLast? == some 124)
      ∧ n = (if kw.getLast? == some 124 then kw.length - 1 else kw.length)
      ∧ strncmp_eq n kw (render.drop y) = true
      ∧ is_separator (render.getD (y + n) 0) = true := by
  induction kws with
  | nil => simp [find_keyword] at hf
  | cons kw kws ih =>
    simp only [find_keyword] at hf
    generalize hlen : (if kw.getLast? == some 124 then kw.length - 1 else kw.length)
      = len at hf
    split at hf
    · next hc =>
      simp only [Option.some.injEq, Prod.mk.injEq] at hf
      simp only [Bool.and_eq_true] at hc
      refine ⟨kw, List.mem_cons_self _ _, hf.2.symm, ?_, ?_, ?_⟩
      · rw [hlen]; exact hf.1.symm
      · rw [← hf.1]; exact hc.1
      · rw [← hf.1]; exact hc.2
    · obtain ⟨k, hk, h⟩ := ih hf
      exact ⟨k, List.mem_cons_of_mem _ hk, h⟩

/-- C5: keyword matching is whole-word.  With the C/C++ profile, whose
keyword list holds `if`, the display line `ifx` gets no keyword tag and
`if ` gets the primary keyword tag on cells 0 and 1 only; `int x` gets the
secondary tag on the three cells of `int`.  In general, when the keyword
block tags at position `y`, the previous-cell-was-separator flag is set,
some entry of the list matches there, the byte after its text is a
separator or the line ends there, and the tag is the secondary class over
the length without the bar if the entry ends with a bar, the primary class
over its length otherwise. -/
theorem C5_keyword_whole_word :
    cstr "if" ∈ HLDB_C.keywords
    ∧ cstr "int|" ∈ HLDB_C.keywords
    ∧ highlight_row HLDB_C (cstr "ifx") false
        = some ([HL_NORMAL, HL_NORMAL, HL_NORMAL], false)
    ∧ highlight_row HLDB_C (cstr "if ") false
        = some ([HL_KEYWORD_1, HL_KEYWORD_1, HL_NORMAL], false)
    ∧ highlight_row HLDB_C (cstr "int x") false
        = some ([HL_KEYWORD_2, HL_KEYWORD_2, HL_KEYWORD_2, HL_NORMAL,
                 HL_NORMAL], false)
    ∧ ∀ (syn : editor_syntax) (render : List Int) (st st1 : scan_state),
        keyword_block syn render st = some st1 →
        st.is_prev_sep = true
        ∧ ∃ kw ∈ syn.keywords, ∃ len : Nat,
            len = (if kw.getLast? = some 124 then kw.length - 1 else kw.length)
            ∧ strncmp_eq len kw (render.drop st.y) = true
            ∧ ((∃ c, render.get? (st.y + len) = some c ∧ is_separator c = true)
                ∨ render.length ≤ st.y + len)
            ∧ st1 = { st with
                hl := memset st.hl st.y
                  (if kw.getLast? = some 124 then HL_KEYWORD_2 else HL_KEYWORD_1)
                  len
                y := st.y + len
                is_prev_sep := false } := by
  refine ⟨by decide, by decide, by rfl, by rfl, by rfl, ?_⟩
  intro syn render st st1 h
  unfold keyword_block at h
  split at h
  · next hsep =>
    refine ⟨hsep, ?_⟩
    split at h
    · next n k2 hf =>
      obtain ⟨kw, hkw, hk2, hn, hcmp, hs⟩ := find_keyword_sound _ _ _ _ _ hf
      simp only [beq_iff_eq] at hk2 hn
      refine ⟨kw, hkw, n, hn, hcmp, ?_, ?_⟩
      · by_cases hlt : st.y + n < render.length
        · left
          refine ⟨render.get ⟨st.y + n, hlt⟩, List.get?_eq_get hlt, ?_⟩
          rw [List.getD_eq_getElem _ _ hlt] at hs
          exact hs
        · right; omega
      · simp only [Option.some.injEq] at h
        rw [← h, hk2]
        simp only [beq_iff_eq]
    · simp at h
  · simp at h

/-- Witness of C5: at the start of the display line `if ` the keyword block
tags the entry `if` over two cells. -/
theorem C5_keyword_whole_word_witness :
    keyword_block HLDB_C (cstr "if ") (scan_init (cstr "if ") false)
      = some { y := 2, hl := [HL_KEYWORD_1, HL_KEYWORD_1, HL_NORMAL],
               is_prev_sep := false, inside_string := 0,
               inside_comment := false }
    ∧ (scan_init (cstr "if ") false).is_prev_sep = true :=
  ⟨by rfl,
   (C5_keyword_whole_word.2.2.2.2.2 HLDB_C (cstr "if ")
      (scan_init (cstr "if ") false)
      { y := 2, hl := [HL_KEYWORD_1, HL_KEYWORD_1, HL_NORMAL],
        is_prev_sep := false, inside_string := 0, inside_comment := false }
      (by rfl)).1⟩

/-! ## the key decoder -/

/-- C6: for every input that starts with a complete sequence of the table,
`editor_read_key` returns the key of the table and leaves exactly the input
after the sequence: `ESC [ L` for `L` in `A B C D H F` (3 bytes), `ESC O L`
for `L` in `H F` (3 bytes), `ESC [ d ~` for `d` in `1 3 4 5 6 7 8`
(4 bytes); and a first byte in 0..127 other than ESC is returned as its own
code, one byte being consumed. -/
theorem C6_recognised_sequences (rest : List (Option Int)) :
    (∀ e ∈ key_table, editor_read_key (e.1.map some ++ rest) = some (e.2, rest))
    ∧ key_table.map (fun e => (e.1, e.2, e.1.length))
        = [([27, 91, 65], ARROW_UP, 3), ([27, 91, 66], ARROW_DOWN, 3),
           ([27, 91, 67], ARROW_RIGHT, 3), ([27, 91, 68], ARROW_LEFT, 3),
           ([27, 91, 72], HOME, 3), ([27, 91, 70], END, 3),
           ([27, 79, 72], HOME, 3), ([27, 79, 70], END, 3),
           ([27, 91, 49, 126], HOME, 4), ([27, 91, 51, 126], DEL_KEY, 4),
           ([27, 91, 52, 126], END, 4), ([27, 91, 53, 126], PAGE_UP, 4),
           ([27, 91, 54, 126], PAGE_DOWN, 4), ([27, 91, 55, 126], HOME, 4),
           ([27, 91, 56, 126], END, 4)]
    ∧ (∀ c : Int, 0 ≤ c → c ≤ 127 → c ≠ 27 →
        editor_read_key (some c :: rest) = some (c, rest)) := by
  refine ⟨?_, by rfl, ?_⟩
  · intro e he
    simp only [key_table, List.mem_cons, List.mem_singleton, List.not_mem_nil, or_false] at he
    rcases he with h | h | h | h | h | h | h | h | h | h | h | h | h | h | h <;>
      (subst h; rfl)
  · intro c _ _ hc
    simp only [editor_read_key, editor_read_key_seq, ESC, hc, if_false]

/-- Witness of C6 at the byte `a` followed by `ESC [ A`. -/
theorem C6_recognised_sequences_witness :
    editor_read_key [some 97, some 27, some 91, some 65]
      = some (97, [some 27, some 91, some 65]) :=
  (C6_recognised_sequences [some 27, some 91, some 65]).2.2 97
    (by decide) (by decide) (by decide)

/-- C7: escape disambiguation never waits.  After an ESC byte, when the
read of the second byte, of the third byte, or of the fourth byte after
`ESC [ digit` times out, `editor_read_key` returns 27 and the input left is
exactly what follows the timed-out read; a lone ESC followed only by
timeouts yields the ESC event and then no further event. -/
theorem C7_escape_timeout (rest : List (Option Int)) :
    editor_read_key (some 27 :: none :: rest) = some (27, rest)
    ∧ (∀ b0 : Int,
        editor_read_key (some 27 :: some b0 :: none :: rest) = some (27, rest))
    ∧ (∀ d : Int, 48 ≤ d → d ≤ 57 →
        editor_read_key (some 27 :: some 91 :: some d :: none :: rest)
          = some (27, rest))
    ∧ editor_read_key [some 27] = some (27, [])
    ∧ (∀ b0 : Int, editor_read_key [some 27, some b0] = some (27, []))
    ∧ (∀ d : Int, 48 ≤ d → d ≤ 57 →
        editor_read_key [some 27, some 91, some d] = some (27, []))
    ∧ (∀ n : Nat,
        editor_read_key (some 27 :: List.replicate (n + 1) none)
          = some (27, List.replicate n none)
        ∧ editor_read_key (List.replicate n none) = none) := by
  refine ⟨by rfl, fun b0 => by rfl, ?_, by rfl, fun b0 => by rfl, ?_, ?_⟩
  · intro d h1 h2
    simp [editor_read_key, editor_read_key_seq, read_byte, ESC, h1, h2]
  · intro d h1 h2
    simp [editor_read_key, editor_read_key_seq, read_byte, ESC, h1, h2]
  · intro n
    refine ⟨by rfl, ?_⟩
    induction n with
    | zero => rfl
    | succ k ih => simpa [List.replicate_succ, editor_read_key] using ih

/-- Witness of C7 at `ESC [ 5` followed by a timeout. -/
theorem C7_escape_timeout_witness :
    editor_read_key [some 27, some 91, some 53, none, some 126]
      = some (27, [some 126]) :=
  (C7_escape_timeout [some 126]).2.2.1 53 (by decide) (by decide)

theorem read_key_seq_esc (s : List (Option Int)) :
    ∃ n, (editor_read_key_seq 27 s).2 = s.drop n ∧ n ≤ 3
      ∧ ((editor_read_key_seq 27 s).1 = 27
        ∨ ((editor_read_key_seq 27 s).1 ∈ special_keys
            ∧ starts_recognised (some 27 :: s))) := by
  rcases s with _ | ⟨_ | b0, s1⟩
  · exact ⟨0, by rfl, by omega, Or.inl (by rfl)⟩
  · exact ⟨1, by rfl, by omega, Or.inl (by rfl)⟩
  · rcases s1 with _ | ⟨_ | b1, s2⟩
    · exact ⟨1, by rfl, by omega, Or.inl (by rfl)⟩
    · exact ⟨2, by rfl, by omega, Or.inl (by rfl)⟩
    · by_cases h0 : b0 = 91
      · subst h0
        by_cases hd : 48 ≤ b1 ∧ b1 ≤ 57
        · rcases s2 with _ | ⟨_ | b2, s3⟩
          · refine ⟨2, ?_, by omega, Or.inl ?_⟩ <;>
              simp [editor_read_key_seq, read_byte, ESC, hd]
          · refine ⟨3, ?_, by omega, Or.inl ?_⟩ <;>
              simp [editor_read_key_seq, read_byte, ESC, hd]
          · refine ⟨3, ?_, by omega, ?_⟩
            · simp only [editor_read_key_seq, read_byte, ESC, hd, if_true, and_self]
              split_ifs <;> rfl
            · simp only [editor_read_key_seq, read_byte, ESC, hd, if_true, and_self]
              split_ifs <;>
                first
                | (left; rfl)
                | (right
                   subst_vars
                   refine ⟨by simp [special_keys], ?_⟩
                   simp [starts_recognised, key_table])
        · refine ⟨2, ?_, by omega, ?_⟩
          · simp only [editor_read_key_seq, read_byte, ESC, hd, if_true, if_false]
            split_ifs <;> rfl
          · simp only [editor_read_key_seq, read_byte, ESC, hd, if_true, if_false]
            split_ifs <;>
              first
              | (left; rfl)
              | (right
                 subst_vars
                 refine ⟨by simp [special_keys], ?_⟩
                 simp [starts_recognised, key_table])
      · by_cases hO : b0 = 79
        · subst hO
          have hne : ¬ ((79 : Int) = 91) := by decide
          refine ⟨2, ?_, by omega, ?_⟩
          · simp only [editor_read_key_seq, read_byte, ESC, if_true, hne, if_false]
            split_ifs <;> rfl
          · simp only [editor_read_key_seq, read_byte, ESC, if_true, hne, if_false]
            split_ifs <;>
              first
              | (left; rfl)
              | (right
                 subst_vars
                 refine ⟨by simp [special_keys], ?_⟩
                 simp [starts_recognised, key_table])
        · refine ⟨2, ?_, by omega, Or.inl ?_⟩ <;>
            simp [editor_read_key_seq, read_byte, ESC, h0, hO]

/-- C8: an unrecognised escape sequence degrades to a bare ESC.  For every
input after an ESC byte, `editor_read_key` returns, consumes at most 4
reads, yields 27 or a named special key, and yields 27 whenever the input
does not start with a sequence of the table; so do the inputs `ESC [ 2 ~`,
`ESC [ 1 x`, `ESC [ Z`, `ESC O x` and `ESC x y`. -/
theorem C8_unrecognised_is_esc (s : List (Option Int)) :
    (∃ k n, editor_read_key (some 27 :: s) = some (k, (some 27 :: s).drop n)
      ∧ n ≤ 4 ∧ (k = 27 ∨ k ∈ special_keys)
      ∧ (¬ starts_recognised (some 27 :: s) → k = 27))
    ∧ editor_read_key (some 27 :: some 91 :: some 50 :: some 126 :: s)
        = some (27, s)
    ∧ editor_read_key (some 27 :: some 91 :: some 49 :: some 120 :: s)
        = some (27, s)
    ∧ editor_read_key (some 27 :: some 91 :: some 90 :: s) = some (27, s)
    ∧ editor_read_key (some 27 :: some 79 :: some 120 :: s) = some (27, s)
    ∧ editor_read_key (some 27 :: some 120 :: some 121 :: s) = some (27, s) := by
  refine ⟨?_, by rfl, by rfl, by rfl, by rfl, by rfl⟩
  obtain ⟨n, h1, h2, h3⟩ := read_key_seq_esc s
  refine ⟨(editor_read_key_seq 27 s).1, n + 1, ?_, by omega, ?_, ?_⟩
  · simp only [editor_read_key, List.drop_succ_cons, ← h1]
  · rcases h3 with h | h
    · exact Or.inl h
    · exact Or.inr h.1
  · intro hn
    rcases h3 with h | h
    · exact h
    · exact absurd h.2 hn

/-- Witness of C8 at `ESC [ Z`, which is no sequence of the table. -/
theorem C8_unrecognised_is_esc_witness :
    ¬ starts_recognised [some 27, some 91, some 90]
    ∧ ∃ k n, editor_read_key [some 27, some 91, some 90]
          = some (k, ([some 27, some 91, some 90] : List (Option Int)).drop n)
        ∧ n ≤ 4 ∧ k = 27 :=
  ⟨by simp [starts_recognised, key_table],
   match (C8_unrecognised_is_esc [some 91, some 90]).1 with
   | ⟨k, n, h1, h2, _, h4⟩ =>
     ⟨k, n, h1, h2, h4 (by simp [starts_recognised, key_table])⟩⟩

/-! ## cursor column and scrolling -/

/-- C9 fails on the code: for the line made of the single byte 27 (ESC)
and the cursor at offset 1, `editor_evaluate_ry` counts two cells
(its test is `<= 31`) while `editor_update_row` renders the byte as one
cell; the same happens for a `char` of negative value. -/
theorem C9_cursor_column_differs_from_render :
    (editor_evaluate_ry
      { init_editor 24 80 with
        num_rows := 1
        rows := [{ idx := 0, characters := [27], render := [27],
                   hl := [HL_NORMAL], hl_open_comment := false }]
        cx := 0
        cy := 1 }).map (fun St => St.ry) = some 2
    ∧ (render_row (([27] : List Int).take 1)).length = 1
    ∧ (editor_evaluate_ry
      { init_editor 24 80 with
        num_rows := 1
        rows := [{ idx := 0, characters := [-61], render := [-61],
                   hl := [HL_NORMAL], hl_open_comment := false }]
        cx := 0
        cy := 1 }).map (fun St => St.ry) = some 2
    ∧ (render_row (([-61] : List Int).take 1)).length = 1 := by
  refine ⟨by rfl, by rfl, by rfl, by rfl⟩

theorem evaluate_ry_some (St : config) (hv : cursor_valid St) :
    ∃ ry : Int, editor_evaluate_ry St = some { St with ry := ry } ∧ 0 ≤ ry := by
  obtain ⟨h0, h1, h2, h3⟩ := hv
  unfold editor_evaluate_ry
  split
  · exact ⟨0, rfl, le_refl _⟩
  · next hb =>
    simp only [cursor_below_last_line, beq_iff_eq] at hb
    have hlt : St.cx.toNat < St.rows.length := by omega
    have hg : St.rows.get? St.cx.toNat = some (St.rows.get ⟨St.cx.toNat, hlt⟩) :=
      List.get?_eq_get hlt
    rw [hg] at h3
    simp only at h3
    have hneg : ¬ St.cx < 0 := by omega
    simp only [hneg, if_false, hg, h3.2, if_true]
    exact ⟨_, rfl, Int.ofNat_nonneg _⟩

/-- C10: the viewport invariant.  For every state with at least one screen
row and column and a valid cursor, `editor_scroll` returns, leaves the
cursor where it is, and afterwards `row_offset <= cx < row_offset +
screen_rows` and `col_offset <= ry < col_offset + screen_cols`, `ry` being
the display column `editor_evaluate_ry` has just computed; when the cursor
was inside the window already, both offsets are unchanged. -/
theorem C10_viewport_invariant (St : config)
    (hrows : 1 ≤ St.screen_rows) (hcols : 1 ≤ St.screen_cols)
    (hv : cursor_valid St) :
    ∃ St1, editor_scroll St = some St1
      ∧ St1.cx = St.cx ∧ St1.cy = St.cy ∧ St1.rows = St.rows
      ∧ editor_evaluate_ry St = some { St with ry := St1.ry }
      ∧ St1.row_offset ≤ St1.cx ∧ St1.cx < St1.row_offset + St1.screen_rows
      ∧ St1.col_offset ≤ St1.ry ∧ St1.ry < St1.col_offset + St1.screen_cols
      ∧ (St.row_offset ≤ St.cx ∧ St.cx < St.row_offset + St.screen_rows →
          St1.row_offset = St.row_offset)
      ∧ (St.col_offset ≤ St1.ry ∧ St1.ry < St.col_offset + St.screen_cols →
          St1.col_offset = St.col_offset) := by
  obtain ⟨ry, he, _⟩ := evaluate_ry_some St hv
  unfold editor_scroll
  rw [he]
  simp only [Option.map_some']
  refine ⟨_, rfl, ?_⟩
  split_ifs <;> dsimp only at * <;>
    refine ⟨rfl, rfl, rfl, rfl, ?_, ?_, ?_, ?_, ?_, ?_⟩ <;>
    omega

/-- Witness of C10: the cursor at the end of the last line of a three-line
document in a 2 by 2 window scrolled to the top left. -/
theorem C10_viewport_invariant_witness :
    ∃ St1, editor_scroll
        { init_editor 2 2 with
          num_rows := 3
          rows := List.replicate 3
            { idx := 0, characters := cstr "abc", render := [],
              hl := [], hl_open_comment := false }
          cx := 2
          cy := 3 } = some St1
      ∧ St1.row_offset = 1 ∧ St1.col_offset = 2 ∧ St1.ry = 3 := by
  obtain ⟨St1, h, -, -, -, -, -⟩ := C10_viewport_invariant
    { init_editor 2 2 with
      num_rows := 3
      rows := List.replicate 3
        { idx := 0, characters := cstr "abc", render := [],
          hl := [], hl_open_comment := false }
      cx := 2
      cy := 3 } (by decide) (by decide) (by decide)
  refine ⟨St1, h, ?_⟩
  have h2 : editor_scroll
      { init_editor 2 2 with
        num_rows := 3
        rows := List.replicate 3
          { idx := 0, characters := cstr "abc", render := [],
            hl := [], hl_open_comment := false }
        cx := 2
        cy := 3 } = some
      { init_editor 2 2 with
        num_rows := 3
        rows := List.replicate 3
          { idx := 0, characters := cstr "abc", render := [],
            hl := [], hl_open_comment := false }
        cx := 2
        cy := 3
        ry := 3
        row_offset := 1
        col_offset := 2 } := by rfl
  rw [h2] at h
  cases h
  exact ⟨rfl, rfl, rfl⟩

theorem trace_fst (fuel : Nat) (St : config) (p : Nat) :
    (editor_update_syntax_trace fuel St p).map Prod.fst
      = editor_update_syntax_fuel fuel St p := by
  induction fuel generalizing St p with
  | zero => rfl
  | succ f ih =>
    unfold editor_update_syntax_trace editor_update_syntax_fuel
    cases St.rows.get? p with
    | none => rfl
    | some row =>
      simp only
      cases St.syn with
      | none => rfl
      | some syn =>
        simp only
        cases prev_open_comment St.rows row.idx with
        | none => rfl
        | some b =>
          simp only
          cases highlight_row syn row.render b with
          | none => rfl
          | some res =>
            obtain ⟨hl, ic⟩ := res
            simp only
            split
            · rw [← ih]
              simp only [Option.map_map]
              rfl
            · rfl

theorem trace_none_past_end (fuel : Nat) (St : config) (p : Nat)
    (h : St.rows.length ≤ p) : editor_update_syntax_trace fuel St p = none := by
  cases fuel with
  | zero => rfl
  | succ f =>
    unfold editor_update_syntax_trace
    have : St.rows.get? p = none := List.get?_eq_none.2 h
    rw [this]

/-- The instrumented `editor_update_syntax` on the row after `pre` is the
list cascade on the rows from there on. -/
theorem trace_eq_cascade (fuel : Nat) :
    ∀ (pre : List erow) (r : erow) (post : List erow) (St : config),
      St.rows = pre ++ r :: post →
      (r :: post).map (fun x => x.idx) = List.range' pre.length (post.length + 1) →
      post.length + 1 ≤ fuel →
      editor_update_syntax_trace fuel St pre.length
        = (cascade_rows St.syn (open_after false pre)
              (St.num_rows - (pre.length + 1)) (r :: post)).map
            (fun res => ({ St with rows := pre ++ res.1 },
                          List.range' pre.length res.2)) := by
  induction fuel with
  | zero => intro pre r post St _ _ hf; omega
  | succ f ih =>
    intro pre r post St hrows hidx hfuel
    have hget : St.rows.get? pre.length = some r := by rw [hrows]; exact get_mid _ _ _
    have hri : r.idx = pre.length := by
      simp only [List.map_cons, List.range'_succ, List.cons.injEq] at hidx
      exact hidx.1
    unfold editor_update_syntax_trace cascade_rows
    rw [hget]
    simp only
    cases hsyn : St.syn with
    | none =>
      simp only [Option.map_some', store_row, hrows, set_mid, hsyn, List.range'_one]
    | some syn =>
      have hprev : prev_open_comment St.rows r.idx = some (open_after false pre) := by
        rw [hrows, hri]; exact prev_open_comment_eq _ _ _
      rw [hprev]
      simp only
      cases hh : highlight_row syn r.render (open_after false pre) with
      | none => rfl
      | some res =>
        obtain ⟨hl, ic⟩ := res
        simp only
        have hcond : (decide (r.idx + 1 < St.num_rows))
            = decide (0 < St.num_rows - (pre.length + 1)) := by
          rw [hri]; congr 1; apply propext; omega
        rw [hcond]
        split
        · cases post with
          | nil =>
            rw [trace_none_past_end]
            · simp [cascade_rows]
            · simp only [store_row, hrows, set_mid, List.length_append, List.length_cons,
                List.length_nil, hri]
              omega
          | cons r2 post2 =>
            have hrows1 : (store_row St pre.length
                { r with hl := hl, hl_open_comment := ic }).rows
                = (pre ++ [{ r with hl := hl, hl_open_comment := ic }]) ++ r2 :: post2 := by
              simp only [store_row, hrows, set_mid, List.append_assoc, List.singleton_append]
            have hidx2 : (r2 :: post2).map (fun x => x.idx)
                = List.range' (pre ++ [{ r with hl := hl, hl_open_comment := ic }]).length
                    (post2.length + 1) := by
              simp only [List.map_cons, List.length_cons, List.range'_succ, List.cons.injEq,
                List.length_append, List.length_singleton, List.length_nil] at hidx ⊢
              exact ⟨hidx.2.1, hidx.2.2⟩
            have hpos : r.idx + 1
                = (pre ++ [{ r with hl := hl, hl_open_comment := ic }]).length := by
              simp only [List.length_append, List.length_singleton, hri]
            rw [hpos, ih _ r2 post2 _ hrows1 hidx2
              (by simp only [List.length_cons] at hfuel; omega)]
            simp only [store_row, hsyn, open_after_snoc, List.length_append,
              List.length_singleton, Option.map_map]
            have hm : St.num_rows - (pre.length + 1 + 1) = St.num_rows - (pre.length + 1) - 1 := by
              omega
            rw [hm]
            congr 1
            funext res
            simp only [Function.comp, List.append_assoc, List.singleton_append,
              List.range'_succ]
        · simp only [Option.map_some', store_row, hrows, set_mid, hsyn, List.range'_one]

/-! ## the tag array keeps its length -/

theorem memset_length (hl : List editor_hightlight) (y n : Nat)
    (v : editor_hightlight) : (memset hl y v n).length = hl.length := by
  simp only [memset, List.length_append, List.length_take, List.length_replicate,
    List.length_drop]
  omega

theorem keyword_block_length (syn : editor_syntax) (render : List Int)
    (st st1 : scan_state) (h : keyword_block syn render st = some st1) :
    st1.hl.length = st.hl.length := by
  unfold keyword_block at h
  split at h
  · split at h
    · simp only [Option.some.injEq] at h
      rw [← h]; exact memset_length _ _ _ _
    · simp at h
  · simp at h

theorem scan_tail_length (syn : editor_syntax) (render : List Int) (ch : Int)
    (prev_hl : editor_hightlight) (st : scan_state) :
    (scan_tail syn render ch prev_hl st).1.hl.length = st.hl.length := by
  unfold scan_tail
  split
  · simp
  · split
    · next st1 h => exact keyword_block_length syn render st st1 h
    · rfl

theorem scan_comment_length (syn : editor_syntax) (render : List Int) (ch : Int)
    (prev_hl : editor_hightlight) (st : scan_state) :
    (scan_comment syn render ch prev_hl st).1.hl.length = st.hl.length := by
  unfold scan_comment
  split
  · split
    · split
      · rw [scan_tail_length]; simp [memset_length]
      · simp
    · split
      · simp [memset_length]
      · exact scan_tail_length _ _ _ _ _
  · exact scan_tail_length _ _ _ _ _

theorem scan_body_length (syn : editor_syntax) (render : List Int)
    (st : scan_state) :
    (scan_body syn render st).1.hl.length = st.hl.length := by
  unfold scan_body
  simp only
  split
  · simp [memset_length]
  · split
    · split
      · simp
      · split
        · simp
        · exact scan_comment_length _ _ _ _ _
    · exact scan_comment_length _ _ _ _ _

theorem scan_loop_length (syn : editor_syntax) (render : List Int) (fuel : Nat)
    (st st1 : scan_state) (h : scan_loop syn render fuel st = some st1) :
    st1.hl.length = st.hl.length := by
  induction fuel generalizing st with
  | zero => simp [scan_loop] at h
  | succ f ih =>
    unfold scan_loop at h
    split at h
    · split at h
      · next st2 hb =>
        rw [ih st2 h]
        have := scan_body_length syn render st
        rw [hb] at this
        exact this
      · next st2 hb =>
        simp only [Option.some.injEq] at h
        have := scan_body_length syn render st
        rw [hb] at this
        rw [← h]; exact this
    · simp only [Option.some.injEq] at h
      rw [h]

theorem highlight_row_length (syn : editor_syntax) (render : List Int)
    (ic ic1 : Bool) (hl : List editor_hightlight)
    (h : highlight_row syn render ic = some (hl, ic1)) :
    hl.length = render.length := by
  unfold highlight_row at h
  cases hs : scan_loop syn render (render.length + 1) (scan_init render ic) with
  | none => rw [hs] at h; simp at h
  | some st =>
    rw [hs] at h
    simp only [Option.map_some', Option.some.injEq, Prod.mk.injEq] at h
    rw [← h.1, scan_loop_length syn render _ _ st hs]
    simp [scan_init]

/-! ## properties of the list cascade -/

/-- The profile, if there is one, is one of `profile_advances`. -/
theorem cascade_rows_some (syn : Option editor_syntax)
    (hs : ∀ s, syn = some s → profile_advances s) (prev : Bool) (m : Nat)
    (l : List erow) (hl : l ≠ []) (hm : m + 1 ≤ l.length) :
    ∃ res, cascade_rows syn prev m l = some res := by
  induction l generalizing prev m with
  | nil => exact absurd rfl hl
  | cons r rest ih =>
    unfold cascade_rows
    cases syn with
    | none => exact ⟨_, rfl⟩
    | some s =>
      simp only
      obtain ⟨⟨hl1, ic⟩, hh⟩ := highlight_row_some s (hs s rfl) r.render prev
      rw [hh]
      simp only
      split
      · next hc =>
        simp only [Bool.and_eq_true, decide_eq_true_eq] at hc
        have hne : rest ≠ [] := by
          intro h0; subst h0; simp only [List.length_cons, List.length_nil] at hm; omega
        obtain ⟨res, h1⟩ := ih ic (m - 1) hne
          (by simp only [List.length_cons] at hm; omega)
        rw [h1]; exact ⟨_, rfl⟩
      · exact ⟨_, rfl⟩

theorem cascade_rows_text (syn : Option editor_syntax) (prev : Bool) (m : Nat)
    (l new : List erow) (k : Nat)
    (h : cascade_rows syn prev m l = some (new, k)) :
    new.map row_text = l.map row_text
      ∧ 1 ≤ k ∧ k ≤ m + 1 ∧ k ≤ l.length ∧ new.drop k = l.drop k
      ∧ ((∀ x ∈ l, x.hl.length = x.render.length) →
          ∀ x ∈ new, x.hl.length = x.render.length)
      ∧ (syn = none → new.map (fun x => x.hl_open_comment)
            = l.map (fun x => x.hl_open_comment)) := by
  induction l generalizing prev m new k with
  | nil => simp [cascade_rows] at h
  | cons r rest ih =>
    unfold cascade_rows at h
    cases syn with
    | none =>
      simp only [Option.some.injEq, Prod.mk.injEq] at h
      obtain ⟨h1, h2⟩ := h
      subst h1 h2
      refine ⟨by simp [row_text], by omega, by omega, by simp, by simp, ?_, ?_⟩
      · intro hx x hmem
        simp only [List.mem_cons] at hmem
        rcases hmem with h0 | h0
        · subst h0; simp
        · exact hx x (List.mem_cons_of_mem _ h0)
      · intro _; simp
    | some s =>
      simp only at h
      cases hh : highlight_row s r.render prev with
      | none => rw [hh] at h; simp at h
      | some res =>
        obtain ⟨hl1, ic⟩ := res
        rw [hh] at h
        simp only at h
        have hlen := highlight_row_length s r.render prev ic hl1 hh
        split at h
        · next hc =>
          simp only [Bool.and_eq_true, decide_eq_true_eq] at hc
          cases h1 : cascade_rows (some s) ic (m - 1) rest with
          | none => rw [h1] at h; simp at h
          | some res1 =>
            obtain ⟨new1, k1⟩ := res1
            rw [h1] at h
            simp only [Option.map_some', Option.some.injEq, Prod.mk.injEq] at h
            obtain ⟨ha, hb⟩ := h
            subst ha hb
            obtain ⟨e1, e2, e3, e4, e5, e6, _⟩ := ih ic (m - 1) new1 k1 h1
            refine ⟨by simp [row_text, e1], by omega, by omega,
              by simp only [List.length_cons]; omega, by simpa using e5, ?_, ?_⟩
            · intro hx x hmem
              simp only [List.mem_cons] at hmem
              rcases hmem with h0 | h0
              · subst h0; exact hlen
              · exact e6 (fun y hy => hx y (List.mem_cons_of_mem _ hy)) x h0
            · intro h0; simp at h0
        · simp only [Option.some.injEq, Prod.mk.injEq] at h
          obtain ⟨h1, h2⟩ := h
          subst h1 h2
          refine ⟨by simp [row_text], by omega, by omega, by simp, by simp, ?_, ?_⟩
          · intro hx x hmem
            simp only [List.mem_cons] at hmem
            rcases hmem with h0 | h0
            · subst h0; exact hlen
            · exact hx x (List.mem_cons_of_mem _ h0)
          · intro h0; simp at h0

theorem syntax_advances_iff (St : config) :
    syntax_advances St ↔ ∀ s, St.syn = some s → profile_advances s := by
  unfold syntax_advances
  cases St.syn with
  | none => simp
  | some s => simp

/-- Whatever the tags of the other rows, `editor_update_row` on the row
after `pre` returns, and its result is given by the list cascade on the
re-rendered row and the rows after it. -/
theorem update_row_general (St : config) (pre post : List erow) (r : erow)
    (hadv : syntax_advances St) (hrows : St.rows = pre ++ r :: post)
    (hnum : St.num_rows ≤ St.rows.length)
    (hidx : St.rows.map (fun x => x.idx) = List.range' 0 St.rows.length) :
    ∃ new k, editor_update_row St pre.length = some { St with rows := pre ++ new }
      ∧ cascade_rows St.syn (open_after false pre) (St.num_rows - (pre.length + 1))
          ({ r with render := render_row r.characters
                    hl := List.replicate (render_row r.characters).length HL_NORMAL }
            :: post) = some (new, k) := by
  have hget : St.rows.get? pre.length = some r := by rw [hrows]; exact get_mid _ _ _
  have hlen : St.rows.length = pre.length + 1 + post.length := by
    rw [hrows]; simp only [List.length_append, List.length_cons]; omega
  have hi2 : (r :: post).map (fun x => x.idx)
      = List.range' pre.length (post.length + 1) := by
    have := idx_split (fun x => x.idx) pre (r :: post) 0 (by rw [← hrows]; exact hidx)
    simpa using this
  obtain ⟨⟨new, k⟩, hc⟩ := cascade_rows_some St.syn
    ((syntax_advances_iff St).1 hadv) (open_after false pre)
    (St.num_rows - (pre.length + 1))
    ({ r with render := render_row r.characters
              hl := List.replicate (render_row r.characters).length HL_NORMAL } :: post)
    (by simp) (by simp only [List.length_cons]; omega)
  refine ⟨new, k, ?_, hc⟩
  unfold editor_update_row
  rw [hget]
  simp only
  unfold editor_update_syntax
  rw [← trace_fst]
  rw [trace_eq_cascade _ pre
    { r with render := render_row r.characters
             hl := List.replicate (render_row r.characters).length HL_NORMAL } post
    _ (by simp only [store_row, hrows, set_mid]) hi2
    (by simp only [store_row, List.length_set]; omega)]
  simp only [store_row]
  rw [hc]
  rfl

/-! ## drawing a row -/

theorem buffer_cells_append (a b : List out_piece) :
    buffer_cells (a ++ b) = buffer_cells a ++ buffer_cells b := by
  induction a with
  | nil => rfl
  | cons p ps ih =>
    cases p with
    | control bs => simpa [buffer_cells] using ih
    | cell c => simpa [buffer_cells] using ih

theorem buffer_cells_append_control (astr : List out_piece) (bs : List Int) :
    buffer_cells (append astr (.control bs)) = buffer_cells astr := by
  unfold append
  split
  · rfl
  · simp [buffer_cells_append, buffer_cells]

theorem buffer_cells_append_cell (astr : List out_piece) (c : Int) :
    buffer_cells (append astr (.cell c)) = buffer_cells astr ++ [c] := by
  simp [append, out_piece.bytes, buffer_cells_append, buffer_cells]

theorem draw_cells_cells (row : erow) (n y : Nat) (cur : Int)
    (astr : List out_piece) :
    buffer_cells (draw_cells row n y cur astr)
      = buffer_cells astr ++ (List.range' y n).map (fun i => row.render.getD i 0) := by
  induction n generalizing y cur astr with
  | zero => simp [draw_cells]
  | succ k ih =>
    unfold draw_cells
    simp only [List.range'_succ, List.map_cons]
    split
    · split
      · rw [ih, buffer_cells_append_cell, buffer_cells_append_control]; simp
      · rw [ih, buffer_cells_append_cell]; simp
    · split
      · rw [ih, buffer_cells_append_cell, buffer_cells_append_control]; simp
      · rw [ih, buffer_cells_append_cell]; simp

theorem range_getD (l : List Int) (n y : Nat) (h : y + n ≤ l.length) :
    (List.range' y n).map (fun i => l.getD i 0) = (l.take (y + n)).drop y := by
  induction n generalizing y with
  | zero => simp
  | succ k ih =>
    have hy : y < l.length := by omega
    have hy2 : y < (l.take (y + (k + 1))).length := by
      simp only [List.length_take]; omega
    rw [List.drop_eq_getElem_cons hy2]
    simp only [List.range'_succ, List.map_cons, List.cons.injEq]
    refine ⟨?_, ?_⟩
    · rw [List.getD_eq_getElem _ _ hy, List.getElem_take]
    · have := ih (y + 1) (by omega)
      rw [this]
      congr 2
      omega

/-- The cells `editor_draw_file_contents` emits for a row are the cells of
the display string at the indices from `col_offset` up to the smaller of
its length and `screen_cols`. -/
theorem draw_row_cells (St : config) (row : erow) (astr : List out_piece)
    (hco : 0 ≤ St.col_offset) (hsc : 0 ≤ St.screen_cols) :
    (editor_draw_row St row astr).map buffer_cells
      = some (buffer_cells astr
          ++ (row.render.take St.screen_cols.toNat).drop St.col_offset.toNat) := by
  unfold editor_draw_row
  have hneg : ¬ St.col_offset < 0 := by omega
  simp only [hneg, if_false, Option.map_some', Option.some.injEq]
  rw [buffer_cells_append_control, buffer_cells_append_control, draw_cells_cells,
    buffer_cells_append_control]
  congr 1
  by_cases hgt : (row.render.length : Int) > St.screen_cols
  · simp only [hgt, if_true]
    by_cases hle : St.screen_cols ≤ St.col_offset
    · have h0 : (St.screen_cols - St.col_offset).toNat = 0 := by omega
      rw [h0]
      simp only [List.range'_zero, List.map_nil]
      symm
      apply List.drop_eq_nil_of_le
      simp only [List.length_take]
      omega
    · rw [range_getD _ _ _ (by omega)]
      congr 2
      omega
  · simp only [hgt, if_false]
    have htake : row.render.take St.screen_cols.toNat = row.render := by
      apply List.take_of_length_le; omega
    rw [htake]
    by_cases hle : (row.render.length : Int) ≤ St.col_offset
    · have h0 : ((row.render.length : Int) - St.col_offset).toNat = 0 := by omega
      rw [h0]
      simp only [List.range'_zero, List.map_nil]
      symm
      apply List.drop_eq_nil_of_le
      omega
    · rw [range_getD _ _ _ (by omega)]
      have h1 : St.col_offset.toNat + ((row.render.length : Int) - St.col_offset).toNat
          = row.render.length := by omega
      rw [h1, List.take_length]

/-- C11 fails on the code: with `col_offset = 1` and `screen_cols = 2` the
row `abcd` is drawn as the single cell `b`, the index being bounded by
`screen_cols` and not by `col_offset + screen_cols`, while the slice of the
specification is `bc`; the cursor column 2, which `editor_scroll` accepts
for this window, is not drawn. -/
theorem C11_draw_clips_at_screen_cols :
    (editor_draw_row { init_editor 24 2 with col_offset := 1 } abcd_row []).map
        buffer_cells = some (cstr "b")
    ∧ spec_row_slice { init_editor 24 2 with col_offset := 1 } abcd_row = cstr "bc"
    ∧ (editor_draw_file_contents
        { init_editor 24 2 with col_offset := 1, num_rows := 1, rows := [abcd_row] }
        []).map (fun res => (buffer_cells res.1, res.2)) = some (cstr "b", 1)
    ∧ (editor_scroll
        { init_editor 24 2 with col_offset := 1, num_rows := 1, rows := [abcd_row],
                                 cy := 2 }).map
        (fun St => (St.ry, St.col_offset)) = some (2, 1) := by
  refine ⟨by rfl, by rfl, by rfl, by rfl⟩

theorem cascade_rows_head (syn : Option editor_syntax) (prev : Bool) (m : Nat)
    (r : erow) (rest new : List erow) (k : Nat)
    (h : cascade_rows syn prev m (r :: rest) = some (new, k)) :
    ∃ a tail, new = a :: tail ∧ a.idx = r.idx ∧ a.characters = r.characters
      ∧ a.render = r.render ∧ row_consistent syn prev a
      ∧ (syn = none → a.hl_open_comment = r.hl_open_comment) := by
  unfold cascade_rows at h
  cases syn with
  | none =>
    simp only [Option.some.injEq, Prod.mk.injEq] at h
    exact ⟨_, rest, h.1.symm, rfl, rfl, rfl, rfl, fun _ => rfl⟩
  | some s =>
    simp only at h
    cases hh : highlight_row s r.render prev with
    | none => rw [hh] at h; simp at h
    | some res =>
      obtain ⟨hl1, ic⟩ := res
      rw [hh] at h
      simp only at h
      split at h
      · cases h1 : cascade_rows (some s) ic (m - 1) rest with
        | none => rw [h1] at h; simp at h
        | some res1 =>
          rw [h1] at h
          simp only [Option.map_some', Option.some.injEq, Prod.mk.injEq] at h
          exact ⟨_, res1.1, h.1.symm, rfl, rfl, rfl, hh, fun h0 => by simp at h0⟩
      · simp only [Option.some.injEq, Prod.mk.injEq] at h
        exact ⟨_, rest, h.1.symm, rfl, rfl, rfl, hh, fun h0 => by simp at h0⟩

/-- The general form of an in-line edit: the raw text of the row after
`pre` is replaced, `editor_update_row` runs and the dirty counter is
incremented.  The rows before are untouched, the edited row is re-rendered
and consistent, and the rows after keep their index, text and display
string. -/
theorem edit_row_general (St : config) (pre post : List erow) (r : erow)
    (chars : List Int)
    (hadv : syntax_advances St) (hidx : rows_indexed St)
    (hrows : St.rows = pre ++ r :: post) :
    ∃ a tail, (editor_update_row (store_row St pre.length
          { r with characters := chars }) pre.length).map
        (fun S => { S with modified := S.modified + 1 })
        = some { St with rows := pre ++ a :: tail, modified := St.modified + 1 }
      ∧ a.idx = r.idx ∧ a.characters = chars ∧ a.render = render_row chars
      ∧ row_consistent St.syn (open_after false pre) a
      ∧ (St.syn = none → a.hl_open_comment = r.hl_open_comment)
      ∧ tail.map row_text = post.map row_text
      ∧ (St.syn = none → tail.map (fun x => x.hl_open_comment)
            = post.map (fun x => x.hl_open_comment))
      ∧ ((∀ x ∈ post, x.hl.length = x.render.length) →
          ∀ x ∈ a :: tail, x.hl.length = x.render.length) := by
  have hrows0 : (store_row St pre.length { r with characters := chars }).rows
      = pre ++ { r with characters := chars } :: post := by
    simp only [store_row, hrows, set_mid]
  have hlen0 : (store_row St pre.length { r with characters := chars }).rows.length
      = St.rows.length := by simp only [store_row, List.length_set]
  obtain ⟨new, k, h1, h2⟩ := update_row_general
    (store_row St pre.length { r with characters := chars }) pre post
    { r with characters := chars } hadv hrows0
    (by rw [hlen0]; exact le_of_eq hidx.1)
    (by rw [hrows0]
        have := hidx.2
        rw [hrows] at this
        simpa using this)
  obtain ⟨a, tail, hn, ha1, ha2, ha3, ha4, ha5⟩ := cascade_rows_head _ _ _ _ _ _ _ h2
  obtain ⟨t1, _, _, _, _, t6, t7⟩ := cascade_rows_text _ _ _ _ _ _ h2
  subst hn
  simp only [List.map_cons, List.cons.injEq] at t1 t7
  refine ⟨a, tail, ?_, ha1, ha2, ha3, ha4, ha5, t1.2, fun h0 => (t7 h0).2, ?_⟩
  · rw [h1]; rfl
  · intro hx
    apply t6
    intro x hmem
    simp only [List.mem_cons] at hmem
    rcases hmem with h0 | h0
    · subst h0; simp
    · exact hx x h0

theorem rows_consistent_unique (syn : Option editor_syntax) (b : Bool)
    (l1 l2 : List erow)
    (h1 : rows_consistent syn b l1) (h2 : rows_consistent syn b l2)
    (ht : l1.map row_text = l2.map row_text)
    (hf : syn = none → l1.map (fun x => x.hl_open_comment)
        = l2.map (fun x => x.hl_open_comment)) :
    l1 = l2 := by
  induction l1 generalizing b l2 with
  | nil =>
    cases l2 with
    | nil => rfl
    | cons a t => simp at ht
  | cons a1 t1 ih =>
    cases l2 with
    | nil => simp at ht
    | cons a2 t2 =>
      simp only [List.map_cons, List.cons.injEq, row_text, Prod.mk.injEq] at ht
      obtain ⟨⟨e1, e2, e3⟩, et⟩ := ht
      obtain ⟨c1, r1⟩ := h1
      obtain ⟨c2, r2⟩ := h2
      have hhead : a1 = a2 := by
        obtain ⟨i1, ch1, rd1, hl1, f1⟩ := a1
        obtain ⟨i2, ch2, rd2, hl2, f2⟩ := a2
        simp only at e1 e2 e3
        subst e1 e2 e3
        cases syn with
        | none =>
          simp only [row_consistent] at c1 c2
          have := hf rfl
          simp only [List.map_cons, List.cons.injEq] at this
          rw [c1, c2, this.1]
        | some s =>
          simp only [row_consistent] at c1 c2
          rw [c1] at c2
          simp only [Option.some.injEq, Prod.mk.injEq] at c2
          rw [c2.1, c2.2]
      subst hhead
      congr 1
      refine ih _ t2 r1 r2 et ?_
      intro h0
      have := hf h0
      simp only [List.map_cons, List.cons.injEq] at this
      exact this.2

theorem take_drop_insert (l : List Int) (i : Nat) (ch : Int) (h : i ≤ l.length) :
    (l.take i ++ ch :: l.drop i).take i
      ++ (l.take i ++ ch :: l.drop i).drop (i + 1) = l := by
  have hlen : (l.take i).length = i := by simp only [List.length_take]; omega
  rw [List.take_append_of_le_length (by omega), List.take_of_length_le (by omega)]
  have : (l.take i ++ ch :: l.drop i).drop (i + 1) = l.drop i := by
    have h2 : i + 1 = (l.take i ++ [ch]).length := by simp [hlen]
    rw [show l.take i ++ ch :: l.drop i = (l.take i ++ [ch]) ++ l.drop i by simp, h2,
      List.drop_left]
  rw [this, List.take_append_drop]

/-- C12: insert-then-delete is the identity on a line.  In a document with
indexed rows, for an existing row whose cache is up to date, an offset up to
its length and any byte, `editor_row_insert_character` followed by
`editor_row_delete_character` at the same offset returns and leaves that
row exactly as it was (raw text, display string, tags, flag), the rows
before it untouched and every raw text unchanged; when the document was
consistent, every row is as it was. -/
theorem C12_insert_then_delete (St : config) (p i : Nat) (ch : Int) (r : erow)
    (hadv : syntax_advances St) (hidx : rows_indexed St)
    (hrow : St.rows.get? p = some r) (hi : i ≤ r.characters.length)
    (hcur : row_cache_current St p r) :
    ∃ St1 St2, editor_row_insert_character St p i ch = some St1
      ∧ editor_row_delete_character St1 p i = some St2
      ∧ St2.rows.get? p = some r
      ∧ St2.rows.take p = St.rows.take p
      ∧ raw_texts St2 = raw_texts St
      ∧ St2 = { St with rows := St2.rows, modified := St.modified + 2 }
      ∧ (hl_consistent St → St2.rows = St.rows) := by
  obtain ⟨pre, post, hrows, hp⟩ := split_at St.rows p r hrow
  subst hp
  have htake : St.rows.take pre.length = pre := by rw [hrows]; simp
  obtain ⟨hrender, hrc⟩ := hcur
  rw [htake] at hrc
  -- the insertion
  obtain ⟨a, tail, h1, a1, a2, a3, a4, a5, a6, a7, _⟩ := edit_row_general St pre post r
    (r.characters.take i ++ ch :: r.characters.drop i) hadv hidx hrows
  have hins : editor_row_insert_character St pre.length i ch
      = some { St with rows := pre ++ a :: tail, modified := St.modified + 1 } := by
    unfold editor_row_insert_character
    rw [hrow]
    exact h1
  -- the state after it
  have hlen1 : tail.length = post.length := by
    have := congrArg List.length a6
    simpa using this
  have hidx1 : rows_indexed
      { St with rows := pre ++ a :: tail, modified := St.modified + 1 } := by
    refine ⟨?_, ?_⟩
    · show St.num_rows = (pre ++ a :: tail).length
      rw [hidx.1, hrows]; simp [hlen1]
    · show (pre ++ a :: tail).map (fun x => x.idx)
        = List.range' 0 (pre ++ a :: tail).length
      have h0 := hidx.2
      have h6 := congrArg (List.map (fun t : Nat × List Int × List Int => t.1)) a6
      simp only [List.map_map] at h6
      have h6' : tail.map (fun x => x.idx) = post.map (fun x => x.idx) := h6
      rw [hrows] at h0
      simp only [List.map_append, List.map_cons, List.length_append, List.length_cons,
        h6', a1, hlen1] at h0 ⊢
      exact h0
  -- the deletion
  obtain ⟨b, tail2, h2, b1, b2, b3, b4, b5, b6, b7, _⟩ := edit_row_general
    { St with rows := pre ++ a :: tail, modified := St.modified + 1 } pre tail a
    r.characters hadv hidx1 rfl
  have hchars : (if i < a.characters.length then
        a.characters.take i ++ a.characters.drop (i + 1)
      else a.characters.take (a.characters.length - 1)) = r.characters := by
    have hl : i < a.characters.length := by
      rw [a2]; simp only [List.length_append, List.length_take, List.length_cons,
        List.length_drop]; omega
    rw [if_pos hl, a2]
    exact take_drop_insert _ _ _ hi
  have hdel : editor_row_delete_character
      { St with rows := pre ++ a :: tail, modified := St.modified + 1 } pre.length i
      = some { St with rows := pre ++ b :: tail2, modified := St.modified + 2 } := by
    unfold editor_row_delete_character
    have hg : ({ St with rows := pre ++ a :: tail, modified := St.modified + 1 } :
        config).rows.get? pre.length = some a := get_mid _ _ _
    rw [hg]
    have hne : ¬ a.characters.length = 0 := by
      rw [a2]; simp
    simp only [hne, if_false]
    rw [hchars, h2]
  -- the edited row is back
  have hb : b = r := by
    obtain ⟨i1, c1, rd1, hl1, f1⟩ := b
    obtain ⟨i2, c2, rd2, hl2, f2⟩ := r
    simp only at b1 b2 b3 b4 b5 a1 a5 hrender hrc
    subst b2
    have e1 : i1 = i2 := by rw [b1, a1]
    have e3 : rd1 = rd2 := by rw [b3, hrender]
    subst e1 e3
    cases hs : St.syn with
    | none =>
      rw [hs] at b4 hrc
      simp only [row_consistent] at b4 hrc
      have e5 : f1 = f2 := by rw [b5 hs, a5 hs]
      rw [b4, hrc, e5]
    | some s =>
      rw [hs] at b4 hrc
      simp only [row_consistent] at b4 hrc
      rw [b4] at hrc
      simp only [Option.some.injEq, Prod.mk.injEq] at hrc
      rw [hrc.1, hrc.2]
  subst hb
  have htext : tail2.map row_text = post.map row_text := by rw [b6, a6]
  refine ⟨_, _, hins, hdel, get_mid _ _ _, ?_, ?_, rfl, ?_⟩
  · show (pre ++ b :: tail2).take pre.length = St.rows.take pre.length
    rw [htake]; simp
  · show (pre ++ b :: tail2).map (fun x => x.characters)
      = St.rows.map (fun x => x.characters)
    have h6 := congrArg (List.map (fun t : Nat × List Int × List Int => t.2.1)) htext
    simp only [List.map_map] at h6
    have h6' : tail2.map (fun x => x.characters) = post.map (fun x => x.characters) := h6
    rw [hrows]
    simp only [List.map_append, List.map_cons, h6']
  · intro hcons
    show pre ++ b :: tail2 = St.rows
    rw [hrows]
    congr 2
    have hc0 := (rows_consistent_append St.syn false pre (b :: post)).1
      (by rw [← hrows]; exact hcons)
    -- consistency after the two edits
    obtain ⟨S1, e1, c1, i1, v1⟩ := edit_row_consistent St pre.length b
      (b.characters.take i ++ ch :: b.characters.drop i) hadv hidx hcons hrow
    rw [h1] at e1
    simp only [Option.some.injEq] at e1
    subst e1
    obtain ⟨S2, e2, c2, _, _⟩ := edit_row_consistent _ pre.length a
      b.characters v1 i1 c1 (get_mid _ _ _)
    rw [h2] at e2
    simp only [Option.some.injEq] at e2
    subst e2
    have hc2 := (rows_consistent_append St.syn false pre (b :: tail2)).1 c2
    exact rows_consistent_unique St.syn b.hl_open_comment tail2 post
      hc2.2.2 hc0.2.2 htext (fun h0 => by rw [b7 h0, a7 h0])

/-- Witness of C12: in the block-comment document, inserting `x` at offset
3 of line 0 and deleting it again gives back every row. -/
theorem C12_insert_then_delete_witness :
    ∃ St1 St2, editor_row_insert_character comment_document 0 3 120 = some St1
      ∧ editor_row_delete_character St1 0 3 = some St2
      ∧ St2.rows = comment_document.rows :=
  match C12_insert_then_delete comment_document 0 3 120
      { idx := 0, characters := cstr "/* start", render := cstr "/* start",
        hl := List.replicate 8 HL_COMMENT, hl_open_comment := true }
      (by decide) (by decide) (by rfl) (by decide) (by decide) with
  | ⟨St1, St2, h1, h2, _, _, _, _, h7⟩ => ⟨St1, St2, h1, h2, h7 (by decide)⟩

/-! ## splitting and joining lines -/

/-- C13 fails on the code when the part of the line after the cursor holds
a NUL byte: in the one-line document `a NUL b` (rendered `a^@b`) with the
cursor at (0, 0), `editor_insert_newline_at_cursor` copies the remainder
with `strdup`, so line 1 is `a` only, and the join by
`editor_delete_character_at_cursor` at (0, 0) gives the line `a`, not the
original three bytes. -/
theorem C13_split_loses_bytes_after_nul :
    raw_texts nul_document = [[97, 0, 98]]
    ∧ nul_document.rows.map (fun r => r.render) = [cstr "a^@b"]
    ∧ rows_indexed nul_document ∧ cursor_strict nul_document
    ∧ (nul_document.cx, nul_document.cy) = (0, 0)
    ∧ (editor_insert_newline_at_cursor nul_document).map
        (fun St => (raw_texts St, St.num_rows, St.cx, St.cy))
        = some ([[], [97]], 2, 1, 0)
    ∧ ((editor_insert_newline_at_cursor nul_document).bind
        (fun St => editor_delete_character_at_cursor { St with cx := 0, cy := 0 })).map
        (fun St => (raw_texts St, St.num_rows, St.cx, St.cy))
        = some ([[97]], 1, 0, 0) := by
  refine ⟨by rfl, by rfl, by decide, by decide, by rfl, by rfl, by rfl⟩

/-! ## the scan stores no tag past the end of the tag array -/

theorem strncmp_eq_comm (n : Nat) (a b : List Int) :
    strncmp_eq n a b = strncmp_eq n b a := by
  induction n generalizing a b with
  | zero => rfl
  | succ k ih =>
    unfold strncmp_eq
    by_cases h : a.headD 0 = b.headD 0
    · simp only [h, bne_self_eq_false, Bool.false_eq_true, if_false]
      rw [ih]
    · have h' : ¬ b.headD 0 = a.headD 0 := fun e => h e.symm
      simp only [bne_iff_ne, ne_eq, h, h', not_false_eq_true, if_true]

theorem strncmp_eq_length (n : Nat) (a b : List Int)
    (h : strncmp_eq n a b = true) (hz : ∀ c ∈ a.take n, c ≠ 0)
    (hn : n ≤ a.length) : n ≤ b.length := by
  induction n generalizing a b with
  | zero => omega
  | succ k ih =>
    cases a with
    | nil => simp at hn
    | cons x a' =>
      have hx : x ≠ 0 := hz x (by simp)
      unfold strncmp_eq at h
      simp only [List.headD_cons, List.tail_cons] at h
      cases b with
      | nil =>
        simp only [List.headD_nil, bne_iff_ne, ne_eq, hx, not_false_eq_true, if_true] at h
        exact absurd h (by simp)
      | cons y b' =>
        simp only [List.headD_cons, List.tail_cons] at h
        by_cases hxy : x = y
        · subst hxy
          simp only [bne_self_eq_false, Bool.false_eq_true, if_false, beq_iff_eq, hx] at h
          have := ih a' b' h
            (fun c hc => hz c (by simp only [List.take_succ_cons, List.mem_cons]; exact Or.inr hc))
            (by simp only [List.length_cons] at hn; omega)
          simp only [List.length_cons]; omega
        · simp [hxy] at h

theorem strncmp_eq_head (n : Nat) (a b : List Int)
    (h : strncmp_eq (n + 1) a b = true) : a.headD 0 = b.headD 0 := by
  unfold strncmp_eq at h
  by_cases e : a.headD 0 = b.headD 0
  · exact e
  · simp only [bne_iff_ne, ne_eq, e, not_false_eq_true, if_true] at h
    exact absurd h (by simp)

theorem set_append_guard (l g : List editor_hightlight) (i : Nat)
    (v : editor_hightlight) (h : i < l.length) :
    (l ++ g).set i v = l.set i v ++ g := by
  induction l generalizing i with
  | nil => simp at h
  | cons a t ih =>
    cases i with
    | zero => rfl
    | succ j =>
      simp only [List.cons_append, List.set_cons_succ, List.cons.injEq, true_and]
      exact ih j (by simp only [List.length_cons] at h; omega)

theorem memset_append_guard (l g : List editor_hightlight) (y n : Nat)
    (v : editor_hightlight) (h : n ≤ l.length - y) :
    memset (l ++ g) y v n = memset l y v n ++ g := by
  unfold memset
  by_cases h0 : n = 0
  · subst h0
    simp only [Nat.zero_min, List.replicate_zero, List.append_nil, Nat.add_zero,
      List.take_append_drop]
  · have hy : y + n ≤ l.length := by omega
    rw [List.take_append_of_le_length (by omega), List.drop_append_of_le_length hy]
    simp only [List.length_append, List.append_assoc]
    congr 2
    congr 1
    omega

theorem getD_append_guard (l g : List editor_hightlight) (i : Nat)
    (d : editor_hightlight) (h : i < l.length) :
    (l ++ g).getD i d = l.getD i d := by
  rw [List.getD_eq_getElem _ _ (by simp only [List.length_append]; omega),
    List.getD_eq_getElem _ _ h, List.getElem_append_left h]

theorem keyword_len_take_nonzero (kw : List Int) (hz : ∀ c ∈ kw, c ≠ 0) :
    ∀ c ∈ kw.take (if kw.getLast? == some 124 then kw.length - 1 else kw.length),
      c ≠ 0 :=
  fun c hc => hz c (List.mem_of_mem_take hc)

theorem keyword_block_guard (syn : editor_syntax) (render : List Int)
    (st : scan_state) (g : List editor_hightlight)
    (hlen : st.hl.length = render.length)
    (hkw : ∀ kw ∈ syn.keywords, ∀ c ∈ kw, c ≠ 0) :
    keyword_block syn render (with_guard st g)
      = (keyword_block syn render st).map (fun s => with_guard s g) := by
  unfold keyword_block
  simp only [with_guard]
  split
  · cases hf : find_keyword render st.y syn.keywords with
    | none => rfl
    | some res =>
      obtain ⟨n, k2⟩ := res
      simp only [Option.map_some', Option.some.injEq]
      obtain ⟨kw, hmem, _, hn, hcmp, _⟩ := find_keyword_sound _ _ _ _ _ hf
      have hle : n ≤ (render.drop st.y).length := by
        apply strncmp_eq_length n kw _ hcmp
        · rw [hn]; exact keyword_len_take_nonzero kw (hkw kw hmem)
        · rw [hn]; split <;> omega
      simp only [List.length_drop] at hle
      rw [memset_append_guard _ _ _ _ _ (by rw [hlen]; exact hle)]
  · rfl

theorem scan_tail_guard (syn : editor_syntax) (render : List Int) (ch : Int)
    (prev_hl : editor_hightlight) (st : scan_state) (g : List editor_hightlight)
    (hlen : st.hl.length = render.length)
    (hkw : ∀ kw ∈ syn.keywords, ∀ c ∈ kw, c ≠ 0)
    (hnum : st.y < render.length ∨ (isdigit ch = false ∧ ch ≠ 46)) :
    scan_tail syn render ch prev_hl (with_guard st g)
      = (with_guard (scan_tail syn render ch prev_hl st).1 g,
          (scan_tail syn render ch prev_hl st).2) := by
  unfold scan_tail
  rw [keyword_block_guard syn render st g hlen hkw]
  have e1 : (with_guard st g).is_prev_sep = st.is_prev_sep := rfl
  have e2 : (with_guard st g).y = st.y := rfl
  rw [e1, e2]
  split
  · next hc =>
    rcases hnum with hy | ⟨hd, hdot⟩
    · simp only [with_guard, set_append_guard _ _ _ _ (by rw [hlen]; exact hy)]
    · exfalso
      simp only [hd, Bool.false_and, Bool.false_or, Bool.and_eq_true, bne_iff_ne, ne_eq,
        beq_iff_eq, hdot, false_and, and_false] at hc
  · cases keyword_block syn render st with
    | none => rfl
    | some s => rfl

theorem scan_comment_guard (syn : editor_syntax) (hs : profile_in_bounds syn)
    (render : List Int) (prev_hl : editor_hightlight) (st : scan_state)
    (g : List editor_hightlight)
    (hlen : st.hl.length = render.length) (hy : st.y < render.length) :
    scan_comment syn render (render.getD st.y 0) prev_hl (with_guard st g)
      = (with_guard (scan_comment syn render (render.getD st.y 0) prev_hl st).1 g,
          (scan_comment syn render (render.getD st.y 0) prev_hl st).2) := by
  obtain ⟨_, hz1, hz2, hkw, hd, hdot⟩ := hs
  have e1 : (with_guard st g).inside_string = st.inside_string := rfl
  have e2 : (with_guard st g).y = st.y := rfl
  have e3 : (with_guard st g).inside_comment = st.inside_comment := rfl
  have e4 : (with_guard st g).hl = st.hl ++ g := rfl
  unfold scan_comment
  rw [e1, e2, e3, e4]
  split
  · split
    · split
      · next hm =>
        have hle : syn.multiline_comment_end.length ≤ (render.drop st.y).length :=
          strncmp_eq_length _ _ _ hm
            (fun c hc => hz2 c (List.mem_of_mem_take hc)) (le_refl _)
        simp only [List.length_drop] at hle
        have hset : ((st.hl ++ g).set st.y HL_COMMENT)
            = st.hl.set st.y HL_COMMENT ++ g :=
          set_append_guard _ _ _ _ (by rw [hlen]; exact hy)
        have hms : memset ((st.hl ++ g).set st.y HL_COMMENT) st.y HL_COMMENT
              syn.multiline_comment_end.length
            = memset (st.hl.set st.y HL_COMMENT) st.y HL_COMMENT
              syn.multiline_comment_end.length ++ g := by
          rw [hset]
          exact memset_append_guard _ _ _ _ _
            (by simp only [List.length_set]; rw [hlen]; exact hle)
        have hnum : st.y + syn.multiline_comment_end.length < render.length
            ∨ (isdigit (render.getD st.y 0) = false ∧ render.getD st.y 0 ≠ 46) := by
          cases hml : syn.multiline_comment_end with
          | nil => left; simp only [List.length_nil]; omega
          | cons c cs =>
            right
            rw [hml] at hm hd hdot
            have hh := strncmp_eq_head _ _ _ hm
            simp only [List.headD_cons] at hh hd hdot
            have hr : render.getD st.y 0 = c := by
              rw [hh, List.headD_eq_head?_getD, List.head?_drop, List.getD_eq_getElem?_getD]
            rw [hr]; exact ⟨hd, hdot⟩
        have := scan_tail_guard syn render (render.getD st.y 0) prev_hl
          { st with
            hl := memset (st.hl.set st.y HL_COMMENT) st.y HL_COMMENT
              syn.multiline_comment_end.length
            y := st.y + syn.multiline_comment_end.length
            inside_comment := false } g
          (by simp only [memset_length, List.length_set]; exact hlen) hkw hnum
        simp only [hms]
        exact this
      · simp only [with_guard, set_append_guard _ _ _ _ (by rw [hlen]; exact hy)]
    · split
      · next hm =>
        rw [strncmp_eq_comm] at hm
        have hle : syn.multiline_comment_start.length ≤ (render.drop st.y).length :=
          strncmp_eq_length _ _ _ hm
            (fun c hc => hz1 c (List.mem_of_mem_take hc)) (le_refl _)
        simp only [List.length_drop] at hle
        have hms := memset_append_guard st.hl g st.y
          syn.multiline_comment_start.length HL_COMMENT (by rw [hlen]; exact hle)
        simp only [with_guard, hms]
      · exact scan_tail_guard syn render _ prev_hl st g hlen hkw (Or.inl hy)
  · exact scan_tail_guard syn render _ prev_hl st g hlen hkw (Or.inl hy)

theorem scan_body_guard (syn : editor_syntax) (hs : profile_in_bounds syn)
    (render : List Int) (st : scan_state) (g : List editor_hightlight)
    (hlen : st.hl.length = render.length) (hy : st.y < render.length) :
    scan_body syn render (with_guard st g)
      = (with_guard (scan_body syn render st).1 g, (scan_body syn render st).2) := by
  have e1 : (with_guard st g).inside_string = st.inside_string := rfl
  have e2 : (with_guard st g).y = st.y := rfl
  have e3 : (with_guard st g).inside_comment = st.inside_comment := rfl
  have e4 : (with_guard st g).hl = st.hl ++ g := rfl
  have hprev : (if st.y > 0 then (st.hl ++ g).getD (st.y - 1) HL_NORMAL else HL_NORMAL)
      = (if st.y > 0 then st.hl.getD (st.y - 1) HL_NORMAL else HL_NORMAL) := by
    split
    · exact getD_append_guard _ _ _ _ (by rw [hlen]; omega)
    · rfl
  unfold scan_body
  simp only [e1, e2, e3, e4, hprev]
  split
  · have hms := memset_append_guard st.hl g st.y (render.length - st.y) HL_COMMENT
      (by rw [hlen])
    simp only [with_guard, hms]
  · split
    · split
      · simp only [with_guard, set_append_guard _ _ _ _ (by rw [hlen]; exact hy)]
      · split
        · simp only [with_guard, set_append_guard _ _ _ _ (by rw [hlen]; exact hy)]
        · exact scan_comment_guard syn hs render _ st g hlen hy
    · exact scan_comment_guard syn hs render _ st g hlen hy

theorem scan_loop_guard (syn : editor_syntax) (hs : profile_in_bounds syn)
    (render : List Int) (fuel : Nat) (st : scan_state) (g : List editor_hightlight)
    (hlen : st.hl.length = render.length) :
    scan_loop syn render fuel (with_guard st g)
      = (scan_loop syn render fuel st).map (fun s => with_guard s g) := by
  induction fuel generalizing st with
  | zero => rfl
  | succ f ih =>
    unfold scan_loop
    have e2 : (with_guard st g).y = st.y := rfl
    rw [e2]
    split
    · next hy =>
      rw [scan_body_guard syn hs render st g hlen hy]
      have hl1 := scan_body_length syn render st
      cases hb : scan_body syn render st with
      | mk st1 b =>
        rw [hb] at hl1
        cases b with
        | true => exact ih st1 (by rw [hl1]; exact hlen)
        | false => rfl
    · rfl

/-! ## whole-line insertion, in general -/

theorem idx_take (f : erow → Nat) (pre rest : List erow) (s : Nat)
    (h : (pre ++ rest).map f = List.range' s (pre ++ rest).length) :
    pre.map f = List.range' s pre.length := by
  induction pre generalizing s with
  | nil => rfl
  | cons a t ih =>
    simp only [List.cons_append, List.map_cons, List.length_cons, List.range'_succ,
      List.cons.injEq] at h ⊢
    exact ⟨h.1, ih (s + 1) h.2⟩

theorem idx_join (pre rest : List Nat) (s : Nat)
    (h1 : pre = List.range' s pre.length)
    (h2 : rest = List.range' (s + pre.length) rest.length) :
    pre ++ rest = List.range' s (pre ++ rest).length := by
  rw [List.length_append, Nat.add_comm pre.length, ← List.range'_append_1, ← h1, ← h2]

theorem insert_row_general (St : config) (i : Nat) (s : List Int)
    (hadv : syntax_advances St) (hidx : rows_indexed St) (hi : i ≤ St.num_rows) :
    ∃ a tail, editor_insert_row St i s
        = some { St with rows := St.rows.take i ++ a :: tail
                         num_rows := St.num_rows + 1
                         modified := St.modified + 1 }
      ∧ a.idx = i ∧ a.characters = s ∧ a.render = render_row s
      ∧ row_consistent St.syn (open_after false (St.rows.take i)) a
      ∧ tail.map (fun x => (x.idx, x.characters, x.render))
          = (St.rows.drop i).map (fun x => (x.idx + 1, x.characters, x.render))
      ∧ ((∀ x ∈ St.rows.drop i, x.hl.length = x.render.length) →
          ∀ x ∈ a :: tail, x.hl.length = x.render.length) := by
  obtain ⟨hn, hix⟩ := hidx
  have hil : i ≤ St.rows.length := by omega
  have hprelen : (St.rows.take i).length = i := by
    simp only [List.length_take]; omega
  have hsplit : (St.rows.take i ++ St.rows.drop i).map (fun x => x.idx)
      = List.range' 0 (St.rows.take i ++ St.rows.drop i).length := by
    rw [List.take_append_drop]; exact hix
  have h1 := idx_take _ _ _ 0 hsplit
  have h2 := idx_split _ _ _ 0 hsplit
  rw [hprelen] at h1
  simp only [hprelen, Nat.zero_add] at h2
  have hrows1 : ({ St with rows := St.rows.take i ++
        ({ idx := i, characters := s, render := [], hl := [],
           hl_open_comment := false } : erow) ::
        (St.rows.drop i).map (fun r => { r with idx := r.idx + 1 }) } : config).rows
      = St.rows.take i ++
        ({ idx := i, characters := s, render := [], hl := [],
           hl_open_comment := false } : erow) ::
        (St.rows.drop i).map (fun r => { r with idx := r.idx + 1 }) := rfl
  have hbump : ((St.rows.drop i).map (fun r => { r with idx := r.idx + 1 })).map
      (fun x => x.idx) = List.range' (i + 1) (St.rows.drop i).length := by
    rw [List.map_map]
    have : ((fun x : erow => x.idx) ∘ fun r : erow => { r with idx := r.idx + 1 })
        = (fun n => 1 + n) ∘ (fun x : erow => x.idx) := by
      funext r; simp only [Function.comp]; omega
    rw [this, ← List.map_map, h2, List.map_add_range', Nat.add_comm 1 i]
  obtain ⟨new, k, e1, e2⟩ := update_row_general
    { St with rows := St.rows.take i ++
        ({ idx := i, characters := s, render := [], hl := [],
           hl_open_comment := false } : erow) ::
        (St.rows.drop i).map (fun r => { r with idx := r.idx + 1 }) }
    (St.rows.take i) _ _ hadv hrows1
    (by simp only [List.length_append, List.length_cons, List.length_map, List.length_take,
          List.length_drop]; omega)
    (by rw [hrows1, List.map_append, List.map_cons, hbump]
        have := idx_join ((St.rows.take i).map (fun x => x.idx))
          (i :: List.range' (i + 1) (St.rows.drop i).length) 0
          (by rw [List.length_map, hprelen]; exact h1)
          (by simp only [List.length_map, hprelen, Nat.zero_add, List.length_cons,
                List.length_range', List.range'_succ])
        simpa using this)
  obtain ⟨a, tail, hnew, a1, a2, a3, a4, _⟩ := cascade_rows_head _ _ _ _ _ _ _ e2
  obtain ⟨t1, _, _, _, _, t6, _⟩ := cascade_rows_text _ _ _ _ _ _ e2
  subst hnew
  simp only [List.map_cons, List.cons.injEq] at t1
  refine ⟨a, tail, ?_, a1, a2, a3, a4, ?_, ?_⟩
  · unfold editor_insert_row
    simp only [hi, if_true]
    rw [hprelen] at e1
    rw [e1]
    rfl
  · show tail.map row_text = _
    rw [t1.2, List.map_map]
    rfl
  · intro hx
    apply t6
    intro x hmem
    simp only [List.mem_cons, List.mem_map] at hmem
    rcases hmem with h0 | ⟨y, hy, h0⟩
    · subst h0; simp
    · subst h0; exact hx y hy

theorem edit_row_tags (St : config) (p : Nat) (r : erow) (chars : List Int)
    (hadv : syntax_advances St) (hidx : rows_indexed St) (htags : tags_match St)
    (hrow : St.rows.get? p = some r) :
    ∃ St1, (editor_update_row (store_row St p { r with characters := chars }) p).map
        (fun S => { S with modified := S.modified + 1 }) = some St1
      ∧ tags_match St1 := by
  obtain ⟨pre, post, hrows, hp⟩ := split_at St.rows p r hrow
  subst hp
  obtain ⟨a, tail, h1, _, _, _, _, _, _, _, h9⟩ :=
    edit_row_general St pre post r chars hadv hidx hrows
  refine ⟨_, h1, ?_⟩
  intro x hx
  have hx' : x ∈ pre ++ a :: tail := hx
  rw [List.mem_append] at hx'
  rcases hx' with h0 | h0
  · exact htags x (by rw [hrows]; exact List.mem_append_left _ h0)
  · exact h9 (fun y hy => htags y (by
      rw [hrows]; exact List.mem_append_right _ (List.mem_cons_of_mem _ hy))) x h0

/-- C14: the tag array always has the length of the display string.  In a
document with indexed rows, with no profile or with the C/C++ profile, where
every row's tag array has as many entries as its display string,
`editor_insert_row`, `editor_row_insert_character`,
`editor_row_delete_character` and `editor_row_append_string` return a
document with the same property (the rows recomputed by the cascade
included); and the scan of the C/C++ profile, run on any display string
with further memory placed right after the tag array, leaves that memory
as it was: it stores no tag at an index from `rsize` on. -/
theorem C14_tags_match_display (St : config) (hidx : rows_indexed St)
    (hsyn : St.syn = none ∨ St.syn = some HLDB_C) (htags : tags_match St) :
    (∀ (i : Nat) (s : List Int), i ≤ St.num_rows →
      ∃ St1, editor_insert_row St i s = some St1 ∧ tags_match St1)
    ∧ (∀ (p i : Nat) (ch : Int) (r : erow), St.rows.get? p = some r →
      ∃ St1, editor_row_insert_character St p i ch = some St1 ∧ tags_match St1)
    ∧ (∀ (p i : Nat) (r : erow), St.rows.get? p = some r → r.characters ≠ [] →
      ∃ St1, editor_row_delete_character St p i = some St1 ∧ tags_match St1)
    ∧ (∀ (p : Nat) (str : List Int) (r : erow), St.rows.get? p = some r →
      ∃ St1, editor_row_append_string St p str = some St1 ∧ tags_match St1)
    ∧ (∀ (render : List Int) (ic : Bool),
      ∃ hl ic1, highlight_row HLDB_C render ic = some (hl, ic1)
        ∧ hl.length = render.length)
    ∧ (∀ (render : List Int) (ic : Bool) (guard : List editor_hightlight),
      (scan_loop HLDB_C render (render.length + 1)
          (with_guard (scan_init render ic) guard)).map (fun st => st.hl)
        = (highlight_row HLDB_C render ic).map (fun res => res.1 ++ guard)) := by
  have hadv : syntax_advances St := by
    unfold syntax_advances
    rcases hsyn with h | h <;> rw [h]
    · trivial
    · show profile_advances HLDB_C
      decide
  refine ⟨?_, ?_, ?_, ?_, ?_, ?_⟩
  · intro i s hi
    obtain ⟨a, tail, h1, _, _, _, _, _, h7⟩ := insert_row_general St i s hadv hidx hi
    refine ⟨_, h1, ?_⟩
    intro x hx
    have hx' : x ∈ St.rows.take i ++ a :: tail := hx
    rw [List.mem_append] at hx'
    rcases hx' with h0 | h0
    · exact htags x (List.mem_of_mem_take h0)
    · exact h7 (fun y hy => htags y (List.mem_of_mem_drop hy)) x h0
  · intro p i ch r hrow
    unfold editor_row_insert_character
    rw [hrow]
    exact edit_row_tags St p r _ hadv hidx htags hrow
  · intro p i r hrow hne
    unfold editor_row_delete_character
    rw [hrow]
    have h0 : ¬ r.characters.length = 0 := by
      intro h; exact hne (List.length_eq_zero.1 h)
    simp only [h0, if_false]
    exact edit_row_tags St p r _ hadv hidx htags hrow
  · intro p str r hrow
    unfold editor_row_append_string
    rw [hrow]
    exact edit_row_tags St p r _ hadv hidx htags hrow
  · intro render ic
    obtain ⟨⟨hl, ic1⟩, h⟩ := highlight_row_some HLDB_C (by decide) render ic
    exact ⟨hl, ic1, h, highlight_row_length _ _ _ _ _ h⟩
  · intro render ic guard
    rw [scan_loop_guard HLDB_C (by decide) render _ _ guard (by simp [scan_init])]
    unfold highlight_row
    simp only [Option.map_map]
    rfl

/-- Witness of C14 at the block-comment document: inserting a line, and
editing line 1, keep the tag arrays as long as the display strings. -/
theorem C14_tags_match_display_witness :
    (∃ St1, editor_insert_row comment_document 1 (cstr "x = 1; /* y") = some St1
      ∧ tags_match St1)
    ∧ ∃ St1, editor_row_delete_character comment_document 1 0 = some St1
      ∧ tags_match St1 :=
  ⟨(C14_tags_match_display comment_document (by decide) (Or.inr (by rfl))
      (by decide)).1 1 (cstr "x = 1; /* y") (by decide),
   (C14_tags_match_display comment_document (by decide) (Or.inr (by rfl))
      (by decide)).2.2.1 1 0
      { idx := 1, characters := cstr "middle", render := cstr "middle",
        hl := List.replicate 6 HL_COMMENT, hl_open_comment := true }
      (by rfl) (by decide)⟩

/-! ## in-line edits and the raw texts -/

theorem tail_texts (tail post : List erow)
    (h : tail.map row_text = post.map row_text) :
    tail.map (fun x => x.characters) = post.map (fun x => x.characters)
      ∧ tail.map (fun x => x.idx) = post.map (fun x => x.idx)
      ∧ tail.length = post.length := by
  have h1 := congrArg (List.map (fun t : Nat × List Int × List Int => t.2.1)) h
  have h2 := congrArg (List.map (fun t : Nat × List Int × List Int => t.1)) h
  have h3 := congrArg List.length h
  simp only [List.map_map, List.length_map] at h1 h2 h3
  exact ⟨h1, h2, h3⟩

/-- An in-line edit returns; it replaces the raw text of the edited row,
keeps every other raw text, the number of rows and the cursor, and adds
one to the dirty counter. -/
theorem edit_row_texts (St : config) (p : Nat) (r : erow) (chars : List Int)
    (hadv : syntax_advances St) (hidx : rows_indexed St)
    (hrow : St.rows.get? p = some r) :
    ∃ St1, (editor_update_row (store_row St p { r with characters := chars }) p).map
        (fun S => { S with modified := S.modified + 1 }) = some St1
      ∧ raw_texts St1 = (raw_texts St).set p chars
      ∧ St1 = { St with rows := St1.rows, modified := St.modified + 1 }
      ∧ rows_indexed St1 ∧ syntax_advances St1 := by
  obtain ⟨pre, post, hrows, hp⟩ := split_at St.rows p r hrow
  subst hp
  obtain ⟨a, tail, h1, a1, a2, _, _, _, a6, _, _⟩ :=
    edit_row_general St pre post r chars hadv hidx hrows
  obtain ⟨t1, t2, t3⟩ := tail_texts tail post a6
  refine ⟨_, h1, ?_, rfl, ⟨?_, ?_⟩, hadv⟩
  · show (pre ++ a :: tail).map (fun x => x.characters)
      = (St.rows.map (fun x => x.characters)).set pre.length chars
    rw [hrows]
    simp only [List.map_append, List.map_cons, t1, a2]
    have := set_mid (pre.map (fun x => x.characters)) (post.map (fun x => x.characters))
      r.characters chars
    rw [List.length_map] at this
    exact this.symm
  · show St.num_rows = (pre ++ a :: tail).length
    rw [hidx.1, hrows]; simp [t3]
  · show (pre ++ a :: tail).map (fun x => x.idx) = List.range' 0 (pre ++ a :: tail).length
    have h0 := hidx.2
    rw [hrows] at h0
    simp only [List.map_append, List.map_cons, List.length_append, List.length_cons,
      t2, a1, t3] at h0 ⊢
    exact h0

theorem cascade_rows_chain (syn : Option editor_syntax) (prev : Bool) (m : Nat)
    (l new : List erow) (k : Nat)
    (h : cascade_rows syn prev m l = some (new, k)) :
    ∀ t, t < k →
      (t + 1 < k ↔
        ((l.get? t).map (fun r => r.hl_open_comment)
            ≠ (new.get? t).map (fun r => r.hl_open_comment) ∧ t < m)) := by
  induction l generalizing prev m new k with
  | nil => simp [cascade_rows] at h
  | cons r rest ih =>
    unfold cascade_rows at h
    cases syn with
    | none =>
      simp only [Option.some.injEq, Prod.mk.injEq] at h
      obtain ⟨h1, h2⟩ := h
      subst h1 h2
      intro t ht
      have : t = 0 := by omega
      subst this
      simp
    | some s =>
      simp only at h
      cases hh : highlight_row s r.render prev with
      | none => rw [hh] at h; simp at h
      | some res =>
        obtain ⟨hl1, ic⟩ := res
        rw [hh] at h
        simp only at h
        split at h
        · next hc =>
          simp only [Bool.and_eq_true, bne_iff_ne, ne_eq, decide_eq_true_eq] at hc
          cases h1 : cascade_rows (some s) ic (m - 1) rest with
          | none => rw [h1] at h; simp at h
          | some res1 =>
            obtain ⟨new1, k1⟩ := res1
            rw [h1] at h
            simp only [Option.map_some', Option.some.injEq, Prod.mk.injEq] at h
            obtain ⟨ha, hb⟩ := h
            subst ha hb
            have hk1 := (cascade_rows_text _ _ _ _ _ _ h1).2.1
            intro t ht
            cases t with
            | zero =>
              simp only [List.get?_cons_zero, Option.map_some', ne_eq, Option.some.injEq]
              constructor
              · intro _; exact ⟨hc.1, hc.2⟩
              · intro _; omega
            | succ t' =>
              have := ih ic (m - 1) new1 k1 h1 t' (by omega)
              simp only [List.get?_cons_succ]
              constructor
              · intro h0
                have h2 := this.1 (by omega)
                exact ⟨h2.1, by omega⟩
              · intro h0
                have h2 := this.2 ⟨h0.1, by omega⟩
                omega
        · next hc =>
          simp only [Bool.and_eq_true, bne_iff_ne, ne_eq, decide_eq_true_eq, not_and] at hc
          simp only [Option.some.injEq, Prod.mk.injEq] at h
          obtain ⟨h1, h2⟩ := h
          subst h1 h2
          intro t ht
          have : t = 0 := by omega
          subst this
          simp only [List.get?_cons_zero, Option.map_some', ne_eq, Option.some.injEq]
          constructor
          · intro h0; omega
          · intro h0; exact absurd h0.2 (hc h0.1)

theorem get?_append_mid {α : Type} (pre l : List α) (t : Nat) :
    (pre ++ l).get? (pre.length + t) = l.get? t := by
  induction pre with
  | nil => simp
  | cons a p ih =>
    simp only [List.cons_append, List.length_cons]
    rw [show p.length + 1 + t = (p.length + t) + 1 by omega, List.get?_cons_succ]
    exact ih

theorem get?_append_pre {α : Type} (pre l1 l2 : List α) (j : Nat)
    (h : j < pre.length) : (pre ++ l1).get? j = (pre ++ l2).get? j := by
  induction pre generalizing j with
  | nil => simp at h
  | cons a p ih =>
    cases j with
    | zero => rfl
    | succ n =>
      simp only [List.cons_append, List.get?_cons_succ]
      exact ih n (by simp only [List.length_cons] at h; omega)

theorem get?_of_drop_eq {α : Type} (l1 l2 : List α) (k t : Nat)
    (h : l1.drop k = l2.drop k) (hk : k ≤ t) : l1.get? t = l2.get? t := by
  have e1 : l1.get? t = (l1.drop k).get? (t - k) := by
    simp only [List.get?_eq_getElem?, List.getElem?_drop]; congr 1; omega
  have e2 : l2.get? t = (l2.drop k).get? (t - k) := by
    simp only [List.get?_eq_getElem?, List.getElem?_drop]; congr 1; omega
  rw [e1, e2, h]

/-- C16: the highlight cascade terminates and is bounded.  In a document of
`N` indexed rows, `editor_update_syntax` on the row `i < N` returns; the
rows it recomputes are `i, i+1, ..., i+k-1` in this order, each once, with
`1 <= k <= N - i`; the row after a recomputed row `j` is recomputed exactly
when the stored flag of `j` changed and `j + 1 < N`; every other row is
left as it was. -/
theorem C16_cascade_bounded (St : config) (i : Nat)
    (hadv : syntax_advances St) (hidx : rows_indexed St) (hi : i < St.num_rows) :
    ∃ St1 k, editor_update_syntax_trace (St.rows.length + 1) St i
          = some (St1, List.range' i k)
      ∧ editor_update_syntax St i = some St1
      ∧ 1 ≤ k ∧ i + k ≤ St.num_rows
      ∧ (∀ j, i ≤ j → j < i + k →
          (j + 1 < i + k ↔
            (open_flag St j ≠ open_flag St1 j ∧ j + 1 < St.num_rows)))
      ∧ (∀ j, j < i ∨ i + k ≤ j → St1.rows.get? j = St.rows.get? j) := by
  obtain ⟨hn, hix⟩ := hidx
  have hlt : i < St.rows.length := by omega
  obtain ⟨pre, post, hrows, hp⟩ := split_at St.rows i (St.rows.get ⟨i, hlt⟩)
    (List.get?_eq_get hlt)
  subst hp
  generalize St.rows.get ⟨pre.length, hlt⟩ = r at hrows
  have hlen : St.rows.length = pre.length + 1 + post.length := by
    rw [hrows]; simp only [List.length_append, List.length_cons]; omega
  have hi2 : (r :: post).map (fun x => x.idx)
      = List.range' pre.length (post.length + 1) := by
    have := idx_split (fun x => x.idx) pre (r :: post) 0 (by rw [← hrows]; exact hix)
    simpa using this
  obtain ⟨⟨new, k⟩, hc⟩ := cascade_rows_some St.syn
    ((syntax_advances_iff St).1 hadv) (open_after false pre)
    (St.num_rows - (pre.length + 1)) (r :: post) (by simp)
    (by simp only [List.length_cons]; omega)
  have htr := trace_eq_cascade (St.rows.length + 1) pre r post St hrows hi2 (by omega)
  rw [hc] at htr
  simp only [Option.map_some'] at htr
  obtain ⟨_, k1, k2, k3, k4, _, _⟩ := cascade_rows_text _ _ _ _ _ _ hc
  have hchain := cascade_rows_chain _ _ _ _ _ _ hc
  refine ⟨_, k, htr, ?_, k1, ?_, ?_, ?_⟩
  · unfold editor_update_syntax
    rw [← trace_fst, htr]
    rfl
  · omega
  · intro j hj1 hj2
    obtain ⟨t, rfl⟩ : ∃ t, j = pre.length + t := ⟨j - pre.length, by omega⟩
    have := hchain t (by omega)
    have e1 : open_flag St (pre.length + t)
        = ((r :: post).get? t).map (fun x => x.hl_open_comment) := by
      unfold open_flag; rw [hrows, get?_append_mid]
    have e2 : open_flag { St with rows := pre ++ new } (pre.length + t)
        = (new.get? t).map (fun x => x.hl_open_comment) := by
      unfold open_flag; simp only [get?_append_mid]
    rw [e1, e2]
    constructor
    · intro h0
      have h2 := this.1 (by omega)
      exact ⟨h2.1, by omega⟩
    · intro h0
      have h2 := this.2 ⟨h0.1, by omega⟩
      omega
  · intro j hj
    show (pre ++ new).get? j = St.rows.get? j
    rw [hrows]
    rcases hj with h0 | h0
    · exact get?_append_pre pre _ _ j h0
    · obtain ⟨t, rfl⟩ : ∃ t, j = pre.length + t := ⟨j - pre.length, by omega⟩
      rw [get?_append_mid, get?_append_mid]
      exact get?_of_drop_eq _ _ k t k4 (by omega)

/-- Witness of C16: in the block-comment document with the slash of line 0
removed, `editor_update_syntax` on line 0 recomputes the three lines. -/
theorem C16_cascade_bounded_witness :
    ∃ St1 k, editor_update_syntax_trace 4
          (store_row comment_document 0
            { idx := 0, characters := cstr "* start", render := cstr "* start",
              hl := List.replicate 7 HL_NORMAL, hl_open_comment := true }) 0
          = some (St1, List.range' 0 k)
      ∧ 1 ≤ k ∧ 0 + k ≤ 3 :=
  match C16_cascade_bounded
      (store_row comment_document 0
        { idx := 0, characters := cstr "* start", render := cstr "* start",
          hl := List.replicate 7 HL_NORMAL, hl_open_comment := true }) 0
      (by decide) (by decide) (by decide) with
  | ⟨St1, k, h1, _, h3, h4, _⟩ => ⟨St1, k, h1, h3, h4⟩

/-! ## cursor movement -/

theorem row_size_valid (St : config) (hn : St.num_rows = St.rows.length) (c : Int)
    (h0 : 0 ≤ c) (h1 : c < St.num_rows) :
    row_size St c = some (row_len St c) := by
  unfold row_len row_size
  have hneg : ¬ c < 0 := by omega
  have hlt : c.toNat < St.rows.length := by omega
  simp only [hneg, if_false, List.get?_eq_get hlt, Option.map_some', Option.getD_some]

theorem row_len_past (St : config) (hn : St.num_rows = St.rows.length) (c : Int)
    (h1 : (St.num_rows : Int) ≤ c) : row_len St c = 0 := by
  unfold row_len row_size
  have hneg : ¬ c < 0 := by omega
  have hge : St.rows.length ≤ c.toNat := by omega
  simp only [hneg, if_false, List.get?_eq_none.2 hge, Option.map_none', Option.getD_none]

theorem cursor_strict_iff (St : config) :
    cursor_strict St ↔
      0 ≤ St.cx ∧ St.cx ≤ St.num_rows ∧ St.num_rows = St.rows.length
        ∧ 0 ≤ St.cy ∧ St.cy ≤ row_len St St.cx := by
  unfold cursor_strict cursor_valid
  constructor
  · rintro ⟨⟨h0, h1, hn, hm⟩, hz⟩
    refine ⟨h0, h1, hn, ?_⟩
    by_cases hc : St.cx = St.num_rows
    · rw [row_len_past St hn St.cx (by omega), hz hc]
      exact ⟨le_refl _, le_refl _⟩
    · have hlt : St.cx.toNat < St.rows.length := by omega
      have hr := row_size_valid St hn St.cx h0 (by omega)
      unfold row_size at hr
      have hneg : ¬ St.cx < 0 := by omega
      simp only [hneg, if_false, List.get?_eq_get hlt, Option.map_some',
        Option.some.injEq] at hr
      rw [List.get?_eq_get hlt] at hm
      simp only at hm
      rw [← hr]
      exact hm
  · rintro ⟨h0, h1, hn, hy0, hy1⟩
    refine ⟨⟨h0, h1, hn, ?_⟩, ?_⟩
    · by_cases hlt : St.cx.toNat < St.rows.length
      · have hr := row_size_valid St hn St.cx h0 (by omega)
        unfold row_size at hr
        have hneg : ¬ St.cx < 0 := by omega
        simp only [hneg, if_false, List.get?_eq_get hlt, Option.map_some',
          Option.some.injEq] at hr
        rw [List.get?_eq_get hlt]
        simp only
        rw [hr]
        exact ⟨hy0, hy1⟩
      · rw [List.get?_eq_none.2 (by omega)]
        trivial
    · intro hc
      rw [row_len_past St hn St.cx (by omega)] at hy1
      omega

theorem clamp_eq (S : config) (hn : S.num_rows = S.rows.length)
    (h0 : 0 ≤ S.cx) (h1 : S.cx ≤ S.num_rows) :
    move_cursor_clamp S = some { S with cy := min S.cy (row_len S S.cx) } := by
  unfold move_cursor_clamp
  by_cases hc : S.cx ≥ S.num_rows
  · rw [if_pos hc, row_len_past S hn S.cx hc]
    congr 1
    obtain ⟨sr, sc, cx, cy, ry, n, ro, co, rows, fl, syn, md, q⟩ := S
    simp only
    split
    · simp only [config.mk.injEq, true_and, and_true]; omega
    · simp only [config.mk.injEq, true_and, and_true]; omega
  · rw [if_neg hc, row_size_valid S hn S.cx h0 (by omega)]
    show some _ = some _
    congr 1
    generalize row_len S S.cx = k
    obtain ⟨sr, sc, cx, cy, ry, n, ro, co, rows, fl, syn, md, q⟩ := S
    dsimp only
    split
    · simp only [config.mk.injEq, true_and, and_true]; omega
    · simp only [config.mk.injEq, true_and, and_true]; omega

theorem move_left_eq (St : config) (hs : cursor_strict St) :
    editor_move_cursor St ARROW_LEFT
      = some (if St.cy > 0 then { St with cy := St.cy - 1 }
              else if St.cx > 0 then
                { St with cx := St.cx - 1, cy := row_len St (St.cx - 1) }
              else St) := by
  obtain ⟨h0, h1, hn, hy0, hy1⟩ := (cursor_strict_iff St).1 hs
  unfold editor_move_cursor move_cursor_switch
  rw [if_pos rfl]
  by_cases hc : St.cy > 0
  · rw [if_pos hc, if_pos hc, Option.some_bind,
      clamp_eq { St with cy := St.cy - 1 } hn h0 h1]
    congr 1
    have hr : row_len { St with cy := St.cy - 1 } St.cx = row_len St St.cx := rfl
    obtain ⟨sr, sc, cx, cy, ry, n, ro, co, rows, fl, syn, md, q⟩ := St
    simp only [config.mk.injEq, true_and, and_true] at hr hy1 ⊢
    rw [hr]; omega
  · rw [if_neg hc, if_neg hc]
    by_cases hx : St.cx > 0
    · rw [if_pos hx, if_pos hx, row_size_valid St hn (St.cx - 1) (by omega) (by omega)]
      simp only [Option.pure_def, Option.bind_eq_bind, Option.some_bind, Option.map_some']
      rw [clamp_eq { St with cx := St.cx - 1, cy := (row_len St (St.cx - 1) : Int) } hn
          (by show 0 ≤ St.cx - 1; omega) (by show St.cx - 1 ≤ (St.num_rows : Int); omega)]
      congr 1
      have hr : row_len { St with cx := St.cx - 1, cy := (row_len St (St.cx - 1) : Int) }
          (St.cx - 1) = row_len St (St.cx - 1) := rfl
      obtain ⟨sr, sc, cx, cy, ry, n, ro, co, rows, fl, syn, md, q⟩ := St
      simp only [config.mk.injEq, true_and, and_true] at hr ⊢
      rw [hr]; omega
    · rw [if_neg hx, if_neg hx, Option.some_bind, clamp_eq St hn h0 h1]
      congr 1
      obtain ⟨sr, sc, cx, cy, ry, n, ro, co, rows, fl, syn, md, q⟩ := St
      simp only [config.mk.injEq, true_and, and_true] at hy1 hy0 ⊢
      omega

theorem move_right_eq (St : config) (hs : cursor_strict St) :
    editor_move_cursor St ARROW_RIGHT
      = some (if St.cx ≥ St.num_rows then St
              else if St.cy < row_len St St.cx then { St with cy := St.cy + 1 }
              else { St with cx := St.cx + 1, cy := 0 }) := by
  obtain ⟨h0, h1, hn, hy0, hy1⟩ := (cursor_strict_iff St).1 hs
  have k1 : ¬ ARROW_RIGHT = ARROW_LEFT := by decide
  have k2 : ¬ ARROW_RIGHT = ARROW_UP := by decide
  have k3 : ¬ ARROW_RIGHT = ARROW_DOWN := by decide
  unfold editor_move_cursor move_cursor_switch
  rw [if_neg k1, if_neg k2, if_neg k3, if_pos rfl]
  by_cases hc : St.cx ≥ St.num_rows
  · rw [if_pos hc, if_pos hc, Option.some_bind, clamp_eq St hn h0 h1]
    congr 1
    obtain ⟨sr, sc, cx, cy, ry, n, ro, co, rows, fl, syn, md, q⟩ := St
    simp only [config.mk.injEq, true_and, and_true] at hy1 hy0 ⊢
    omega
  · rw [if_neg hc, if_neg hc, row_size_valid St hn St.cx h0 (by omega)]
    simp only [Option.pure_def, Option.bind_eq_bind, Option.some_bind, Option.map_some']
    by_cases hy : St.cy < row_len St St.cx
    · rw [if_pos hy, clamp_eq { St with cy := St.cy + 1 } hn h0 h1]
      congr 1
      have hr : row_len { St with cy := St.cy + 1 } St.cx = row_len St St.cx := rfl
      obtain ⟨sr, sc, cx, cy, ry, n, ro, co, rows, fl, syn, md, q⟩ := St
      simp only [config.mk.injEq, true_and, and_true] at hr hy ⊢
      rw [hr]; omega
    · rw [if_neg hy,
        clamp_eq { St with cx := St.cx + 1, cy := 0 } hn
          (by show 0 ≤ St.cx + 1; omega) (by show St.cx + 1 ≤ (St.num_rows : Int); omega)]
      have hmin : min (0 : Int) (row_len St (St.cx + 1)) = 0 := by omega
      show some { St with cx := St.cx + 1, cy := min (0 : Int) (row_len St (St.cx + 1)) }
        = some { St with cx := St.cx + 1, cy := 0 }
      rw [hmin]

theorem move_up_eq (St : config) (hs : cursor_strict St) :
    editor_move_cursor St ARROW_UP
      = some (if St.cx > 0 then
                { St with cx := St.cx - 1, cy := min St.cy (row_len St (St.cx - 1)) }
              else St) := by
  obtain ⟨h0, h1, hn, hy0, hy1⟩ := (cursor_strict_iff St).1 hs
  have k1 : ¬ ARROW_UP = ARROW_LEFT := by decide
  unfold editor_move_cursor move_cursor_switch
  rw [if_neg k1, if_pos rfl]
  by_cases hx : St.cx > 0
  · rw [if_pos hx, if_pos hx, Option.some_bind,
      clamp_eq { St with cx := St.cx - 1 } hn
        (by show 0 ≤ St.cx - 1; omega) (by show St.cx - 1 ≤ (St.num_rows : Int); omega)]
    rfl
  · rw [if_neg hx, if_neg hx, Option.some_bind, clamp_eq St hn h0 h1]
    congr 1
    obtain ⟨sr, sc, cx, cy, ry, n, ro, co, rows, fl, syn, md, q⟩ := St
    simp only [config.mk.injEq, true_and, and_true] at hy1 hy0 ⊢
    omega

theorem move_down_eq (St : config) (hs : cursor_strict St) :
    editor_move_cursor St ARROW_DOWN
      = some (if St.cx < St.num_rows then
                { St with cx := St.cx + 1, cy := min St.cy (row_len St (St.cx + 1)) }
              else St) := by
  obtain ⟨h0, h1, hn, hy0, hy1⟩ := (cursor_strict_iff St).1 hs
  have k1 : ¬ ARROW_DOWN = ARROW_LEFT := by decide
  have k2 : ¬ ARROW_DOWN = ARROW_UP := by decide
  unfold editor_move_cursor move_cursor_switch
  rw [if_neg k1, if_neg k2, if_pos rfl]
  by_cases hx : St.cx < St.num_rows
  · rw [if_pos hx, if_pos hx, Option.some_bind,
      clamp_eq { St with cx := St.cx + 1 } hn
        (by show 0 ≤ St.cx + 1; omega) (by show St.cx + 1 ≤ (St.num_rows : Int); omega)]
    rfl
  · rw [if_neg hx, if_neg hx, Option.some_bind, clamp_eq St hn h0 h1]
    congr 1
    obtain ⟨sr, sc, cx, cy, ry, n, ro, co, rows, fl, syn, md, q⟩ := St
    simp only [config.mk.injEq, true_and, and_true] at hy1 hy0 ⊢
    omega

theorem strict_with (St : config) (c y : Int) (hn : St.num_rows = St.rows.length)
    (h0 : 0 ≤ c) (h1 : c ≤ St.num_rows) (hy0 : 0 ≤ y) (hy1 : y ≤ row_len St c) :
    cursor_strict { St with cx := c, cy := y } :=
  (cursor_strict_iff _).2 ⟨h0, h1, hn, hy0, hy1⟩

/-- C17: arrow-key movement keeps the cursor valid.  From a state with
`0 <= cx <= num_rows`, `0 <= cy <= ` the length of line `cx` and `cy = 0` on
the line past the end, `editor_move_cursor` with any of the four arrow keys
returns a state with the same property; only `cx` and `cy` change, so the
document is as it was; up and down move `cx` by at most one, within
`[0, num_rows]`, and clamp `cy` to the length of the new line. -/
theorem C17_arrow_keys_keep_cursor_valid (St : config) (key : Int)
    (hs : cursor_strict St)
    (hk : key = ARROW_UP ∨ key = ARROW_DOWN ∨ key = ARROW_LEFT ∨ key = ARROW_RIGHT) :
    ∃ St1, editor_move_cursor St key = some St1
      ∧ cursor_strict St1
      ∧ (0 ≤ St1.cx ∧ St1.cx ≤ St1.num_rows ∧ 0 ≤ St1.cy
          ∧ St1.cy ≤ row_len St1 St1.cx)
      ∧ St1 = { St with cx := St1.cx, cy := St1.cy }
      ∧ (key = ARROW_UP →
          St1.cx = max (St.cx - 1) 0 ∧ St1.cy = min St.cy (row_len St St1.cx))
      ∧ (key = ARROW_DOWN →
          St1.cx = min (St.cx + 1) St.num_rows
            ∧ St1.cy = min St.cy (row_len St St1.cx)) := by
  obtain ⟨h0, h1, hn, hy0, hy1⟩ := (cursor_strict_iff St).1 hs
  have kud : ¬ ARROW_UP = ARROW_DOWN := by decide
  have kdu : ¬ ARROW_DOWN = ARROW_UP := by decide
  have klu : ¬ ARROW_LEFT = ARROW_UP := by decide
  have kld : ¬ ARROW_LEFT = ARROW_DOWN := by decide
  have kru : ¬ ARROW_RIGHT = ARROW_UP := by decide
  have krd : ¬ ARROW_RIGHT = ARROW_DOWN := by decide
  have main : ∀ St1, cursor_strict St1 →
      (0 ≤ St1.cx ∧ St1.cx ≤ St1.num_rows ∧ 0 ≤ St1.cy ∧ St1.cy ≤ row_len St1 St1.cx) :=
    fun St1 h1 => by
      obtain ⟨a, b, _, c, d⟩ := (cursor_strict_iff St1).1 h1
      exact ⟨a, b, c, d⟩
  rcases hk with hk | hk | hk | hk <;> subst hk
  · rw [move_up_eq St hs]
    by_cases hx : St.cx > 0
    · rw [if_pos hx]
      have hst := strict_with St (St.cx - 1) (min St.cy (row_len St (St.cx - 1))) hn
        (by omega) (by omega) (by omega) (by omega)
      exact ⟨_, rfl, hst, main _ hst, rfl,
        fun _ => ⟨by show St.cx - 1 = _; omega, rfl⟩, fun h => absurd h kud⟩
    · rw [if_neg hx]
      have hz : St.cx = 0 := by omega
      refine ⟨_, rfl, hs, main _ hs, rfl, fun _ => ⟨by omega, ?_⟩, fun h => absurd h kud⟩
      omega
  · rw [move_down_eq St hs]
    by_cases hx : St.cx < St.num_rows
    · rw [if_pos hx]
      have hst := strict_with St (St.cx + 1) (min St.cy (row_len St (St.cx + 1))) hn
        (by omega) (by omega) (by omega) (by omega)
      exact ⟨_, rfl, hst, main _ hst, rfl, fun h => absurd h kdu,
        fun _ => ⟨by show St.cx + 1 = _; omega, rfl⟩⟩
    · rw [if_neg hx]
      refine ⟨_, rfl, hs, main _ hs, rfl, fun h => absurd h kdu, fun _ => ⟨by omega, ?_⟩⟩
      omega
  · rw [move_left_eq St hs]
    by_cases hc : St.cy > 0
    · rw [if_pos hc]
      have hst := strict_with St St.cx (St.cy - 1) hn h0 h1 (by omega) (by omega)
      exact ⟨_, rfl, hst, main _ hst, rfl, fun h => absurd h klu, fun h => absurd h kld⟩
    · rw [if_neg hc]
      by_cases hx : St.cx > 0
      · rw [if_pos hx]
        have hst := strict_with St (St.cx - 1) (row_len St (St.cx - 1)) hn
          (by omega) (by omega) (by omega) (le_refl _)
        exact ⟨_, rfl, hst, main _ hst, rfl, fun h => absurd h klu, fun h => absurd h kld⟩
      · rw [if_neg hx]
        exact ⟨_, rfl, hs, main _ hs, rfl, fun h => absurd h klu, fun h => absurd h kld⟩
  · rw [move_right_eq St hs]
    by_cases hc : St.cx ≥ St.num_rows
    · rw [if_pos hc]
      exact ⟨_, rfl, hs, main _ hs, rfl, fun h => absurd h kru, fun h => absurd h krd⟩
    · rw [if_neg hc]
      by_cases hy : St.cy < row_len St St.cx
      · rw [if_pos hy]
        have hst := strict_with St St.cx (St.cy + 1) hn h0 h1 (by omega) (by omega)
        exact ⟨_, rfl, hst, main _ hst, rfl, fun h => absurd h kru, fun h => absurd h krd⟩
      · rw [if_neg hy]
        have hst := strict_with St (St.cx + 1) 0 hn (by omega) (by omega) (le_refl _)
          (by omega)
        exact ⟨_, rfl, hst, main _ hst, rfl, fun h => absurd h kru, fun h => absurd h krd⟩

/-- Witness of C17: arrow up from the end of line 2 of the block-comment
document. -/
theorem C17_arrow_keys_keep_cursor_valid_witness :
    ∃ St1, editor_move_cursor { comment_document with cx := 2, cy := 11 } ARROW_UP
          = some St1
      ∧ cursor_strict St1 ∧ St1.cx = 1 ∧ St1.cy = 6 :=
  match C17_arrow_keys_keep_cursor_valid
      { comment_document with cx := 2, cy := 11 } ARROW_UP (by decide)
      (Or.inl rfl) with
  | ⟨St1, h1, h2, _, _, h5, _⟩ =>
    ⟨St1, h1, h2, by rw [(h5 rfl).1]; rfl, by
      have e := (h5 rfl).2
      rw [(h5 rfl).1] at e
      rw [e]; rfl⟩

/-- C19: left and right wrap at line boundaries.  For a valid cursor,
`ARROW_LEFT` at offset 0 of a line `i > 0` moves to the end of line `i - 1`;
`ARROW_RIGHT` at the end of an existing line `i` moves to offset 0 of line
`i + 1`; and for every cursor on an existing line `ARROW_RIGHT` followed by
`ARROW_LEFT` gives back the state. -/
theorem C19_left_right_wrap (St : config) (hs : cursor_strict St) :
    (St.cy = 0 → St.cx > 0 →
      editor_move_cursor St ARROW_LEFT
        = some { St with cx := St.cx - 1, cy := row_len St (St.cx - 1) })
    ∧ (St.cx < St.num_rows → St.cy = row_len St St.cx →
      editor_move_cursor St ARROW_RIGHT = some { St with cx := St.cx + 1, cy := 0 })
    ∧ (St.cx < St.num_rows →
      (editor_move_cursor St ARROW_RIGHT).bind
        (fun St1 => editor_move_cursor St1 ARROW_LEFT) = some St) := by
  obtain ⟨h0, h1, hn, hy0, hy1⟩ := (cursor_strict_iff St).1 hs
  refine ⟨?_, ?_, ?_⟩
  · intro hy hx
    rw [move_left_eq St hs, if_neg (by omega), if_pos hx]
  · intro hx hy
    rw [move_right_eq St hs, if_neg (by omega), if_neg (by omega)]
  · intro hx
    rw [move_right_eq St hs, if_neg (by omega), Option.some_bind]
    by_cases hy : St.cy < row_len St St.cx
    · rw [if_pos hy]
      have hst := strict_with St St.cx (St.cy + 1) hn h0 h1 (by omega) (by omega)
      rw [move_left_eq _ hst, if_pos (by show St.cy + 1 > 0; omega)]
      congr 1
      obtain ⟨sr, sc, cx, cy, ry, n, ro, co, rows, fl, syn, md, q⟩ := St
      simp only [config.mk.injEq, true_and, and_true]
      omega
    · rw [if_neg hy]
      have hst := strict_with St (St.cx + 1) 0 hn (by omega) (by omega) (le_refl _)
        (by omega)
      rw [move_left_eq _ hst, if_neg (by show ¬ (0 : Int) > 0; omega),
        if_pos (by show St.cx + 1 > 0; omega)]
      congr 1
      have hr : row_len { St with cx := St.cx + 1, cy := 0 } (St.cx + 1 - 1)
          = row_len St St.cx := by
        show row_len St (St.cx + 1 - 1) = row_len St St.cx
        congr 1; omega
      obtain ⟨sr, sc, cx, cy, ry, n, ro, co, rows, fl, syn, md, q⟩ := St
      simp only [config.mk.injEq, true_and, and_true] at hr hy hy1 ⊢
      rw [hr]
      constructor <;> omega

/-- Witness of C19: at the end of line 0 of the block-comment document,
right then left returns to the same place. -/
theorem C19_left_right_wrap_witness :
    editor_move_cursor { comment_document with cx := 0, cy := 8 } ARROW_RIGHT
      = some { comment_document with cx := 1, cy := 0 }
    ∧ (editor_move_cursor { comment_document with cx := 0, cy := 8 } ARROW_RIGHT).bind
        (fun St1 => editor_move_cursor St1 ARROW_LEFT)
      = some { comment_document with cx := 0, cy := 8 } :=
  ⟨(C19_left_right_wrap { comment_document with cx := 0, cy := 8 } (by decide)).2.1
      (by decide) (by decide),
   (C19_left_right_wrap { comment_document with cx := 0, cy := 8 } (by decide)).2.2
      (by decide)⟩

/-! ## paging -/

/-- C18 fails on the code.  In the three-line block-comment document in a
window of 24 rows, a valid state, the `PAGE_DOWN` case sets `row_offset` to
`num_rows - screen_rows = -21`; `editor_scroll` keeps this offset, and
`editor_draw_file_contents` then reads the row at index -21.  In the empty
document the `PAGE_UP` and `PAGE_DOWN` cases read the length of row 0, which
does not exist. -/
theorem C18_paging_breaks_offsets :
    cursor_strict comment_document ∧ 1 ≤ comment_document.screen_rows
    ∧ (comment_document.num_rows, comment_document.screen_rows,
        comment_document.cx, comment_document.row_offset) = (3, 24, 0, 0)
    ∧ (keypress_page_down comment_document).map
        (fun St => (St.cx, St.cy, St.row_offset)) = some (2, 0, -21)
    ∧ ((keypress_page_down comment_document).bind editor_scroll).map
        (fun St => (St.cx, St.row_offset)) = some (2, -21)
    ∧ ((keypress_page_down comment_document).bind editor_scroll).bind
        (fun St => editor_draw_file_contents St []) = none
    ∧ cursor_strict (init_editor 24 80)
    ∧ keypress_page_up (init_editor 24 80) = none
    ∧ keypress_page_down (init_editor 24 80) = none := by
  refine ⟨by decide, by decide, by rfl, by rfl, by rfl, by rfl, by decide, by rfl, by rfl⟩

/-! ## delete-forward -/

theorem delete_row_texts (St : config) (i : Nat) (h : i < St.num_rows) :
    ∃ St1, editor_delete_row St i = some St1
      ∧ raw_texts St1 = (raw_texts St).eraseIdx i
      ∧ St1 = { St with rows := St1.rows, num_rows := St.num_rows - 1,
                        modified := St.modified + 1 } := by
  unfold editor_delete_row
  rw [if_pos h]
  refine ⟨_, rfl, ?_, rfl⟩
  show (St.rows.take i ++ (St.rows.drop (i + 1)).map
      (fun r : erow => { r with idx := r.idx - 1 })).map (fun x : erow => x.characters)
    = (St.rows.map (fun x : erow => x.characters)).eraseIdx i
  rw [List.eraseIdx_eq_take_drop_succ, List.map_append, List.map_map, List.map_take,
    List.map_drop]
  rfl

/-! ## splitting and joining, without NUL bytes after the cursor -/

theorem update_row_frame (St : config) (pre post : List erow) (r : erow)
    (hadv : syntax_advances St) (hrows : St.rows = pre ++ r :: post)
    (hnum : St.num_rows ≤ St.rows.length)
    (hidx : St.rows.map (fun x => x.idx) = List.range' 0 St.rows.length) :
    ∃ new, editor_update_row St pre.length = some { St with rows := pre ++ new }
      ∧ new.map (fun x => x.characters) = (r :: post).map (fun x => x.characters)
      ∧ new.map (fun x => x.idx) = (r :: post).map (fun x => x.idx) := by
  obtain ⟨new, k, h1, h2⟩ := update_row_general St pre post r hadv hrows hnum hidx
  obtain ⟨t1, _⟩ := cascade_rows_text _ _ _ _ _ _ h2
  have e1 := congrArg (List.map (fun t : Nat × List Int × List Int => t.2.1)) t1
  have e2 := congrArg (List.map (fun t : Nat × List Int × List Int => t.1)) t1
  simp only [List.map_map] at e1 e2
  exact ⟨new, h1, e1, e2⟩

/-- The join of `editor_delete_character_at_cursor`: with the cursor at the
end of a row that has a next row. -/
theorem join_texts (St : config) (hadv : syntax_advances St) (hidx : rows_indexed St)
    (r next : erow) (h0 : 0 ≤ St.cx) (hrow : St.rows.get? St.cx.toNat = some r)
    (hnext : St.rows.get? (St.cx.toNat + 1) = some next)
    (hcy : St.cy = r.characters.length) :
    ∃ St2, editor_delete_character_at_cursor St = some St2
      ∧ raw_texts St2
          = ((raw_texts St).set St.cx.toNat
              (r.characters ++ next.characters)).eraseIdx (St.cx.toNat + 1)
      ∧ St2.num_rows = St.num_rows - 1
      ∧ St2.cx = St.cx ∧ St2.cy = St.cy
      ∧ St2.modified = St.modified + 2 := by
  have hlt : St.cx.toNat + 1 < St.rows.length := by
    by_contra hc
    rw [List.get?_eq_none.2 (by omega)] at hnext
    exact absurd hnext (by simp)
  have hn := hidx.1
  unfold editor_delete_character_at_cursor
  have hb : ¬ cursor_below_last_line St = true := by
    simp only [cursor_below_last_line, beq_iff_eq]; omega
  have hneg : ¬ St.cx < 0 := by omega
  have hnl : ¬ St.cx = (St.num_rows : Int) - 1 := by omega
  rw [if_neg hb, if_neg hneg, hrow]
  simp only [hnl, false_and, if_false, hcy, if_true, hnext]
  unfold editor_row_append_string
  rw [hrow]
  simp only
  obtain ⟨St1, e1, e2, e3, e4, _⟩ := edit_row_texts St St.cx.toNat r
    (r.characters ++ next.characters) hadv hidx hrow
  rw [e1, Option.some_bind]
  have hnum1 : St1.num_rows = St.num_rows := by
    have := congrArg config.num_rows e3; exact this
  have hcx1 : St1.cx = St.cx := by
    have := congrArg config.cx e3; exact this
  have hcy1 : St1.cy = St.cy := by
    have := congrArg config.cy e3; exact this
  have hmd1 : St1.modified = St.modified + 1 := by
    have := congrArg config.modified e3; exact this
  obtain ⟨St2, d1, d2, d3⟩ := delete_row_texts St1 (St.cx.toNat + 1) (by omega)
  have f1 : St2.num_rows = St1.num_rows - 1 := by
    have := congrArg config.num_rows d3; exact this
  have f2 : St2.cx = St1.cx := by
    have := congrArg config.cx d3; exact this
  have f3 : St2.cy = St1.cy := by
    have := congrArg config.cy d3; exact this
  have f4 : St2.modified = St1.modified + 1 := by
    have := congrArg config.modified d3; exact this
  refine ⟨St2, d1, ?_, ?_, ?_, ?_, ?_⟩
  · rw [d2, e2]
  · rw [f1, hnum1]
  · rw [f2, hcx1]
  · rw [f3, hcy1, hcy]
  · rw [f4, hmd1]

/-! ## deleting a byte: the offset is the caller's -/

theorem strdup_no_nul (s : List Int) (h : ∀ c ∈ s, c ≠ 0) : strdup s = s := by
  unfold strdup
  rw [List.takeWhile_eq_self_iff]
  intro c hc
  simp only [bne_iff_ne, ne_eq]
  exact h c hc

/-- The split of `editor_insert_newline_at_cursor` on an existing row: the
row keeps its first `cy` bytes and the new next row holds what `strdup`
copies of the rest. -/
theorem newline_texts (St : config) (hadv : syntax_advances St)
    (hidx : rows_indexed St) (pre post : List erow) (r : erow)
    (hrows : St.rows = pre ++ r :: post) (hcx : St.cx = pre.length)
    (hy0 : 0 ≤ St.cy) (hy1 : St.cy ≤ r.characters.length) :
    ∃ St1 b c tail, editor_insert_newline_at_cursor St = some St1
      ∧ St1.rows = pre ++ b :: c :: tail
      ∧ b.characters = r.characters.take St.cy.toNat
      ∧ c.characters = strdup (r.characters.drop St.cy.toNat)
      ∧ tail.map (fun x => x.characters) = post.map (fun x => x.characters)
      ∧ rows_indexed St1 ∧ syntax_advances St1
      ∧ St1.cx = St.cx + 1 ∧ St1.cy = 0 ∧ St1.num_rows = St.num_rows + 1 := by
  obtain ⟨hn, hix⟩ := hidx
  have hlen : St.rows.length = pre.length + 1 + post.length := by
    rw [hrows]; simp only [List.length_append, List.length_cons]; omega
  have hget : St.rows.get? pre.length = some r := by rw [hrows]; exact get_mid _ _ _
  have hb : ¬ cursor_below_last_line St = true := by
    simp only [cursor_below_last_line, beq_iff_eq]; omega
  have hneg : ¬ St.cx < 0 := by omega
  have htn : St.cx.toNat = pre.length := by omega
  have hguard : ¬ (St.cy < 0 ∨ St.cy > (r.characters.length : Int)) := by omega
  have hi1 := idx_take (fun x : erow => x.idx) pre (r :: post) 0
    (by rw [← hrows]; exact hix)
  have hi2 := idx_split (fun x : erow => x.idx) pre (r :: post) 0
    (by rw [← hrows]; exact hix)
  simp only [Nat.zero_add, List.map_cons, List.length_cons, List.range'_succ,
    List.cons.injEq] at hi2
  -- the truncated row is stored
  have hrowsA : (store_row St pre.length
      { r with characters := r.characters.take St.cy.toNat }).rows
      = pre ++ { r with characters := r.characters.take St.cy.toNat } :: post := by
    simp only [store_row, hrows, set_mid]
  have hidxA : rows_indexed (store_row St pre.length
      { r with characters := r.characters.take St.cy.toNat }) := by
    refine ⟨?_, ?_⟩
    · show St.num_rows = _
      rw [hrowsA, hn, hlen]; simp only [List.length_append, List.length_cons]; omega
    · rw [hrowsA]
      have := hix
      rw [hrows] at this
      simpa using this
  -- the new row is inserted
  obtain ⟨a, tail, i1, a1, a2, _, _, a5, _⟩ := insert_row_general
    (store_row St pre.length { r with characters := r.characters.take St.cy.toNat })
    (pre.length + 1) (strdup (r.characters.drop St.cy.toNat)) hadv hidxA
    (by show pre.length + 1 ≤ St.num_rows; omega)
  have htk : (store_row St pre.length
      { r with characters := r.characters.take St.cy.toNat }).rows.take (pre.length + 1)
      = pre ++ [{ r with characters := r.characters.take St.cy.toNat }] := by
    rw [hrowsA,
      show pre ++ { r with characters := r.characters.take St.cy.toNat } :: post
        = (pre ++ [{ r with characters := r.characters.take St.cy.toNat }]) ++ post by simp]
    exact List.take_left' (by simp)
  have hdr : (store_row St pre.length
      { r with characters := r.characters.take St.cy.toNat }).rows.drop (pre.length + 1)
      = post := by
    rw [hrowsA,
      show pre ++ { r with characters := r.characters.take St.cy.toNat } :: post
        = (pre ++ [{ r with characters := r.characters.take St.cy.toNat }]) ++ post by simp]
    exact List.drop_left' (by simp)
  rw [htk] at i1
  rw [hdr] at a5
  have t1 : tail.map (fun x => x.characters) = post.map (fun x => x.characters) := by
    have := congrArg (List.map (fun t : Nat × List Int × List Int => t.2.1)) a5
    simpa only [List.map_map] using this
  have t2 : tail.map (fun x => x.idx) = post.map (fun x => x.idx + 1) := by
    have := congrArg (List.map (fun t : Nat × List Int × List Int => t.1)) a5
    simpa only [List.map_map] using this
  have t3 : tail.length = post.length := by
    have := congrArg List.length t1
    simpa using this
  have hpost1 : post.map (fun x => x.idx + 1) = List.range' (pre.length + 2) post.length := by
    have : (fun x : erow => x.idx + 1) = (fun n => 1 + n) ∘ (fun x : erow => x.idx) := by
      funext x; simp only [Function.comp]; omega
    rw [this, ← List.map_map, hi2.2, List.map_add_range']
    congr 1; omega
  -- the state after the insertion, then the first row is updated
  have hidxB : (pre ++ { r with characters := r.characters.take St.cy.toNat } :: a :: tail).map
      (fun x => x.idx)
      = List.range' 0 (pre ++ { r with characters := r.characters.take St.cy.toNat }
          :: a :: tail).length := by
    have := idx_join (pre.map (fun x => x.idx))
      (pre.length :: (pre.length + 1) :: List.range' (pre.length + 2) post.length) 0
      (by rw [List.length_map]; exact hi1)
      (by simp only [List.length_map, Nat.zero_add, List.length_cons, List.length_range',
            List.range'_succ])
    simp only [List.map_append, List.map_cons, t2, hpost1, a1, ← hi2.1, List.length_append,
      List.length_cons, List.length_map, List.length_range', t3] at this ⊢
    exact this
  obtain ⟨new, u1, u2, u3⟩ := update_row_frame
    { St with rows := pre ++ { r with characters := r.characters.take St.cy.toNat }
                        :: a :: tail
              num_rows := St.num_rows + 1, modified := St.modified + 1 }
    pre (a :: tail) { r with characters := r.characters.take St.cy.toNat } hadv rfl
    (by show St.num_rows + 1 ≤ _
        simp only [List.length_append, List.length_cons, t3]; omega)
    hidxB
  -- the shape of the result
  obtain ⟨b, new1, rfl⟩ : ∃ b new1, new = b :: new1 := by
    cases new with
    | nil => simp at u2
    | cons b n1 => exact ⟨b, n1, rfl⟩
  obtain ⟨c, tail2, rfl⟩ : ∃ c t2, new1 = c :: t2 := by
    cases new1 with
    | nil => simp at u2
    | cons c n2 => exact ⟨c, n2, rfl⟩
  simp only [List.map_cons, List.cons.injEq] at u2 u3
  refine ⟨{ St with rows := pre ++ b :: c :: tail2, num_rows := St.num_rows + 1,
                     modified := St.modified + 1, cy := 0, cx := St.cx + 1 },
    b, c, tail2, ?_, rfl, u2.1, by rw [u2.2.1, a2], by rw [u2.2.2, t1],
    ⟨?_, ?_⟩, hadv, rfl, rfl, rfl⟩
  · unfold editor_insert_newline_at_cursor
    rw [if_neg hb, if_neg hneg, htn, hget]
    simp only [hguard, if_false]
    rw [i1]
    simp only [store_row, Option.some_bind, List.append_assoc, List.singleton_append]
    rw [u1]
    rfl
  · show St.num_rows + 1 = (pre ++ b :: c :: tail2).length
    have := congrArg List.length u2.2.2
    simp only [List.length_map] at this
    simp only [List.length_append, List.length_cons, this, t3]
    omega
  · show (pre ++ b :: c :: tail2).map (fun x => x.idx)
      = List.range' 0 (pre ++ b :: c :: tail2).length
    have hl : tail2.length = tail.length := by
      have := congrArg List.length u3.2.2
      simpa using this
    simp only [List.map_append, List.map_cons, List.length_append, List.length_cons,
      u3.1, u3.2.1, u3.2.2, hl] at hidxB ⊢
    exact hidxB

/-- Splitting a row at the cursor and joining the two rows again restores
the document text, when no byte from the cursor to the end of the row is
NUL. -/
theorem split_then_join (St : config) (hadv : syntax_advances St)
    (hidx : rows_indexed St) (pre post : List erow) (r : erow)
    (hrows : St.rows = pre ++ r :: post) (hcx : St.cx = pre.length)
    (hy0 : 0 ≤ St.cy) (hy1 : St.cy ≤ r.characters.length)
    (hnul : ∀ c ∈ r.characters.drop St.cy.toNat, c ≠ 0) :
    ∃ St1, editor_insert_newline_at_cursor St = some St1
      ∧ raw_texts St1
          = pre.map (fun x => x.characters)
              ++ r.characters.take St.cy.toNat :: r.characters.drop St.cy.toNat
                  :: post.map (fun x => x.characters)
      ∧ St1.cx = St.cx + 1 ∧ St1.cy = 0 ∧ St1.num_rows = St.num_rows + 1
      ∧ ∃ St2, editor_delete_character_at_cursor { St1 with cx := St.cx, cy := St.cy }
            = some St2
          ∧ raw_texts St2 = raw_texts St ∧ St2.num_rows = St.num_rows
          ∧ St2.cx = St.cx ∧ St2.cy = St.cy := by
  obtain ⟨St1, b, c, tail, s1, s2, s3, s4, s5, s6, s7, s8, s9, s10⟩ :=
    newline_texts St hadv hidx pre post r hrows hcx hy0 hy1
  rw [strdup_no_nul _ hnul] at s4
  have htn : St.cx.toNat = pre.length := by omega
  have hk : (r.characters.take St.cy.toNat).length = St.cy.toNat := by
    rw [List.length_take]; omega
  have ht1 : raw_texts St1
      = pre.map (fun x => x.characters)
          ++ r.characters.take St.cy.toNat :: r.characters.drop St.cy.toNat
              :: post.map (fun x => x.characters) := by
    simp only [raw_texts, s2, List.map_append, List.map_cons, s3, s4, s5]
  refine ⟨St1, s1, ht1, s8, s9, s10, ?_⟩
  obtain ⟨St2, j1, j2, j3, j4, j5, _⟩ := join_texts
    { St1 with cx := St.cx, cy := St.cy } s7 s6 b c
    (by show 0 ≤ St.cx; omega)
    (by show St1.rows.get? St.cx.toNat = some b
        rw [htn, s2]; exact get_mid _ _ _)
    (by show St1.rows.get? (St.cx.toNat + 1) = some c
        rw [htn, s2, show pre ++ b :: c :: tail = (pre ++ [b]) ++ c :: tail by simp]
        have := get_mid (pre ++ [b]) tail c
        simpa using this)
    (by show St.cy = (b.characters.length : Int)
        rw [s3, hk]; omega)
  refine ⟨St2, j1, ?_, ?_, j4, j5⟩
  · rw [j2]
    show ((raw_texts St1).set St.cx.toNat (b.characters ++ c.characters)).eraseIdx
      (St.cx.toNat + 1) = raw_texts St
    rw [ht1, htn, s3, s4, List.take_append_drop]
    have hl : (pre.map (fun x : erow => x.characters)).length = pre.length := by simp
    rw [← hl, set_mid]
    simp only [raw_texts, hrows, List.map_append, List.map_cons]
    rw [show List.map (fun x : erow => x.characters) pre
          ++ r.characters :: List.drop St.cy.toNat r.characters
              :: List.map (fun x : erow => x.characters) post
        = (List.map (fun x : erow => x.characters) pre ++ [r.characters])
            ++ List.drop St.cy.toNat r.characters
              :: List.map (fun x : erow => x.characters) post by simp]
    rw [List.eraseIdx_append_of_length_le (by simp)]
    simp
  · rw [j3]
    show St1.num_rows - 1 = St.num_rows
    omega

/-- C20: delete-forward at the true end of the document is a no-op.  With
the cursor below the last row, or at the end of the last row,
`editor_delete_character_at_cursor` returns the state unchanged (raw texts,
number of rows, cursor and dirty counter included); at the end of a row that
has a next row it returns, the row becomes its text followed by the text of
the next row, the next row is removed, and the cursor stays. -/
theorem C20_delete_forward_at_end (St : config)
    (hadv : syntax_advances St) (hidx : rows_indexed St) :
    (St.cx = St.num_rows → editor_delete_character_at_cursor St = some St)
    ∧ (∀ r : erow, 0 ≤ St.cx → St.rows.get? St.cx.toNat = some r →
        St.cx = (St.num_rows : Int) - 1 → St.cy = r.characters.length →
        editor_delete_character_at_cursor St = some St)
    ∧ (∀ r next : erow, 0 ≤ St.cx → St.rows.get? St.cx.toNat = some r →
        St.rows.get? (St.cx.toNat + 1) = some next →
        St.cy = r.characters.length →
        ∃ St2, editor_delete_character_at_cursor St = some St2
          ∧ raw_texts St2
              = ((raw_texts St).set St.cx.toNat
                  (r.characters ++ next.characters)).eraseIdx (St.cx.toNat + 1)
          ∧ St2.num_rows = St.num_rows - 1
          ∧ St2.cx = St.cx ∧ St2.cy = St.cy
          ∧ St2.modified = St.modified + 2) := by
  refine ⟨?_, ?_, ?_⟩
  · intro hc
    unfold editor_delete_character_at_cursor
    have hb : cursor_below_last_line St = true := by
      simp only [cursor_below_last_line, beq_iff_eq]; exact hc
    rw [if_pos hb]
  · intro r h0 hrow hlast hcy
    unfold editor_delete_character_at_cursor
    have hb : ¬ cursor_below_last_line St = true := by
      simp only [cursor_below_last_line, beq_iff_eq]; omega
    have hneg : ¬ St.cx < 0 := by omega
    rw [if_neg hb, if_neg hneg, hrow]
    simp only [hlast, hcy, and_self, if_true]
  · intro r next h0 hrow hnext hcy
    exact join_texts St hadv hidx r next h0 hrow hnext hcy

/-- Witness of C20: at the end of line 0 of the block-comment document the
next line is joined; at the end of line 2 nothing happens. -/
theorem C20_delete_forward_at_end_witness :
    (∃ St2, editor_delete_character_at_cursor
          { comment_document with cx := 0, cy := 8 } = some St2
      ∧ raw_texts St2 = [cstr "/* startmiddle", cstr "end */ code"]
      ∧ St2.num_rows = 2)
    ∧ editor_delete_character_at_cursor { comment_document with cx := 2, cy := 11 }
        = some { comment_document with cx := 2, cy := 11 } :=
  ⟨match (C20_delete_forward_at_end { comment_document with cx := 0, cy := 8 }
        (by decide) (by decide)).2.2
        { idx := 0, characters := cstr "/* start", render := cstr "/* start",
          hl := List.replicate 8 HL_COMMENT, hl_open_comment := true }
        { idx := 1, characters := cstr "middle", render := cstr "middle",
          hl := List.replicate 6 HL_COMMENT, hl_open_comment := true }
        (by decide) (by rfl) (by rfl) (by rfl) with
    | ⟨St2, h1, h2, h3, _⟩ => ⟨St2, h1, by rw [h2]; rfl, by rw [h3]; rfl⟩,
   (C20_delete_forward_at_end { comment_document with cx := 2, cy := 11 }
      (by decide) (by decide)).2.1
      { idx := 2, characters := cstr "end */ code", render := cstr "end */ code",
        hl := List.replicate 6 HL_COMMENT ++ List.replicate 5 HL_NORMAL,
        hl_open_comment := false }
      (by decide) (by rfl) (by rfl) (by rfl)⟩

/-! ## selecting the profile -/

theorem strchr_no_dot (s : List Int) (c : Int) (h : c ∉ s) : strchr s c = none := by
  unfold strchr
  have : s.dropWhile (fun b => b != c) = [] := by
    rw [List.dropWhile_eq_nil_iff]
    intro x hx
    simp only [bne_iff_ne, ne_eq, decide_eq_true_eq]
    rintro rfl
    exact h hx
  rw [this]

theorem strchr_first (stem ext : List Int) (c : Int) (h : c ∉ stem) :
    strchr (stem ++ c :: ext) c = some (c :: ext) := by
  unfold strchr
  have : (stem ++ c :: ext).dropWhile (fun b => b != c) = c :: ext := by
    induction stem with
    | nil => simp [List.dropWhile]
    | cons a t ih =>
      have ha : a ≠ c := fun e => h (by rw [e]; exact List.mem_cons_self _ _)
      have ht : c ∉ t := fun e => h (List.mem_cons_of_mem _ e)
      have hb : (a != c) = true := by simp only [bne_iff_ne, ne_eq]; exact ha
      rw [List.cons_append, List.dropWhile_cons]
      simp only [hb, if_true]
      exact ih ht
  rw [this]

/-- Every call of the loop over the rows returns, on a document whose rows
are indexed, and leaves the raw texts, the indices and the number of rows
as they were. -/
theorem update_syntax_rows_some (n : Nat) :
    ∀ (x : Nat) (St : config), syntax_advances St → rows_indexed St →
      x + n ≤ St.num_rows →
      ∃ S, update_syntax_rows n x St = some S
        ∧ S = { St with rows := S.rows }
        ∧ S.rows.map row_text = St.rows.map row_text := by
  induction n with
  | zero => intro x St _ _ _; exact ⟨St, rfl, rfl, rfl⟩
  | succ m ih =>
    intro x St hadv hidx hx
    obtain ⟨hn, hix⟩ := hidx
    have hlt : x < St.rows.length := by omega
    obtain ⟨pre, post, hrows, hp⟩ := split_at St.rows x (St.rows.get ⟨x, hlt⟩)
      (List.get?_eq_get hlt)
    generalize St.rows.get ⟨x, hlt⟩ = r at hrows
    subst hp
    have hi2 := idx_split (fun x : erow => x.idx) pre (r :: post) 0
      (by rw [← hrows]; exact hix)
    simp only [Nat.zero_add, List.length_cons] at hi2
    have hlen : St.rows.length = pre.length + 1 + post.length := by
      rw [hrows]; simp only [List.length_append, List.length_cons]; omega
    have ht := trace_eq_cascade (St.rows.length + 1) pre r post St hrows hi2 (by omega)
    obtain ⟨⟨new, k⟩, hc⟩ := cascade_rows_some St.syn ((syntax_advances_iff St).1 hadv)
      (open_after false pre) (St.num_rows - (pre.length + 1)) (r :: post)
      (by simp) (by simp only [List.length_cons]; omega)
    obtain ⟨t1, _⟩ := cascade_rows_text _ _ _ _ _ _ hc
    have hu : editor_update_syntax St pre.length = some { St with rows := pre ++ new } := by
      unfold editor_update_syntax
      rw [← trace_fst, ht, hc]
      rfl
    have hl : new.length = post.length + 1 := by
      have := congrArg List.length t1
      simpa using this
    have htext : (pre ++ new).map row_text = St.rows.map row_text := by
      rw [hrows, List.map_append, List.map_append, t1]
    have hidx1 : rows_indexed { St with rows := pre ++ new } := by
      refine ⟨?_, ?_⟩
      · show St.num_rows = (pre ++ new).length
        rw [List.length_append, hl]; omega
      · show (pre ++ new).map (fun r => r.idx) = List.range' 0 (pre ++ new).length
        have e := congrArg (List.map (fun t : Nat × List Int × List Int => t.1)) htext
        simp only [List.map_map] at e
        have e2 : (pre ++ new).length = St.rows.length := by
          rw [List.length_append, hl]; omega
        rw [e2, ← hix]
        exact e
    obtain ⟨S, s1, s2, s3⟩ := ih (pre.length + 1) { St with rows := pre ++ new } hadv hidx1
      (by show pre.length + 1 + m ≤ St.num_rows; omega)
    refine ⟨S, ?_, ?_, ?_⟩
    · unfold update_syntax_rows
      rw [hu, Option.some_bind, s1]
    · rw [s2]
    · rw [s3]; exact htext

theorem any_strcmp_eq (l : List (List Int)) (ext : List Int) :
    l.any (fun m => strcmp_eq m ext) = decide (ext ∈ l) := by
  induction l with
  | nil => simp
  | cons a t ih =>
    rw [List.any_cons, ih]
    simp only [strcmp_eq, List.mem_cons]
    by_cases h : a = ext
    · simp [h]
    · have h2 : ¬ ext = a := fun e => h e.symm
      simp [h, h2]

/-- C22 fails on the code for names with a dot before the extension:
`editor_select_syntax_highlight` compares the matchers with the part of the
name from its FIRST dot on (`strchr`).  On every document with indexed rows
it returns; it selects no profile for a null name and for a name without a
dot; for a name `stem ++ "." ++ ext` with no dot in `stem` it selects the
C/C++ profile exactly when `"." ++ ext` is one of the four matchers, leaving
the raw texts and the number of rows as they were.  So `main.c` selects the
C/C++ profile, and `a.b.c` and `./main.c`, which end with `.c`, select none. -/
theorem C22_profile_follows_first_dot (St : config) (hidx : rows_indexed St) :
    (St.file_name = none →
      editor_select_syntax_highlight St = some { St with syn := none })
    ∧ (∀ name, St.file_name = some name → (46 : Int) ∉ name →
        editor_select_syntax_highlight St = some { St with syn := none })
    ∧ (∀ stem ext, St.file_name = some (stem ++ 46 :: ext) → (46 : Int) ∉ stem →
        ∃ S, editor_select_syntax_highlight St = some S
          ∧ S.syn = (if (46 :: ext) ∈ C_HL_extensions then some HLDB_C else none)
          ∧ raw_texts S = raw_texts St ∧ S.num_rows = St.num_rows)
    ∧ (editor_select_syntax_highlight (named_document "main.c")).map (fun S => S.syn)
        = some (some HLDB_C)
    ∧ (editor_select_syntax_highlight (named_document "a.b.c")).map (fun S => S.syn)
        = some none
    ∧ (editor_select_syntax_highlight (named_document "./main.c")).map (fun S => S.syn)
        = some none := by
  refine ⟨?_, ?_, ?_, by rfl, by rfl, by rfl⟩
  · intro h
    unfold editor_select_syntax_highlight
    rw [h]
  · intro name h hdot
    unfold editor_select_syntax_highlight
    rw [h]
    simp only [strchr_no_dot name 46 hdot]
  · intro stem ext h hdot
    unfold editor_select_syntax_highlight
    rw [h]
    simp only [strchr_first stem ext 46 hdot, HLDB, select_syntax_loop]
    have hm : HLDB_C.file_match = C_HL_extensions := rfl
    rw [any_strcmp_eq, hm, ← h]
    by_cases hmem : (46 :: ext) ∈ C_HL_extensions
    · simp only [hmem, decide_True, if_true]
      obtain ⟨S, s1, s2, s3⟩ := update_syntax_rows_some St.num_rows 0
        { St with syn := some HLDB_C } (by
          show syntax_advances { St with syn := some HLDB_C }
          have : profile_advances HLDB_C := by decide
          simpa [syntax_advances] using this)
        hidx (by show 0 + St.num_rows ≤ St.num_rows; omega)
      refine ⟨S, s1, ?_, ?_, ?_⟩
      · rw [s2]
      · have e := congrArg (List.map (fun t : Nat × List Int × List Int => t.2.1)) s3
        simp only [List.map_map] at e
        exact e
      · rw [s2]
    · simp only [hmem, decide_False, if_false, Bool.false_eq_true]
      exact ⟨_, rfl, rfl, rfl, rfl⟩

theorem C22_profile_follows_first_dot_witness :
    rows_indexed (named_document "a.b.c")
    ∧ ∃ S, editor_select_syntax_highlight (named_document "a.b.c") = some S
        ∧ S.syn = none
        ∧ raw_texts S = [] ∧ S.num_rows = 0 :=
  ⟨by decide,
   (C22_profile_follows_first_dot (named_document "a.b.c") (by decide)).2.2.1
      (cstr "a") (cstr "b.c") (by rfl) (by decide)⟩

/-! ## the scan after a closing block-comment marker -/

theorem take_set_le {α : Type} (l : List α) (i k : Nat) (v : α) (h : k ≤ i) :
    (l.set i v).take k = l.take k := by
  induction l generalizing i k with
  | nil => simp
  | cons a t ih =>
    cases i with
    | zero =>
      have : k = 0 := by omega
      subst this; simp
    | succ j =>
      cases k with
      | zero => simp
      | succ m =>
        simp only [List.set_cons_succ, List.take_succ_cons, List.cons.injEq, true_and]
        exact ih j m (by omega)

theorem take_memset_le (hl : List editor_hightlight) (y : Nat) (v : editor_hightlight)
    (n k : Nat) (h : k ≤ y) : (memset hl y v n).take k = hl.take k := by
  unfold memset
  by_cases hy : y ≤ hl.length
  · rw [List.append_assoc, List.take_append_of_le_length (by
      rw [List.length_take]; omega), List.take_take, Nat.min_eq_left h]
  · have h1 : hl.take y = hl := List.take_of_length_le (by omega)
    have h2 : hl.drop (y + n) = [] := List.drop_of_length_le (by omega)
    have h3 : min n (hl.length - y) = 0 := by omega
    rw [h1, h2, h3]
    simp

theorem keyword_block_below (syn : editor_syntax) (render : List Int)
    (st st1 : scan_state) (h : keyword_block syn render st = some st1)
    (k : Nat) (hk : k ≤ st.y) : st1.hl.take k = st.hl.take k ∧ st.y ≤ st1.y := by
  unfold keyword_block at h
  split at h
  · split at h
    · simp only [Option.some.injEq] at h
      subst h
      exact ⟨take_memset_le _ _ _ _ _ hk, Nat.le_add_right _ _⟩
    · exact absurd h (by simp)
  · exact absurd h (by simp)

theorem scan_tail_below (syn : editor_syntax) (render : List Int) (ch : Int)
    (prev_hl : editor_hightlight) (st : scan_state) (k : Nat) (hk : k ≤ st.y) :
    (scan_tail syn render ch prev_hl st).1.hl.take k = st.hl.take k
      ∧ st.y ≤ (scan_tail syn render ch prev_hl st).1.y := by
  unfold scan_tail
  split
  · exact ⟨take_set_le _ _ _ _ hk, Nat.le_add_right _ _⟩
  · split
    · next st1 h1 => exact keyword_block_below syn render st st1 h1 k hk
    · exact ⟨rfl, Nat.le_add_right _ _⟩

theorem scan_comment_below (syn : editor_syntax) (render : List Int) (ch : Int)
    (prev_hl : editor_hightlight) (st : scan_state) (k : Nat) (hk : k ≤ st.y) :
    (scan_comment syn render ch prev_hl st).1.hl.take k = st.hl.take k
      ∧ st.y ≤ (scan_comment syn render ch prev_hl st).1.y := by
  unfold scan_comment
  split
  · split
    · simp only
      split
      · have := scan_tail_below syn render ch prev_hl
          { st with
            hl := memset (st.hl.set st.y HL_COMMENT) st.y HL_COMMENT
              syn.multiline_comment_end.length
            y := st.y + syn.multiline_comment_end.length
            inside_comment := false } k (by show k ≤ st.y + _; omega)
        refine ⟨?_, ?_⟩
        · rw [this.1]
          show (memset (st.hl.set st.y HL_COMMENT) st.y HL_COMMENT _).take k = _
          rw [take_memset_le _ _ _ _ _ hk, take_set_le _ _ _ _ hk]
        · have h2 := this.2
          simp only at h2
          omega
      · exact ⟨take_set_le _ _ _ _ hk, Nat.le_add_right _ _⟩
    · split
      · exact ⟨take_memset_le _ _ _ _ _ hk, Nat.le_add_right _ _⟩
      · exact scan_tail_below syn render ch prev_hl st k hk
  · exact scan_tail_below syn render ch prev_hl st k hk

theorem scan_body_below (syn : editor_syntax) (render : List Int)
    (st : scan_state) (k : Nat) (hk : k ≤ st.y) :
    (scan_body syn render st).1.hl.take k = st.hl.take k
      ∧ st.y ≤ (scan_body syn render st).1.y := by
  unfold scan_body
  simp only
  split
  · exact ⟨take_memset_le _ _ _ _ _ hk, le_refl _⟩
  · split
    · split
      · exact ⟨take_set_le _ _ _ _ hk, Nat.le_add_right _ _⟩
      · split
        · exact ⟨take_set_le _ _ _ _ hk, Nat.le_add_right _ _⟩
        · exact scan_comment_below syn render _ _ st k hk
    · exact scan_comment_below syn render _ _ st k hk

/-- The scan loop stores no tag below the index it is at. -/
theorem scan_loop_below (syn : editor_syntax) (render : List Int) (fuel : Nat) :
    ∀ (st st1 : scan_state), scan_loop syn render fuel st = some st1 →
      ∀ k, k ≤ st.y → st1.hl.take k = st.hl.take k := by
  induction fuel with
  | zero => intro st st1 h; simp [scan_loop] at h
  | succ f ih =>
    intro st st1 h k hk
    unfold scan_loop at h
    split at h
    · have hb := scan_body_below syn render st k hk
      split at h
      · next st2 e =>
        rw [e] at hb
        rw [ih st2 st1 h k (by have := hb.2; simp only at this; omega)]
        exact hb.1
      · next st2 e =>
        rw [e] at hb
        simp only [Option.some.injEq] at h
        subst h
        exact hb.1
    · simp only [Option.some.injEq] at h
      subst h
      rfl

theorem strncmp_eq_head_ne (n : Nat) (a b : List Int) (h : a.headD 0 ≠ b.headD 0) :
    strncmp_eq (n + 1) a b = false := by
  unfold strncmp_eq
  simp only [bne_iff_ne, ne_eq, h, not_false_eq_true, if_true]

theorem find_keyword_none (render : List Int) (y : Nat) (kws : List (List Int))
    (h : ∀ kw ∈ kws,
      0 < (if kw.getLast? == some 124 then kw.length - 1 else kw.length)
        ∧ kw.headD 0 ≠ (render.drop y).headD 0) :
    find_keyword render y kws = none := by
  induction kws with
  | nil => rfl
  | cons kw kws ih =>
    simp only [find_keyword]
    obtain ⟨h1, h2⟩ := h kw (List.mem_cons_self _ _)
    generalize (if kw.getLast? == some 124 then kw.length - 1 else kw.length) = len at h1
    obtain ⟨m, rfl⟩ : ∃ m, len = m + 1 := ⟨len - 1, by omega⟩
    rw [strncmp_eq_head_ne m kw _ h2]
    simp only [Bool.false_and, Bool.false_eq_true, if_false]
    exact ih (fun kw hk => h kw (List.mem_cons_of_mem _ hk))

theorem C_HL_keywords_no_digit :
    ∀ kw ∈ C_HL_keywords,
      0 < (if kw.getLast? == some 124 then kw.length - 1 else kw.length)
        ∧ isdigit (kw.headD 0) = false := by
  decide

/-- The iteration of the scan loop at the opening marker `/*`, outside a
string and a comment. -/
theorem scan_body_open (tl : List Int) (st : scan_state)
    (hy : st.y = 0) (hs : st.inside_string = 0) (hc : st.inside_comment = false) :
    scan_body HLDB_C (47 :: 42 :: tl) st
      = ({ st with hl := memset st.hl st.y HL_COMMENT 2, y := st.y + 2,
                   inside_comment := true }, true) := by
  have c1 : HLDB_C.singleline_comment_start = [47, 47] := rfl
  have c2 : HLDB_C.multiline_comment_start = [47, 42] := rfl
  have c3 : HLDB_C.flags &&& HL_HIGHLIGHT_STRINGS = 2 := rfl
  unfold scan_body scan_comment
  simp only [hy, hs, hc, c1, c2, c3, List.drop_zero, List.length_cons, List.length_nil,
    List.getD_cons_zero]
  simp [strncmp_eq]

theorem getD_eq_headD_drop (l : List Int) (y : Nat) :
    l.getD y 0 = (l.drop y).headD 0 := by
  induction l generalizing y with
  | nil => simp
  | cons a t ih =>
    cases y with
    | zero => simp
    | succ m => simp

/-- An iteration of the scan loop inside a block comment, away from a quote
and from the closing marker: the cell is tagged comment. -/
theorem scan_body_in_comment (render : List Int) (st : scan_state)
    (hs : st.inside_string = 0) (hc : st.inside_comment = true)
    (hq : render.getD st.y 0 ≠ 34 ∧ render.getD st.y 0 ≠ 39)
    (hn : strncmp_eq 2 [42, 47] (render.drop st.y) = false) :
    scan_body HLDB_C render st
      = ({ st with hl := st.hl.set st.y HL_COMMENT, y := st.y + 1 }, true) := by
  have c3 : HLDB_C.flags &&& HL_HIGHLIGHT_STRINGS = 2 := rfl
  have c4 : HLDB_C.multiline_comment_end = [42, 47] := rfl
  unfold scan_body scan_comment
  simp only [hs, hc, c3, c4, List.length_cons, List.length_nil, hn]
  generalize render.getD st.y 0 = ch at hq
  obtain ⟨q1, q2⟩ := hq
  simp [q1, q2]

/-- The iteration of the scan loop at the closing marker `*/` followed by a
digit: the two marker cells are tagged comment, and the fall-through to the
rest of the body, which still holds the `*` read at the top of the
iteration, steps over the cell of the digit. -/
theorem scan_body_close (render : List Int) (st : scan_state)
    (hs : st.inside_string = 0) (hc : st.inside_comment = true)
    (hp : st.is_prev_sep = true) (d : Int) (rest : List Int)
    (hr : render.drop st.y = 42 :: 47 :: d :: rest) (hd : isdigit d = true) :
    scan_body HLDB_C render st
      = ({ st with hl := memset (st.hl.set st.y HL_COMMENT) st.y HL_COMMENT 2,
                   y := st.y + 2 + 1, inside_comment := false,
                   is_prev_sep := true }, true) := by
  have c3 : HLDB_C.flags &&& HL_HIGHLIGHT_STRINGS = 2 := rfl
  have c4 : HLDB_C.multiline_comment_end = [42, 47] := rfl
  have c5 : HLDB_C.flags &&& HL_HIGHLIGHT_NUMBERS = 1 := rfl
  have c6 : HLDB_C.keywords = C_HL_keywords := rfl
  have hch : render.getD st.y 0 = 42 := by rw [getD_eq_headD_drop, hr]; rfl
  have hm : strncmp_eq 2 [42, 47] (render.drop st.y) = true := by rw [hr]; rfl
  have hk : find_keyword render (st.y + 2) C_HL_keywords = none := by
    apply find_keyword_none
    intro kw hkw
    obtain ⟨k1, k2⟩ := C_HL_keywords_no_digit kw hkw
    refine ⟨k1, ?_⟩
    have : render.drop (st.y + 2) = d :: rest := by
      rw [← List.drop_drop, hr]; rfl
    rw [this]
    intro e
    simp only [List.headD_cons] at e
    rw [e, hd] at k2
    exact absurd k2 (by simp)
  unfold scan_body scan_comment
  simp only [hs, hc, c3, c4, List.length_cons, List.length_nil, hm, hch]
  unfold scan_tail keyword_block
  simp only [c5, c6, hp, hk]
  simp [isdigit, is_separator, isspace, cstr]

theorem drop_set_lt {α : Type} (l : List α) (i k : Nat) (v : α) (h : i < k) :
    (l.set i v).drop k = l.drop k := by
  induction l generalizing i k with
  | nil => simp
  | cons a t ih =>
    cases k with
    | zero => omega
    | succ m =>
      cases i with
      | zero => simp
      | succ j =>
        simp only [List.set_cons_succ, List.drop_succ_cons]
        exact ih j m (by omega)

theorem memset_shape (hl : List editor_hightlight) (a b n : Nat)
    (v w : editor_hightlight) (h1 : hl.take a = List.replicate a v)
    (h2 : hl.length = a + b) (h3 : hl.drop (a + n) = List.replicate (b - n) w)
    (hn : n ≤ b) :
    memset hl a v n = List.replicate (a + n) v ++ List.replicate (b - n) w := by
  unfold memset
  have : min n (hl.length - a) = n := by omega
  rw [h1, h3, this, List.replicate_add]

theorem set_boundary (a b : Nat) (v w : editor_hightlight) :
    (List.replicate a v ++ List.replicate (b + 1) w).set a v
      = List.replicate (a + 1) v ++ List.replicate b w := by
  induction a with
  | zero => simp [List.replicate_succ]
  | succ m ih =>
    simp only [List.replicate_succ, List.cons_append, List.set_cons_succ, List.cons.injEq,
      true_and] at ih ⊢
    exact ih

theorem strncmp_close_false (x : Int) (tl : List Int)
    (h : ¬ (x = 42 ∧ tl.headD 0 = 47)) :
    strncmp_eq 2 [42, 47] (x :: tl) = false := by
  by_cases hx : x = 42
  · subst hx
    have ht : ¬ tl.headD 0 = 47 := fun e => h ⟨rfl, e⟩
    unfold strncmp_eq
    simp only [List.headD_cons, bne_self_eq_false, Bool.false_eq_true, if_false,
      List.tail_cons]
    have : ((42 : Int) == 0) = false := by decide
    rw [this]
    simp only [Bool.false_eq_true, if_false]
    exact strncmp_eq_head_ne 0 [47] tl (fun e => ht e.symm)
  · exact strncmp_eq_head_ne 1 [42, 47] (x :: tl) (fun e => hx e.symm)

/-- The scan loop inside a block comment, over cells with no quote and no
closing marker, up to a closing marker: every cell is tagged comment. -/
theorem comment_run (S : List Int) (hS : S.headD 0 = 42) :
    ∀ (c P : List Int) (fuel : Nat), (∀ x ∈ c, x ≠ 34 ∧ x ≠ 39) →
      ¬ [42, 47] <:+: c →
      scan_loop HLDB_C (P ++ (c ++ S)) (fuel + c.length)
          { y := P.length
            hl := List.replicate P.length HL_COMMENT
                    ++ List.replicate (c.length + S.length) HL_NORMAL
            is_prev_sep := true, inside_string := 0, inside_comment := true }
        = scan_loop HLDB_C (P ++ (c ++ S)) fuel
          { y := P.length + c.length
            hl := List.replicate (P.length + c.length) HL_COMMENT
                    ++ List.replicate S.length HL_NORMAL
            is_prev_sep := true, inside_string := 0, inside_comment := true } := by
  intro c
  induction c with
  | nil => intro P fuel _ _; simp
  | cons x c1 ih =>
    intro P fuel hq hc
    have hdrop : (P ++ (x :: c1 ++ S)).drop P.length = x :: (c1 ++ S) := by
      simp
    have hget : (P ++ (x :: c1 ++ S)).getD P.length 0 = x := by
      rw [getD_eq_headD_drop, hdrop]; rfl
    have hx := hq x (List.mem_cons_self _ _)
    have hno : ¬ (x = 42 ∧ (c1 ++ S).headD 0 = 47) := by
      rintro ⟨rfl, h47⟩
      cases c1 with
      | nil =>
        simp only [List.nil_append] at h47
        rw [hS] at h47
        exact absurd h47 (by decide)
      | cons x1 c2 =>
        simp only [List.cons_append, List.headD_cons] at h47
        subst h47
        exact hc ⟨[], c2, rfl⟩
    have hstep := scan_body_in_comment (P ++ (x :: c1 ++ S))
      { y := P.length
        hl := List.replicate P.length HL_COMMENT
                ++ List.replicate ((x :: c1).length + S.length) HL_NORMAL
        is_prev_sep := true, inside_string := 0, inside_comment := true }
      rfl rfl (by simp only [hget]; exact hx)
      (by simp only [hdrop]; exact strncmp_close_false x _ hno)
    have hlen : P.length < (P ++ (x :: c1 ++ S)).length := by
      simp only [List.length_append, List.length_cons]; omega
    rw [show fuel + (x :: c1).length = (fuel + c1.length) + 1 by
      simp only [List.length_cons]; omega]
    rw [scan_loop]
    simp only [hlen, if_true, hstep]
    have hshape : (List.replicate P.length HL_COMMENT
          ++ List.replicate ((x :: c1).length + S.length) HL_NORMAL).set P.length HL_COMMENT
        = List.replicate (P ++ [x]).length HL_COMMENT
          ++ List.replicate (c1.length + S.length) HL_NORMAL := by
      rw [show (x :: c1).length + S.length = (c1.length + S.length) + 1 by
        simp only [List.length_cons]; omega, set_boundary]
      simp
    have hi := ih (P ++ [x]) fuel (fun y hy => hq y (List.mem_cons_of_mem _ hy))
      (fun h => hc (List.infix_cons h))
    have hr : (P ++ [x]) ++ (c1 ++ S) = P ++ (x :: c1 ++ S) := by simp
    rw [hr] at hi
    rw [hshape]
    have e1 : (P ++ [x]).length = P.length + 1 := by simp
    have e2 : P.length + (x :: c1).length = (P ++ [x]).length + c1.length := by
      simp only [List.length_cons, e1]; omega
    rw [e2, ← e1]
    exact hi

/-- C23 fails on the code: after the closing marker of a block comment the
scan steps over one cell.  With the C/C++ profile, for every display line
`"/*" ++ c ++ "*/" ++ d ++ rest` that starts outside a block comment, where
`c` holds no `*/` and no quote character and `d` is a decimal digit,
`editor_update_syntax` returns, tags the cells up to the end of the closing
marker as comment, and leaves the cell of `d` normal, not number: the
branch that closes the comment has no `continue`, so the rest of the loop
body runs with the `*` read at the top of the iteration and ends with
`y++`.  In `/**/7` cell 4 is normal. -/
theorem C23_cell_after_comment_is_skipped (c rest : List Int) (d : Int)
    (hq : ∀ x ∈ c, x ≠ 34 ∧ x ≠ 39) (hc : ¬ cstr "*/" <:+: c)
    (hd : isdigit d = true) :
    ∃ hl ic, highlight_row HLDB_C (cstr "/*" ++ c ++ cstr "*/" ++ d :: rest) false
        = some (hl, ic)
      ∧ hl.take (c.length + 5)
          = List.replicate (c.length + 4) HL_COMMENT ++ [HL_NORMAL]
      ∧ hl.get? (c.length + 4) = some HL_NORMAL
      ∧ hl.get? (c.length + 4) ≠ some HL_NUMBER := by
  have hR : cstr "/*" ++ c ++ cstr "*/" ++ d :: rest
      = 47 :: 42 :: (c ++ (42 :: 47 :: d :: rest)) := by
    show ([47, 42] ++ c ++ [42, 47]) ++ d :: rest = _
    simp
  have hc1 : ¬ [42, 47] <:+: c := hc
  rw [hR]
  generalize hS : (42 : Int) :: 47 :: d :: rest = S
  have hSl : S.length = rest.length + 3 := by rw [← hS]; simp
  have hL : (47 :: 42 :: (c ++ S)).length = c.length + rest.length + 5 := by
    simp only [List.length_append, List.length_cons, List.length_nil, hSl]; omega
  unfold highlight_row
  rw [hL, show c.length + rest.length + 5 + 1 = (rest.length + 5 + c.length) + 1 by omega,
    scan_loop]
  have h0 : (scan_init (47 :: 42 :: (c ++ S)) false).y
      < (47 :: 42 :: (c ++ S)).length := by
    rw [hL]; show 0 < _; omega
  rw [if_pos h0]
  have hopen := scan_body_open (c ++ S) (scan_init (47 :: 42 :: (c ++ S)) false)
    rfl rfl rfl
  rw [hopen]
  simp only
  have hm1 : memset (scan_init (47 :: 42 :: (c ++ S)) false).hl
        (scan_init (47 :: 42 :: (c ++ S)) false).y HL_COMMENT 2
      = List.replicate ([47, 42] : List Int).length HL_COMMENT
          ++ List.replicate (c.length + S.length) HL_NORMAL := by
    show memset (List.replicate (47 :: 42 :: (c ++ S)).length HL_NORMAL) 0 HL_COMMENT 2 = _
    rw [hL]
    have := memset_shape (List.replicate (c.length + rest.length + 5) HL_NORMAL) 0
      (c.length + rest.length + 5) 2 HL_COMMENT HL_NORMAL (by simp) (by simp)
      (by simp) (by omega)
    rw [this, hSl]
    simp only [List.length_cons, List.length_nil, Nat.zero_add]
    congr 2
  have hrun := comment_run S (by rw [← hS]; rfl) c [47, 42] (rest.length + 5) hq hc1
  rw [show [47, 42] ++ (c ++ S) = 47 :: 42 :: (c ++ S) by rfl] at hrun
  have hst : ({ scan_init (47 :: 42 :: (c ++ S)) false with
        hl := memset (scan_init (47 :: 42 :: (c ++ S)) false).hl
                (scan_init (47 :: 42 :: (c ++ S)) false).y HL_COMMENT 2
        y := (scan_init (47 :: 42 :: (c ++ S)) false).y + 2
        inside_comment := true } : scan_state)
      = { y := ([47, 42] : List Int).length
          hl := List.replicate ([47, 42] : List Int).length HL_COMMENT
                  ++ List.replicate (c.length + S.length) HL_NORMAL
          is_prev_sep := true, inside_string := 0, inside_comment := true } := by
    rw [hm1]; rfl
  rw [hst, hrun, scan_loop]
  have h2 : ([47, 42] : List Int).length + c.length < (47 :: 42 :: (c ++ S)).length := by
    rw [hL]; simp only [List.length_cons, List.length_nil]; omega
  simp only [h2, if_true]
  have hdrop : (47 :: 42 :: (c ++ S)).drop (([47, 42] : List Int).length + c.length)
      = 42 :: 47 :: d :: rest := by
    rw [hS]
    show ([47, 42] ++ (c ++ S)).drop _ = _
    rw [← List.append_assoc]
    have hl2 : ([47, 42] ++ c).length = ([47, 42] : List Int).length + c.length := by
      simp only [List.length_append]
    exact List.drop_left' hl2
  have hclose := scan_body_close (47 :: 42 :: (c ++ S))
    { y := ([47, 42] : List Int).length + c.length
      hl := List.replicate (([47, 42] : List Int).length + c.length) HL_COMMENT
              ++ List.replicate S.length HL_NORMAL
      is_prev_sep := true, inside_string := 0, inside_comment := true }
    rfl rfl rfl d rest hdrop hd
  rw [hclose]
  simp only
  have hm2 : memset ((List.replicate (([47, 42] : List Int).length + c.length) HL_COMMENT
          ++ List.replicate S.length HL_NORMAL).set
            (([47, 42] : List Int).length + c.length) HL_COMMENT)
        (([47, 42] : List Int).length + c.length) HL_COMMENT 2
      = List.replicate (c.length + 4) HL_COMMENT
          ++ List.replicate (rest.length + 1) HL_NORMAL := by
    rw [hSl, show rest.length + 3 = (rest.length + 2) + 1 by omega, set_boundary]
    generalize ha : ([47, 42] : List Int).length + c.length = a
    have ha4 : a + 2 = c.length + 4 := by
      rw [← ha]; simp only [List.length_cons, List.length_nil]; omega
    have := memset_shape (List.replicate (a + 1)
        HL_COMMENT ++ List.replicate (rest.length + 2) HL_NORMAL)
      a (rest.length + 3) 2 HL_COMMENT HL_NORMAL
      (by rw [List.take_append_of_le_length (by simp), List.take_replicate]
          congr 1; omega)
      (by simp only [List.length_append, List.length_replicate]; omega)
      (by rw [List.drop_append_eq_append_drop, List.drop_replicate, List.drop_replicate,
            List.length_replicate, show a + 1 - (a + 2) = 0 by omega,
            show rest.length + 2 - (a + 2 - (a + 1)) = rest.length + 3 - 2 by omega]
          rfl)
      (by omega)
    rw [this, ha4]
    rfl
  rw [hm2]
  have hy3 : ([47, 42] : List Int).length + c.length + 2 + 1 = c.length + 5 := by
    simp only [List.length_cons, List.length_nil]; omega
  rw [hy3]
  obtain ⟨st4, h4⟩ := scan_loop_some HLDB_C (by decide) (47 :: 42 :: (c ++ S))
    (rest.length + 4)
    { y := c.length + 5
      hl := List.replicate (c.length + 4) HL_COMMENT
              ++ List.replicate (rest.length + 1) HL_NORMAL
      is_prev_sep := true, inside_string := 0, inside_comment := false }
    (by omega) (by rw [hL]; show _ ≤ rest.length + 4 + (c.length + 5); omega)
  have hp := scan_loop_below HLDB_C (47 :: 42 :: (c ++ S)) (rest.length + 4) _ st4 h4
    (c.length + 5) (le_refl _)
  have htake : st4.hl.take (c.length + 5)
      = List.replicate (c.length + 4) HL_COMMENT ++ [HL_NORMAL] := by
    rw [hp]
    show (List.replicate (c.length + 4) HL_COMMENT
      ++ List.replicate (rest.length + 1) HL_NORMAL).take (c.length + 5) = _
    rw [show List.replicate (rest.length + 1) HL_NORMAL
          = [HL_NORMAL] ++ List.replicate rest.length HL_NORMAL from rfl,
      ← List.append_assoc]
    exact List.take_left' (by simp)
  have hget : st4.hl.get? (c.length + 4) = some HL_NORMAL := by
    have h1 : (st4.hl.take (c.length + 5)).get? (c.length + 4)
        = st4.hl.get? (c.length + 4) := by
      simp only [List.get?_eq_getElem?]
      exact List.getElem?_take_of_lt (by omega)
    rw [← h1, htake]
    simp only [List.get?_eq_getElem?]
    rw [List.getElem?_append_right (by simp)]
    simp
  rw [h4]
  refine ⟨st4.hl, st4.inside_comment, rfl, htake, hget, ?_⟩
  rw [hget]
  decide

theorem C23_cell_after_comment_is_skipped_witness :
    ((∀ x ∈ cstr " x ", x ≠ 34 ∧ x ≠ 39) ∧ ¬ cstr "*/" <:+: cstr " x "
      ∧ isdigit 55 = true
      ∧ ∃ hl ic, highlight_row HLDB_C (cstr "/* x */78") false = some (hl, ic)
          ∧ hl.take 8 = List.replicate 7 HL_COMMENT ++ [HL_NORMAL]
          ∧ hl.get? 7 = some HL_NORMAL
          ∧ hl.get? 7 ≠ some HL_NUMBER)
    ∧ ∃ hl ic, highlight_row HLDB_C (cstr "/**/7") false = some (hl, ic)
        ∧ hl.take 5 = [HL_COMMENT, HL_COMMENT, HL_COMMENT, HL_COMMENT, HL_NORMAL]
        ∧ hl.get? 4 = some HL_NORMAL
        ∧ hl.get? 4 ≠ some HL_NUMBER :=
  ⟨⟨by decide, by decide, by decide,
    C23_cell_after_comment_is_skipped (cstr " x ") (cstr "8") 55 (by decide) (by decide)
      (by decide)⟩,
   C23_cell_after_comment_is_skipped [] [] 55 (by simp) (by simp [cstr]) (by decide)⟩

/-! ## one key -/

theorem row_at (St : config) (hn : St.num_rows = St.rows.length) (c : Int)
    (h0 : 0 ≤ c) (h1 : c < St.num_rows) :
    ∃ r, St.rows.get? c.toNat = some r ∧ row_len St c = r.characters.length := by
  have hlt : c.toNat < St.rows.length := by omega
  refine ⟨St.rows.get ⟨c.toNat, hlt⟩, List.get?_eq_get hlt, ?_⟩
  unfold row_len row_size
  have hneg : ¬ c < 0 := by omega
  simp only [hneg, if_false, List.get?_eq_get hlt, Option.map_some', Option.getD_some]

/-- Delete-forward with the cursor before the end of an existing row removes
the byte at the cursor. -/
theorem delete_mid_row (St : config) (hadv : syntax_advances St)
    (hidx : rows_indexed St) (r : erow) (h0 : 0 ≤ St.cx)
    (hrow : St.rows.get? St.cx.toNat = some r)
    (hy0 : 0 ≤ St.cy) (hy1 : St.cy < r.characters.length) :
    ∃ S, editor_delete_character_at_cursor St = some S
      ∧ raw_texts S
          = (raw_texts St).set St.cx.toNat (r.characters.eraseIdx St.cy.toNat)
      ∧ S = { St with rows := S.rows, modified := St.modified + 1 }
      ∧ rows_indexed S ∧ syntax_advances S := by
  have hlt : St.cx.toNat < St.rows.length := by
    by_contra hc
    rw [List.get?_eq_none.2 (by omega)] at hrow
    exact absurd hrow (by simp)
  have hn := hidx.1
  have hb : cursor_below_last_line St = false := by
    simp only [cursor_below_last_line, beq_eq_false_iff_ne, ne_eq]; omega
  have hneg : ¬ St.cx < 0 := by omega
  have hne : ¬ St.cy = (r.characters.length : Int) := by omega
  have hneg2 : ¬ St.cy < 0 := by omega
  have hi : St.cy.toNat < r.characters.length := by omega
  have hne0 : ¬ r.characters.length = 0 := by omega
  obtain ⟨S, h1, h2, h3, h4, h5⟩ := edit_row_texts St St.cx.toNat r
    (r.characters.take St.cy.toNat ++ r.characters.drop (St.cy.toNat + 1)) hadv hidx hrow
  refine ⟨S, ?_, ?_, h3, h4, h5⟩
  · unfold editor_delete_character_at_cursor
    simp only [hb, Bool.false_eq_true, if_false, hneg, hrow, hne, and_false, hneg2]
    unfold editor_row_delete_character
    rw [hrow]
    simp only [hne0, if_false, hi, if_true]
    exact h1
  · rw [h2, List.eraseIdx_eq_take_drop_succ]

/-- On a valid state delete-forward returns, and keeps the cursor. -/
theorem delete_at_cursor_total (St : config) (hadv : syntax_advances St)
    (hidx : rows_indexed St) (hs : cursor_strict St) :
    ∃ S, editor_delete_character_at_cursor St = some S
      ∧ S.cx = St.cx ∧ S.cy = St.cy := by
  obtain ⟨h0, h1, hn, hy0, hy1⟩ := (cursor_strict_iff St).1 hs
  by_cases hb : St.cx = St.num_rows
  · refine ⟨St, ?_, rfl, rfl⟩
    unfold editor_delete_character_at_cursor
    have : cursor_below_last_line St = true := by
      simp only [cursor_below_last_line, beq_iff_eq]; exact hb
    rw [if_pos this]
  · obtain ⟨r, hrow, hlen⟩ := row_at St hn St.cx h0 (by omega)
    rw [hlen] at hy1
    by_cases hend : St.cy = r.characters.length
    · by_cases hlast : St.cx = (St.num_rows : Int) - 1
      · refine ⟨St, ?_, rfl, rfl⟩
        unfold editor_delete_character_at_cursor
        have hb2 : ¬ cursor_below_last_line St = true := by
          simp only [cursor_below_last_line, beq_iff_eq]; exact hb
        have hneg : ¬ St.cx < 0 := by omega
        rw [if_neg hb2, if_neg hneg, hrow]
        simp only [hlast, hend, and_self, if_true]
      · obtain ⟨next, hnext, _⟩ := row_at St hn (St.cx + 1) (by omega) (by omega)
        have e : (St.cx + 1).toNat = St.cx.toNat + 1 := by omega
        rw [e] at hnext
        obtain ⟨S, j1, _, _, j4, j5, _⟩ := join_texts St hadv hidx r next h0 hrow hnext hend
        exact ⟨S, j1, j4, j5⟩
    · obtain ⟨S, d1, _, d3, _⟩ := delete_mid_row St hadv hidx r h0 hrow hy0 (by omega)
      refine ⟨S, d1, ?_, ?_⟩
      · rw [d3]
      · rw [d3]

theorem newline_total (St : config) (hadv : syntax_advances St)
    (hidx : rows_indexed St) (hs : cursor_strict St) :
    ∃ S, editor_insert_newline_at_cursor St = some S := by
  obtain ⟨h0, h1, hn, hy0, hy1⟩ := (cursor_strict_iff St).1 hs
  by_cases hb : St.cx = St.num_rows
  · obtain ⟨a, tail, i1, _⟩ := insert_row_general St St.num_rows [] hadv hidx (le_refl _)
    unfold editor_insert_newline_at_cursor
    have : cursor_below_last_line St = true := by
      simp only [cursor_below_last_line, beq_iff_eq]; exact hb
    rw [if_pos this, i1]
    exact ⟨_, rfl⟩
  · obtain ⟨r, hrow, hlen⟩ := row_at St hn St.cx h0 (by omega)
    rw [hlen] at hy1
    obtain ⟨pre, post, hrows, hp⟩ := split_at St.rows St.cx.toNat r hrow
    obtain ⟨S, _, _, _, s1, _⟩ := newline_texts St hadv hidx pre post r hrows
      (by omega) hy0 hy1
    exact ⟨S, s1⟩

theorem insert_char_total (St : config) (hadv : syntax_advances St)
    (hidx : rows_indexed St) (hs : cursor_strict St) (ch : Int) :
    ∃ S, editor_insert_char_at_cursor St ch = some S := by
  obtain ⟨h0, h1, hn, hy0, hy1⟩ := (cursor_strict_iff St).1 hs
  unfold editor_insert_char_at_cursor
  by_cases hb : St.cx = St.num_rows
  · obtain ⟨a, tail, i1, _⟩ := insert_row_general St St.num_rows (strdup [ch]) hadv hidx
      (le_refl _)
    have : cursor_below_last_line St = true := by
      simp only [cursor_below_last_line, beq_iff_eq]; exact hb
    rw [if_pos this, i1]
    exact ⟨_, rfl⟩
  · obtain ⟨r, hrow, hlen⟩ := row_at St hn St.cx h0 (by omega)
    have hb2 : ¬ cursor_below_last_line St = true := by
      simp only [cursor_below_last_line, beq_iff_eq]; exact hb
    have hneg : ¬ (St.cx < 0 ∨ St.cy < 0) := by omega
    rw [if_neg hb2, if_neg hneg]
    unfold editor_row_insert_character
    rw [hrow]
    simp only
    obtain ⟨S, e1, _⟩ := edit_row_texts St St.cx.toNat r
      (r.characters.take St.cy.toNat ++ ch :: r.characters.drop St.cy.toNat) hadv hidx hrow
    rw [e1]
    exact ⟨_, rfl⟩

/-- Move-left followed by delete-forward returns on a valid state. -/
theorem left_then_delete_total (St : config) (hadv : syntax_advances St)
    (hidx : rows_indexed St) (hs : cursor_strict St) :
    ∃ S, (editor_move_cursor St ARROW_LEFT).bind editor_delete_character_at_cursor
      = some S := by
  obtain ⟨h0, h1, hn, hy0, hy1⟩ := (cursor_strict_iff St).1 hs
  rw [move_left_eq St hs, Option.some_bind]
  by_cases hc : St.cy > 0
  · rw [if_pos hc]
    obtain ⟨S, d, _⟩ := delete_at_cursor_total { St with cy := St.cy - 1 } hadv hidx
      (strict_with St St.cx (St.cy - 1) hn h0 h1 (by omega) (by omega))
    exact ⟨S, d⟩
  · rw [if_neg hc]
    by_cases hx : St.cx > 0
    · rw [if_pos hx]
      obtain ⟨S, d, _⟩ := delete_at_cursor_total
        { St with cx := St.cx - 1, cy := row_len St (St.cx - 1) } hadv hidx
        (strict_with St (St.cx - 1) (row_len St (St.cx - 1)) hn (by omega) (by omega)
          (by omega) (le_refl _))
      exact ⟨S, d⟩
    · rw [if_neg hx]
      obtain ⟨S, d, _⟩ := delete_at_cursor_total St hadv hidx hs
      exact ⟨S, d⟩

/-- On a valid state every key other than Ctrl-Q, Ctrl-F, Ctrl-S, Page Up
and Page Down makes `editor_process_keypress` return to the main loop with
the flag `quit_pressed_last` cleared. -/
theorem keypress_total (calls : keypress_calls) (St : config)
    (hadv : syntax_advances St) (hidx : rows_indexed St) (hs : cursor_strict St)
    (ch : Int) (hq : ch ≠ CTRL_KEY 'q') (hf : ch ≠ CTRL_KEY 'f')
    (hsv : ch ≠ CTRL_KEY 's') (hpu : ch ≠ PAGE_UP) (hpd : ch ≠ PAGE_DOWN) :
    ∃ S, editor_process_keypress calls St ch = some (keypress_outcome.returned S)
      ∧ S.quit_pressed_last = false := by
  obtain ⟨h0, h1, hn, hy0, hy1⟩ := (cursor_strict_iff St).1 hs
  unfold editor_process_keypress
  by_cases k1 : ch = 13
  · rw [if_pos k1]
    obtain ⟨S, e⟩ := newline_total St hadv hidx hs
    rw [e]; exact ⟨_, rfl, rfl⟩
  rw [if_neg k1, if_neg hq, if_neg hf, if_neg hsv, if_neg hpu, if_neg hpd]
  by_cases k2 : ch = HOME
  · rw [if_pos k2]; exact ⟨_, rfl, rfl⟩
  rw [if_neg k2]
  by_cases k3 : ch = END
  · rw [if_pos k3]
    by_cases hx : St.cx < St.num_rows
    · rw [if_pos hx, row_size_valid St hn St.cx h0 hx]
      exact ⟨_, rfl, rfl⟩
    · rw [if_neg hx]; exact ⟨_, rfl, rfl⟩
  rw [if_neg k3]
  by_cases k4 : ch = DEL_KEY
  · rw [if_pos k4]
    obtain ⟨S, e, _⟩ := delete_at_cursor_total St hadv hidx hs
    rw [e]; exact ⟨_, rfl, rfl⟩
  rw [if_neg k4]
  by_cases k5 : ch = BACKSPACE ∨ ch = CTRL_KEY 'h'
  · rw [if_pos k5]
    obtain ⟨S, e⟩ := left_then_delete_total St hadv hidx hs
    rw [e]; exact ⟨_, rfl, rfl⟩
  rw [if_neg k5]
  by_cases k6 : ch = ARROW_UP ∨ ch = ARROW_DOWN ∨ ch = ARROW_LEFT ∨ ch = ARROW_RIGHT
  · rw [if_pos k6]
    rcases k6 with rfl | rfl | rfl | rfl
    · rw [move_up_eq St hs]; exact ⟨_, rfl, rfl⟩
    · rw [move_down_eq St hs]; exact ⟨_, rfl, rfl⟩
    · rw [move_left_eq St hs]; exact ⟨_, rfl, rfl⟩
    · rw [move_right_eq St hs]; exact ⟨_, rfl, rfl⟩
  rw [if_neg k6]
  by_cases k7 : ch = ESC ∨ ch = CTRL_KEY 'l'
  · rw [if_pos k7]; exact ⟨_, rfl, rfl⟩
  rw [if_neg k7]
  obtain ⟨S, e⟩ := insert_char_total St hadv hidx hs ch
  rw [e]; exact ⟨_, rfl, rfl⟩

/-! ## the quit confirmation -/

theorem scroll_keeps (St S : config) (h : editor_scroll St = some S) :
    S.modified = St.modified ∧ S.quit_pressed_last = St.quit_pressed_last := by
  unfold editor_scroll at h
  cases he : editor_evaluate_ry St with
  | none => rw [he] at h; exact absurd h (by simp)
  | some S1 =>
    rw [he] at h
    simp only [Option.map_some', Option.some.injEq] at h
    have h1 : S1.modified = St.modified ∧ S1.quit_pressed_last = St.quit_pressed_last := by
      unfold editor_evaluate_ry at he
      split at he
      · simp only [Option.some.injEq] at he; subst he; exact ⟨rfl, rfl⟩
      · split at he
        · exact absurd he (by simp)
        · split at he
          · exact absurd he (by simp)
          · split at he
            · simp only [Option.some.injEq] at he; subst he; exact ⟨rfl, rfl⟩
            · exact absurd he (by simp)
    subst h
    refine ⟨?_, ?_⟩
    · rw [← h1.1]; split_ifs <;> rfl
    · rw [← h1.2]; split_ifs <;> rfl

theorem map_end_flag (o : Option config) (out : keypress_outcome)
    (h : o.map keypress_end = some out) :
    ∃ S, out = keypress_outcome.returned S ∧ S.quit_pressed_last = false := by
  cases o with
  | none => exact absurd h (by simp)
  | some S1 =>
    simp only [Option.map_some', Option.some.injEq] at h
    exact ⟨_, h.symm, rfl⟩

/-- Every key other than Ctrl-Q, if its branch returns, returns to the main
loop with the flag cleared. -/
theorem keypress_flag (calls : keypress_calls) (St : config) (ch : Int)
    (out : keypress_outcome) (hq : ch ≠ CTRL_KEY 'q')
    (h : editor_process_keypress calls St ch = some out) :
    ∃ S, out = keypress_outcome.returned S ∧ S.quit_pressed_last = false := by
  unfold editor_process_keypress at h
  by_cases k1 : ch = 13
  · rw [if_pos k1] at h; exact map_end_flag _ _ h
  rw [if_neg k1, if_neg hq] at h
  by_cases k2 : ch = CTRL_KEY 'f'
  · rw [if_pos k2] at h; exact map_end_flag _ _ h
  rw [if_neg k2] at h
  by_cases k3 : ch = CTRL_KEY 's'
  · rw [if_pos k3] at h; exact map_end_flag _ _ h
  rw [if_neg k3] at h
  by_cases k4 : ch = PAGE_UP
  · rw [if_pos k4] at h; exact map_end_flag _ _ h
  rw [if_neg k4] at h
  by_cases k5 : ch = PAGE_DOWN
  · rw [if_pos k5] at h; exact map_end_flag _ _ h
  rw [if_neg k5] at h
  by_cases k6 : ch = HOME
  · rw [if_pos k6] at h; exact map_end_flag (some _) _ h
  rw [if_neg k6] at h
  by_cases k7 : ch = END
  · rw [if_pos k7] at h
    by_cases hx : St.cx < St.num_rows
    · rw [if_pos hx] at h
      cases hr : row_size St St.cx with
      | none => rw [hr] at h; exact absurd h (by simp)
      | some n =>
        rw [hr] at h
        exact map_end_flag (some _) _ h
    · rw [if_neg hx] at h; exact map_end_flag (some _) _ h
  rw [if_neg k7] at h
  by_cases k8 : ch = DEL_KEY
  · rw [if_pos k8] at h; exact map_end_flag _ _ h
  rw [if_neg k8] at h
  by_cases k9 : ch = BACKSPACE ∨ ch = CTRL_KEY 'h'
  · rw [if_pos k9] at h; exact map_end_flag _ _ h
  rw [if_neg k9] at h
  by_cases k10 : ch = ARROW_UP ∨ ch = ARROW_DOWN ∨ ch = ARROW_LEFT ∨ ch = ARROW_RIGHT
  · rw [if_pos k10] at h; exact map_end_flag _ _ h
  rw [if_neg k10] at h
  by_cases k11 : ch = ESC ∨ ch = CTRL_KEY 'l'
  · rw [if_pos k11] at h; exact map_end_flag (some _) _ h
  rw [if_neg k11] at h
  exact map_end_flag _ _ h

/-- The three cases of the Ctrl-Q branch. -/
theorem keypress_quit (calls : keypress_calls) (St : config) :
    editor_process_keypress calls St (CTRL_KEY 'q')
      = if St.modified ≠ 0 ∧ St.quit_pressed_last = false then
          some (keypress_outcome.returned { St with quit_pressed_last := true })
        else some keypress_outcome.exited := by
  unfold editor_process_keypress
  have k1 : ¬ CTRL_KEY 'q' = 13 := by decide
  rw [if_neg k1, if_pos rfl]

/-- After one turn of the main loop that returns, the flag is set exactly
when the key was Ctrl-Q, and `modified` is nonzero then. -/
theorem main_step_flag (calls : keypress_calls) (St S : config) (ch : Int)
    (h : (editor_scroll St).bind (fun St1 => editor_process_keypress calls St1 ch)
      = some (keypress_outcome.returned S)) :
    (S.quit_pressed_last = true ↔ ch = CTRL_KEY 'q') := by
  cases hs : editor_scroll St with
  | none => rw [hs] at h; exact absurd h (by simp)
  | some St1 =>
    rw [hs, Option.some_bind] at h
    by_cases hq : ch = CTRL_KEY 'q'
    · subst hq
      rw [keypress_quit] at h
      split at h
      · simp only [Option.some.injEq, keypress_outcome.returned.injEq] at h
        subst h
        exact ⟨fun _ => rfl, fun _ => rfl⟩
      · exact absurd h (by simp)
    · obtain ⟨S1, e1, e2⟩ := keypress_flag calls St1 ch _ hq h
      simp only [keypress_outcome.returned.injEq] at e1
      subst e1
      constructor
      · intro e; rw [e2] at e; exact absurd e (by simp)
      · intro e; exact absurd e hq

theorem main_loop_flag (calls : keypress_calls) (keys : List Int) :
    ∀ (St S : config), main_loop calls St keys = some (keypress_outcome.returned S) →
      (S.quit_pressed_last = true
        ↔ keys.getLast? = some (CTRL_KEY 'q')
            ∨ (keys = [] ∧ St.quit_pressed_last = true)) := by
  induction keys with
  | nil =>
    intro St S h
    simp only [main_loop, Option.some.injEq, keypress_outcome.returned.injEq] at h
    subst h
    simp
  | cons ch ks ih =>
    intro St S h
    unfold main_loop at h
    split at h
    · exact absurd h (by simp)
    · exact absurd h (by simp)
    · next S1 he =>
      have hf := main_step_flag calls St S1 ch he
      have hi := ih S1 S h
      rw [hi]
      cases ks with
      | nil => simp [hf]
      | cons k2 ks2 => simp [List.getLast?_cons_cons]

theorem main_loop_append (calls : keypress_calls) (k1 k2 : List Int) :
    ∀ (St S : config), main_loop calls St k1 = some (keypress_outcome.returned S) →
      main_loop calls St (k1 ++ k2) = main_loop calls S k2 := by
  induction k1 with
  | nil =>
    intro St S h
    simp only [main_loop, Option.some.injEq, keypress_outcome.returned.injEq] at h
    subst h
    rfl
  | cons ch ks ih =>
    intro St S h
    unfold main_loop at h
    rw [List.cons_append, main_loop]
    split at h
    · exact absurd h (by simp)
    · exact absurd h (by simp)
    · next S1 he =>
      exact ih S1 S h

theorem scroll_some (St : config) (hv : cursor_valid St) :
    ∃ S, editor_scroll St = some S := by
  obtain ⟨ry, h, _⟩ := evaluate_ry_some St hv
  unfold editor_scroll
  rw [h]
  exact ⟨_, rfl⟩

/-- C21: the quit confirmation gate of `editor_process_keypress`.  With
`modified` nonzero, Ctrl-Q with the flag `quit_pressed_last` clear returns to
the main loop in the same state with only the flag set, and with the flag
set it ends the process; with `modified` zero it ends the process at once.
Every other key whose branch returns (whatever `editor_find` and
`editor_save_file` do) returns with the flag clear, and on a valid state
every key other than Ctrl-Q, Ctrl-F, Ctrl-S, Page Up and Page Down does
return.  So in the main loop started with the flag clear, after any keys
processed without ending the process and leaving `modified` nonzero, a
Ctrl-Q ends the process if and only if the key processed just before it was
Ctrl-Q. -/
theorem C21_quit_confirmation (calls : keypress_calls) (St : config) :
    (St.modified ≠ 0 → St.quit_pressed_last = false →
      editor_process_keypress calls St (CTRL_KEY 'q')
        = some (keypress_outcome.returned { St with quit_pressed_last := true }))
    ∧ (St.modified ≠ 0 → St.quit_pressed_last = true →
        editor_process_keypress calls St (CTRL_KEY 'q') = some keypress_outcome.exited)
    ∧ (St.modified = 0 →
        editor_process_keypress calls St (CTRL_KEY 'q') = some keypress_outcome.exited)
    ∧ (∀ ch out, ch ≠ CTRL_KEY 'q' → editor_process_keypress calls St ch = some out →
        ∃ S, out = keypress_outcome.returned S ∧ S.quit_pressed_last = false)
    ∧ (∀ ch, syntax_advances St → rows_indexed St → cursor_strict St →
        ch ≠ CTRL_KEY 'q' → ch ≠ CTRL_KEY 'f' → ch ≠ CTRL_KEY 's' →
        ch ≠ PAGE_UP → ch ≠ PAGE_DOWN →
        ∃ S, editor_process_keypress calls St ch = some (keypress_outcome.returned S)
          ∧ S.quit_pressed_last = false)
    ∧ (∀ keys S, St.quit_pressed_last = false →
        main_loop calls St keys = some (keypress_outcome.returned S) →
        S.modified ≠ 0 → cursor_valid S →
        (main_loop calls St (keys ++ [CTRL_KEY 'q']) = some keypress_outcome.exited
          ↔ keys.getLast? = some (CTRL_KEY 'q'))) := by
  refine ⟨?_, ?_, ?_, ?_, ?_, ?_⟩
  · intro hm hq
    rw [keypress_quit, if_pos ⟨hm, hq⟩]
  · intro hm hq
    rw [keypress_quit, if_neg (by rw [hq]; simp)]
  · intro hm
    rw [keypress_quit, if_neg (by simp [hm])]
  · intro ch out hq h
    exact keypress_flag calls St ch out hq h
  · intro ch hadv hidx hs hq hf hsv hpu hpd
    exact keypress_total calls St hadv hidx hs ch hq hf hsv hpu hpd
  · intro keys S hq hrun hm hv
    have hflag := main_loop_flag calls keys St S hrun
    obtain ⟨S1, hs1⟩ := scroll_some S hv
    obtain ⟨k1, k2⟩ := scroll_keeps S S1 hs1
    rw [main_loop_append calls keys [CTRL_KEY 'q'] St S hrun]
    unfold main_loop
    rw [hs1, Option.some_bind, keypress_quit]
    have hl : keys.getLast? = some (CTRL_KEY 'q') ↔ S.quit_pressed_last = true := by
      rw [hflag]
      constructor
      · intro e; exact Or.inl e
      · rintro (e | ⟨_, e⟩)
        · exact e
        · rw [hq] at e; exact absurd e (by simp)
    rw [hl, ← k2]
    have hm1 : S1.modified ≠ 0 := by rw [k1]; exact hm
    by_cases hp : S1.quit_pressed_last = true
    · rw [if_neg (by rw [hp]; simp)]
      simp [hp]
    · have hp2 : S1.quit_pressed_last = false := by
        cases h : S1.quit_pressed_last with
        | true => exact absurd h hp
        | false => rfl
      rw [if_pos ⟨hm1, hp2⟩]
      simp [main_loop, hp2]

theorem C21_quit_confirmation_witness :
    main_loop idle_calls (init_editor 24 80) [97, CTRL_KEY 'q']
      = some (keypress_outcome.returned pending_quit_document)
    ∧ raw_texts pending_quit_document = [[97]]
    ∧ pending_quit_document.modified = 1
    ∧ pending_quit_document.quit_pressed_last = true
    ∧ main_loop idle_calls (init_editor 24 80) ([97, CTRL_KEY 'q'] ++ [CTRL_KEY 'q'])
        = some keypress_outcome.exited
    ∧ editor_process_keypress idle_calls
          { pending_quit_document with quit_pressed_last := false } (CTRL_KEY 'q')
        = some (keypress_outcome.returned pending_quit_document)
    ∧ (∃ S, editor_process_keypress idle_calls pending_quit_document 98
          = some (keypress_outcome.returned S) ∧ S.quit_pressed_last = false) :=
  ⟨by rfl, by rfl, by rfl, by rfl,
   ((C21_quit_confirmation idle_calls (init_editor 24 80)).2.2.2.2.2
      [97, CTRL_KEY 'q'] pending_quit_document rfl (by rfl) (by decide) (by decide)).2
      (by rfl),
   (C21_quit_confirmation idle_calls
      { pending_quit_document with quit_pressed_last := false }).1
      (by decide) rfl,
   (C21_quit_confirmation idle_calls pending_quit_document).2.2.2.2.1 98
      (by decide) (by decide) (by decide) (by decide) (by decide) (by decide)
      (by decide) (by decide)⟩

/-! ## backspace -/

theorem backspace_eq (calls : keypress_calls) (St : config) (key : Int)
    (hk : key = BACKSPACE ∨ key = CTRL_KEY 'h') :
    editor_process_keypress calls St key
      = ((editor_move_cursor St ARROW_LEFT).bind
          editor_delete_character_at_cursor).map keypress_end := by
  unfold editor_process_keypress
  have k1 : ¬ key = 13 := by rcases hk with rfl | rfl <;> decide
  have k2 : ¬ key = CTRL_KEY 'q' := by rcases hk with rfl | rfl <;> decide
  have k3 : ¬ key = CTRL_KEY 'f' := by rcases hk with rfl | rfl <;> decide
  have k4 : ¬ key = CTRL_KEY 's' := by rcases hk with rfl | rfl <;> decide
  have k5 : ¬ key = PAGE_UP := by rcases hk with rfl | rfl <;> decide
  have k6 : ¬ key = PAGE_DOWN := by rcases hk with rfl | rfl <;> decide
  have k7 : ¬ key = HOME := by rcases hk with rfl | rfl <;> decide
  have k8 : ¬ key = END := by rcases hk with rfl | rfl <;> decide
  have k9 : ¬ key = DEL_KEY := by rcases hk with rfl | rfl <;> decide
  rw [if_neg k1, if_neg k2, if_neg k3, if_neg k4, if_neg k5, if_neg k6, if_neg k7,
    if_neg k8, if_neg k9, if_pos hk]

/-- Move-left then delete-forward with the cursor after the start of an
existing row: the byte before the cursor goes and the cursor moves one to
the left. -/
theorem left_then_delete_mid (St : config) (hadv : syntax_advances St)
    (hidx : rows_indexed St) (hs : cursor_strict St) (r : erow)
    (hrow : St.rows.get? St.cx.toNat = some r) (hy : 0 < St.cy) :
    ∃ S, (editor_move_cursor St ARROW_LEFT).bind editor_delete_character_at_cursor
        = some S
      ∧ raw_texts S
          = (raw_texts St).set St.cx.toNat (r.characters.eraseIdx (St.cy.toNat - 1))
      ∧ S.cx = St.cx ∧ S.cy = St.cy - 1 ∧ S.num_rows = St.num_rows
      ∧ S.modified = St.modified + 1 := by
  obtain ⟨h0, h1, hn, hy0, hy1⟩ := (cursor_strict_iff St).1 hs
  have hlt : St.cx.toNat < St.rows.length := by
    by_contra hc
    rw [List.get?_eq_none.2 (by omega)] at hrow
    exact absurd hrow (by simp)
  obtain ⟨r1, hrow1, hlen⟩ := row_at St hn St.cx h0 (by omega)
  rw [hrow] at hrow1
  simp only [Option.some.injEq] at hrow1
  subst hrow1
  rw [hlen] at hy1
  rw [move_left_eq St hs, Option.some_bind, if_pos hy]
  obtain ⟨S, d1, d2, d3, _⟩ := delete_mid_row { St with cy := St.cy - 1 } hadv hidx r h0
    hrow (by show 0 ≤ St.cy - 1; omega)
    (by show St.cy - 1 < (r.characters.length : Int); omega)
  refine ⟨S, d1, ?_, ?_, ?_, ?_, ?_⟩
  · rw [d2]
    show (raw_texts St).set St.cx.toNat (r.characters.eraseIdx (St.cy - 1).toNat) = _
    rw [show (St.cy - 1).toNat = St.cy.toNat - 1 by omega]
  · rw [d3]
  · rw [d3]
  · rw [d3]
  · rw [d3]

/-- Move-left then delete-forward at the start of the document, on a first
row that is not empty: the move does nothing and the first byte goes. -/
theorem left_then_delete_origin (St : config) (hadv : syntax_advances St)
    (hidx : rows_indexed St) (hs : cursor_strict St) (r : erow)
    (hx : St.cx = 0) (hy : St.cy = 0) (hrow : St.rows.get? 0 = some r)
    (hne : r.characters ≠ []) :
    ∃ S, (editor_move_cursor St ARROW_LEFT).bind editor_delete_character_at_cursor
        = some S
      ∧ raw_texts S = (raw_texts St).set 0 r.characters.tail
      ∧ S.cx = 0 ∧ S.cy = 0 ∧ S.num_rows = St.num_rows
      ∧ S.modified = St.modified + 1 := by
  have hc : ¬ St.cy > 0 := by omega
  have hc2 : ¬ St.cx > 0 := by omega
  have hpos : 0 < r.characters.length := List.length_pos.2 hne
  rw [move_left_eq St hs, Option.some_bind, if_neg hc, if_neg hc2]
  obtain ⟨S, d1, d2, d3, _⟩ := delete_mid_row St hadv hidx r (by omega)
    (by rw [hx]; exact hrow) (by omega) (by rw [hy]; exact_mod_cast hpos)
  refine ⟨S, d1, ?_, ?_, ?_, ?_, ?_⟩
  · rw [d2, hx, hy]
    show (raw_texts St).set 0 (r.characters.eraseIdx 0) = _
    rw [List.eraseIdx_zero]
  · rw [d3]; exact hx
  · rw [d3]; exact hy
  · rw [d3]
  · rw [d3]

/-- Move-left then delete-forward at the start of a row that has a row
before it: the row is joined to the one before, where the cursor goes. -/
theorem left_then_delete_join (St : config) (hadv : syntax_advances St)
    (hidx : rows_indexed St) (hs : cursor_strict St) (prev r : erow)
    (hx : 0 < St.cx) (hy : St.cy = 0)
    (hprev : St.rows.get? (St.cx.toNat - 1) = some prev)
    (hrow : St.rows.get? St.cx.toNat = some r) :
    ∃ S, (editor_move_cursor St ARROW_LEFT).bind editor_delete_character_at_cursor
        = some S
      ∧ raw_texts S
          = ((raw_texts St).set (St.cx.toNat - 1)
              (prev.characters ++ r.characters)).eraseIdx St.cx.toNat
      ∧ S.cx = St.cx - 1 ∧ S.cy = prev.characters.length
      ∧ S.num_rows = St.num_rows - 1 := by
  obtain ⟨h0, h1, hn, hy0, hy1⟩ := (cursor_strict_iff St).1 hs
  have hc : ¬ St.cy > 0 := by omega
  obtain ⟨p1, hp1, hlen⟩ := row_at St hn (St.cx - 1) (by omega) (by omega)
  have e1 : (St.cx - 1).toNat = St.cx.toNat - 1 := by omega
  rw [e1, hprev] at hp1
  simp only [Option.some.injEq] at hp1
  subst hp1
  rw [move_left_eq St hs, Option.some_bind, if_neg hc, if_pos hx, hlen]
  obtain ⟨S, j1, j2, j3, j4, j5, _⟩ := join_texts
    { St with cx := St.cx - 1, cy := (prev.characters.length : Int) } hadv hidx prev r
    (by show 0 ≤ St.cx - 1; omega)
    (by show St.rows.get? (St.cx - 1).toNat = some prev; rw [e1]; exact hprev)
    (by show St.rows.get? ((St.cx - 1).toNat + 1) = some r
        rw [show (St.cx - 1).toNat + 1 = St.cx.toNat by omega]; exact hrow)
    rfl
  refine ⟨S, j1, ?_, j4, j5, j3⟩
  rw [j2]
  show ((raw_texts St).set (St.cx - 1).toNat (prev.characters ++ r.characters)).eraseIdx
    ((St.cx - 1).toNat + 1) = _
  rw [e1, show St.cx.toNat - 1 + 1 = St.cx.toNat by omega]

/-- C24: Backspace is move-left followed by delete-forward, including at
the document start.  For the key Backspace or Ctrl-H, on a valid state,
`editor_process_keypress` gives what `editor_move_cursor(ARROW_LEFT)`
followed by `editor_delete_character_at_cursor` gives, then clears
`quit_pressed_last` and returns to the main loop.  With the cursor at an
offset `p > 0` of an existing row it returns, the byte at `p - 1` is removed
and the cursor is at `p - 1`; with the cursor at (0, 0) on a first row that
is not empty it returns, the first byte of row 0 is removed and the cursor
stays at (0, 0); with the cursor at the start of a row that has a row before
it, the row is joined to the row before and the cursor goes to the place of
the join. -/
theorem C24_backspace_is_left_then_delete (calls : keypress_calls) (St : config)
    (key : Int) (hk : key = BACKSPACE ∨ key = CTRL_KEY 'h')
    (hadv : syntax_advances St) (hidx : rows_indexed St) (hs : cursor_strict St) :
    editor_process_keypress calls St key
      = ((editor_move_cursor St ARROW_LEFT).bind
          editor_delete_character_at_cursor).map keypress_end
    ∧ (∀ r, St.rows.get? St.cx.toNat = some r → 0 < St.cy →
        ∃ S, editor_process_keypress calls St key = some (keypress_outcome.returned S)
          ∧ raw_texts S
              = (raw_texts St).set St.cx.toNat (r.characters.eraseIdx (St.cy.toNat - 1))
          ∧ S.cx = St.cx ∧ S.cy = St.cy - 1 ∧ S.num_rows = St.num_rows
          ∧ S.quit_pressed_last = false)
    ∧ (∀ r, St.cx = 0 → St.cy = 0 → St.rows.get? 0 = some r → r.characters ≠ [] →
        ∃ S, editor_process_keypress calls St key = some (keypress_outcome.returned S)
          ∧ raw_texts S = (raw_texts St).set 0 r.characters.tail
          ∧ S.cx = 0 ∧ S.cy = 0 ∧ S.num_rows = St.num_rows
          ∧ S.quit_pressed_last = false)
    ∧ (∀ prev r, 0 < St.cx → St.cy = 0 →
        St.rows.get? (St.cx.toNat - 1) = some prev →
        St.rows.get? St.cx.toNat = some r →
        ∃ S, editor_process_keypress calls St key = some (keypress_outcome.returned S)
          ∧ raw_texts S
              = ((raw_texts St).set (St.cx.toNat - 1)
                  (prev.characters ++ r.characters)).eraseIdx St.cx.toNat
          ∧ S.cx = St.cx - 1 ∧ S.cy = prev.characters.length
          ∧ S.num_rows = St.num_rows - 1
          ∧ S.quit_pressed_last = false) := by
  have hb := backspace_eq calls St key hk
  refine ⟨hb, ?_, ?_, ?_⟩
  · intro r hrow hy
    obtain ⟨S, e, t, c1, c2, c3, _⟩ := left_then_delete_mid St hadv hidx hs r hrow hy
    rw [hb, e]
    exact ⟨_, rfl, t, c1, c2, c3, rfl⟩
  · intro r hx hy hrow hne
    obtain ⟨S, e, t, c1, c2, c3, _⟩ :=
      left_then_delete_origin St hadv hidx hs r hx hy hrow hne
    rw [hb, e]
    exact ⟨_, rfl, t, c1, c2, c3, rfl⟩
  · intro prev r hx hy hprev hrow
    obtain ⟨S, e, t, c1, c2, c3⟩ :=
      left_then_delete_join St hadv hidx hs prev r hx hy hprev hrow
    rw [hb, e]
    exact ⟨_, rfl, t, c1, c2, c3, rfl⟩

theorem C24_backspace_is_left_then_delete_witness :
    raw_texts ab_document = [cstr "ab"]
    ∧ (ab_document.cx, ab_document.cy) = (0, 0)
    ∧ (∃ S, editor_process_keypress idle_calls ab_document BACKSPACE
          = some (keypress_outcome.returned S)
        ∧ raw_texts S = [cstr "b"] ∧ S.cx = 0 ∧ S.cy = 0)
    ∧ (∃ S, editor_process_keypress idle_calls { ab_document with cy := 2 } (CTRL_KEY 'h')
          = some (keypress_outcome.returned S)
        ∧ raw_texts S = [cstr "a"] ∧ S.cx = 0 ∧ S.cy = 1) :=
  ⟨by rfl, by rfl,
   match (C24_backspace_is_left_then_delete idle_calls ab_document BACKSPACE
        (Or.inl rfl) (by decide) (by decide) (by decide)).2.2.1
        { idx := 0, characters := cstr "ab", render := cstr "ab",
          hl := [HL_NORMAL, HL_NORMAL], hl_open_comment := false }
        (by rfl) (by rfl) (by rfl) (by decide) with
   | ⟨S, h1, h2, h3, h4, _⟩ => ⟨S, h1, by rw [h2]; rfl, h3, h4⟩,
   match (C24_backspace_is_left_then_delete idle_calls { ab_document with cy := 2 }
        (CTRL_KEY 'h') (Or.inr rfl) (by decide) (by decide) (by decide)).2.1
        { idx := 0, characters := cstr "ab", render := cstr "ab",
          hl := [HL_NORMAL, HL_NORMAL], hl_open_comment := false }
        (by rfl) (by decide) with
   | ⟨S, h1, h2, h3, h4, _⟩ => ⟨S, h1, by rw [h2]; rfl, h3, by rw [h4]; rfl⟩⟩

end SEdit
